import Mathlib

/-!
# Verification of the ASSET explicit-state model checker core (`src/asset.cc`)

This file contains a shallow embedding, in Lean 4, of the core data
structures and algorithms of ASSET (Antti's State Space Exploration Tool):
the bit-packed state-variable store, the chained hash store of discovered
states, the breadth-first state-space constructor with its transition trial
engine, the back-edge materializer, the progress verifier, and the
counterexample ("typical sequence") walker.  Machine `unsigned` arithmetic
is modelled as natural-number arithmetic modulo `2 ^ 32`; the `std::vector`
buffers are modelled as lists; fallible code threads an explicit error slot
mirroring the global `err_msg`.

Theorems about the embedding settle the specification claims about the
program, one theorem per claim.
-/

namespace Asset

/-! ## Machine words

ASSET packs state variables into C `unsigned` words
(`sizeof( unsigned )*8` bits, taken to be 32 here).  Arithmetic on them
wraps modulo `2 ^ 32`. -/

/-- Number of bits in the machine word used for packing (`unsigned`). -/
def wordBits : ℕ := 32

/-- `2 ^ 32`; C `unsigned` arithmetic is performed modulo this. -/
def wordSize : ℕ := 2 ^ wordBits

/-- Bitwise complement of a 32-bit word, C `~x` on an `unsigned` value. -/
def compl32 (x : ℕ) : ℕ := x ^^^ (wordSize - 1)

/-! ## The state-variable store (`class state_var`, lines 169-274)

A state variable handle stores `(word, shift, mask)`, assigned at
declaration time by a global packer tracking `nr_words` and `tot_bits`. -/

/-- A state-variable handle (`word`, `shift`, `mask` of `class state_var`). -/
structure state_var where
  word : ℕ
  shift : ℕ
  mask : ℕ
deriving DecidableEq

/-- The declaration-time packer state (`state_var::nr_words`,
`state_var::tot_bits`, `state_var::started`). -/
structure Packer where
  started : Bool
  nrWords : ℕ
  totBits : ℕ
deriving DecidableEq

/-- `state_var::state_var( unsigned nr_bits )`: allocates `nr_bits` bits in
the current word, or starts a new word if they do not fit.  Returns the
handle, the updated packer, and the error slot (the two failing branches
return with the handle fields never written; we return the zero handle
there and signal via the error).  Source lines 188-200. -/
def declareVar (p : Packer) (err : Option String) (nrBits : ℕ) :
    state_var × Packer × Option String :=
  if p.started then
    (⟨0, 0, 0⟩, p, some "State variables must not be created after start")
  else if wordBits < nrBits then
    (⟨0, 0, 0⟩, p, some "Too many bits in a state variable")
  else
    let p' : Packer :=
      if wordBits < p.totBits + nrBits then ⟨p.started, p.nrWords + 1, 0⟩ else p
    (⟨p'.nrWords - 1, p'.totBits, ((1 <<< nrBits) - 1) <<< p'.totBits⟩,
     ⟨p'.started, p'.nrWords, p'.totBits + nrBits⟩, err)

/-- `state_var::operator unsigned()` restricted to the word holding the
variable: extract the field from inside the word.  Source lines 203-205. -/
def sv_read (sv : state_var) (dataWord : ℕ) : ℕ :=
  (dataWord &&& sv.mask) >>> sv.shift

/-- `state_var::operator=( unsigned val )` with the sanity check compiled in
(`no_sanity_chk` not defined), restricted to the word holding the variable:
possibly set the error slot, clear the field, and OR the shifted value in.
Source lines 208-217. -/
def sv_assign (sv : state_var) (err : Option String) (dataWord val : ℕ) :
    Option String × ℕ :=
  let shifted := (val <<< sv.shift) % wordSize
  let err' := if shifted &&& compl32 sv.mask ≠ 0 then
      some "Assigned an out of range value to a variable" else err
  (err', dataWord &&& compl32 sv.mask ||| shifted)

/-! ## Nodes, the global store, and the hash table

`struct node_type` (lines 370-378), the raw state data `st_data`, the hash
table (lines 397-448), and the word-level operations on them. -/

/-- Per-state metadata (`struct node_type`, with `no_progr_chk` not
defined, so the progress fields are present). -/
structure node_type where
  h_next : ℕ
  prev : ℕ
  e_cnt : ℕ
  p_next : ℕ
  ie_end : ℕ
deriving DecidableEq

/-- A value-initialised `node_type`, as produced by `nodes.resize`. -/
def node0 : node_type := ⟨0, 0, 0, 0, 0⟩

/-- The compile-time numeric configuration: `state_var::nr_words` (fixed
once declarations end), `hash_bits` and `stop_count`. -/
structure Config where
  nrWords : ℕ
  hashBits : ℕ
  stopCount : ℕ
deriving DecidableEq

/-- The process-wide mutable state of the checker core: the raw state data
`state_var::st_data`, the node table `nodes`, the hash table `hash_tbl`,
the flag `hash_was_new`, the edge counter `nr_edges`, the current-state
index `state_var::state_nr` and the error slot `err_msg`. -/
structure Sys where
  stData : List ℕ
  nodes : List node_type
  hashTbl : ℕ → ℕ
  hashWasNew : Bool
  nrEdges : ℕ
  stateNr : ℕ
  err : Option String

/-- The `nr_words` words of state number `ni` inside `st_data`. -/
def stateWords (nw : ℕ) (st : List ℕ) (ni : ℕ) : List ℕ :=
  (st.drop (ni * nw)).take nw

/-- Overwrite the words starting at position `pos` of `st` with `ws`
(word-by-word `st_data[ pos+k ] = ws[k]`). -/
def writeWords (st : List ℕ) (pos : ℕ) : List ℕ → List ℕ
  | [] => st
  | w :: rest => writeWords (st.set pos w) (pos + 1) rest

/-- `use_state( ni )` (line 383): make `ni` the current state. -/
def use_state (s : Sys) (ni : ℕ) : Sys := { s with stateNr := ni }

/-- `fire_init( ni )` (lines 386-394): copy state `ni` to the first unused
locations (the scratch slot at index `nodes.size()`) and make the scratch
slot the current state. -/
def fire_init (nw : ℕ) (s : Sys) (ni : ℕ) : Sys :=
  let st := writeWords s.stData (s.nodes.length * nw) (stateWords nw s.stData ni)
  use_state { s with stData := st } s.nodes.length

/-- `std::vector::resize( len )`: truncate or extend with zeroes. -/
def resizeTo (st : List ℕ) (len : ℕ) : List ℕ :=
  st.take len ++ List.replicate (len - st.length) 0

/-- One word of the hash mixing loop of `hash_try` (lines 416-420):
`idx ^= w; idx ^= idx>>hb; idx = idx*1234567 + 5555555;
idx ^= idx>>hb; idx = idx*1234567 + 5555555;` in 32-bit arithmetic. -/
def hashStep (hb idx w : ℕ) : ℕ :=
  let i1 := idx ^^^ w
  let i2 := i1 ^^^ (i1 >>> hb)
  let i3 := (i2 * 1234567 + 5555555) % wordSize
  let i4 := i3 ^^^ (i3 >>> hb)
  (i4 * 1234567 + 5555555) % wordSize

/-- The hash value of a word list, masked to `hash_bits` bits
(lines 412-421). -/
def hashOf (hb : ℕ) (ws : List ℕ) : ℕ :=
  (ws.foldl (hashStep hb) 0) &&& ((1 <<< hb) - 1)

/-- The bucket traversal of `hash_try` (lines 424-428): from node `ni`,
compare the stored words against `target` and follow `h_next` on mismatch,
until a match is found (return its index) or the end mark 0 is reached
(return 0).  The C loop carries no fuel; under the store invariant every
chain reaches 0 within `nodes.length` steps, so the fuel passed by
`hash_try` never runs out and the embedding agrees with the loop. -/
def chainFind (nw : ℕ) (s : Sys) (target : List ℕ) (fuel : ℕ) (ni : ℕ) : ℕ :=
  match fuel with
  | 0 => 0
  | fuel + 1 =>
    if ni = 0 then 0
    else if stateWords nw s.stData ni = target then ni
    else chainFind nw s target fuel (s.nodes.getD ni node0).h_next

/-- `hash_try( no_ins )` (lines 409-445).  The state searched for is the
one in the scratch slot (the next `nr_words` locations past the stored
states).  Returns the C return value together with the updated globals. -/
def hash_try (cfg : Config) (s : Sys) (no_ins : Bool) : ℕ × Sys :=
  let target := stateWords cfg.nrWords s.stData s.nodes.length
  let idx := hashOf cfg.hashBits target
  let ni := chainFind cfg.nrWords s target (s.nodes.length + 1) (s.hashTbl idx)
  if ni ≠ 0 then (ni, { s with hashWasNew := false })
  else if no_ins then (0, s)
  else
    let n := s.nodes.length
    if cfg.stopCount < n then
      (n, { s with err := some "Maximum number of states exceeded" })
    else
      (n, { s with
        nodes := s.nodes ++ [{ node0 with h_next := s.hashTbl idx }],
        stData := resizeTo s.stData ((n + 2) * cfg.nrWords),
        hashTbl := Function.update s.hashTbl idx n,
        hashWasNew := true })

/-- `hash_find()` (line 447). -/
def hash_find (cfg : Config) (s : Sys) : ℕ × Sys := hash_try cfg s true

/-- `hash_insert()` (line 448). -/
def hash_insert (cfg : Config) (s : Sys) : ℕ × Sys := hash_try cfg s false

/-! ### The hash-store invariant and the behaviour of `hash_try` -/

/-- The `h_next` chain starting at `ni`, unfolded for at most `fuel`
nodes. -/
def chainList (s : Sys) (fuel : ℕ) (ni : ℕ) : List ℕ :=
  match fuel with
  | 0 => []
  | fuel + 1 =>
    if ni = 0 then []
    else ni :: chainList s fuel (s.nodes.getD ni node0).h_next

/-- Where the `h_next` walk from `ni` stops after at most `fuel` steps
(`0` iff the chain has reached its end mark). -/
def chainTail (s : Sys) (fuel : ℕ) (ni : ℕ) : ℕ :=
  match fuel with
  | 0 => ni
  | fuel + 1 =>
    if ni = 0 then 0
    else chainTail s fuel (s.nodes.getD ni node0).h_next

/-- The hash-store invariant relied on throughout exploration:
`st_data` holds the stored states plus one scratch slot; every chain entry
is a valid node index; every chain reaches its end mark within
`nodes.length` steps; every stored node lies on the chain of the bucket
its words hash to; and distinct stored nodes hold distinct states. -/
structure HashWF (cfg : Config) (s : Sys) : Prop where
  size : s.stData.length = (s.nodes.length + 1) * cfg.nrWords
  chain_valid : ∀ b < 2 ^ cfg.hashBits,
    ∀ ni ∈ chainList s (s.nodes.length + 1) (s.hashTbl b),
      1 ≤ ni ∧ ni < s.nodes.length
  chain_end : ∀ b < 2 ^ cfg.hashBits,
    chainTail s (s.nodes.length + 1) (s.hashTbl b) = 0
  member : ∀ ni < s.nodes.length, 1 ≤ ni →
    ni ∈ chainList s (s.nodes.length + 1)
      (s.hashTbl (hashOf cfg.hashBits (stateWords cfg.nrWords s.stData ni)))
  distinct : ∀ ni < s.nodes.length, ∀ nj < s.nodes.length,
    1 ≤ ni → 1 ≤ nj →
    stateWords cfg.nrWords s.stData ni = stateWords cfg.nrWords s.stData nj →
    ni = nj


/-! ## The back-edge materializer (`construct_input_edges`, lines 752-764)

The second `build_state_space` pass re-discovers the same edges as the
forward pass and, for each fired edge, `try_transition` (lines 570-575)
runs `iedges[ nodes[ hash_find() ].ie_end++ ] = n1`.  We embed the pass
over the list `E` of `(source, target)` pairs it enumerates, in discovery
order; the forward pass has left each node's `e_cnt` equal to its
in-degree in `E`. -/

/-- The prefix-sum pass (lines 756-759): `ie_end[0] = ie_end[1] = 0` and
`ie_end[ni] = ie_end[ni-1] + e_cnt[ni-1]` for `ni ≥ 2`. -/
def preIeEnd (ecnt : ℕ → ℕ) : ℕ → ℕ
  | 0 => 0
  | 1 => 0
  | ni + 2 => preIeEnd ecnt (ni + 1) + ecnt (ni + 1)

/-- One back-edge recording step (`try_transition` lines 570-575 in
`bss_second` mode): write the source into `iedges` at the target's
`ie_end` cursor and post-increment the cursor. -/
def recordEdge (st : (ℕ → ℕ) × (ℕ → ℕ)) (e : ℕ × ℕ) : (ℕ → ℕ) × (ℕ → ℕ) :=
  (Function.update st.1 (st.2 e.2) e.1,
   Function.update st.2 e.2 (st.2 e.2 + 1))

/-- The recording pass: fold `recordEdge` over the edges in discovery
order. -/
def recordEdges (ied ieEnd : ℕ → ℕ) (E : List (ℕ × ℕ)) : (ℕ → ℕ) × (ℕ → ℕ) :=
  E.foldl recordEdge (ied, ieEnd)

/-- `construct_input_edges()` (lines 752-764): allocate `iedges`, run the
prefix-sum pass over `e_cnt`, then re-drive `build_state_space` in
back-edge recording mode over the re-discovered edge list `E`.  Returns
the final `(iedges, ie_end)`. -/
def construct_input_edges (ecnt : ℕ → ℕ) (E : List (ℕ × ℕ)) :
    (ℕ → ℕ) × (ℕ → ℕ) :=
  recordEdges (fun _ => 0) (preIeEnd ecnt) E

/-- The predecessors of node `t` along the edge list `E`, with
multiplicity, in discovery order. -/
def predsOf (E : List (ℕ × ℕ)) (t : ℕ) : List ℕ :=
  (E.filter (fun e => decide (e.2 = t))).map Prod.fst

/-- The in-degree of node `t` along the edge list `E`. -/
def indegOf (E : List (ℕ × ℕ)) (t : ℕ) : ℕ := (predsOf E t).length

/-- The contents of `iedges[lo .. lo+len)`. -/
def sliceOf (ied : ℕ → ℕ) (lo len : ℕ) : List ℕ := (List.range' lo len).map ied

/-! ## The progress verifier (`verify_progress`, lines 767-864)

`verify_progress( round )` reads the back-edge structure left by
`construct_input_edges` — `nodes.size()`, the `iedges` array and the
post-pass `ie_end` cursors — together with the per-node progress predicate
(`is_may_progress` resp. `is_must_progress`, evaluated on node `ni`'s
stored state after `use_state( ni )`; stored states are immutable by then,
so the predicate is a function of the node index).  It labels nodes with
`e_cnt` as an open-obligation counter and back-propagates along the
incoming-edge slices. -/

/-- The input of `verify_progress`. -/
structure PGraph where
  nsize : ℕ
  iedges : List ℕ
  ieEnd : ℕ → ℕ
  prog : ℕ → Bool

/-- The incoming-edge slice of node `cur` as read by the wave
(lines 823-825): `iedges[ei]` for `ei ∈ [ie_end (cur-1), ie_end cur)`. -/
def sliceEdges (g : PGraph) (cur : ℕ) : List ℕ :=
  (List.range' (g.ieEnd (cur - 1)) (g.ieEnd cur - g.ieEnd (cur - 1))).map
    (fun ei => g.iedges.getD ei 0)

/-- The initial non-progress numbers (lines 769-779): zero everywhere,
then for round 1 count each node's occurrences as a source in `iedges`
(its out-degree), otherwise set 1 on every node occurring as a source. -/
def initEcnt (g : PGraph) (round : ℕ) : ℕ → ℕ :=
  if round = 1 then
    g.iedges.foldl (fun f src => Function.update f src (f src + 1)) (fun _ => 0)
  else
    g.iedges.foldl (fun f src => Function.update f src 1) (fun _ => 0)

/-- The value the marking pass leaves on one node, as a function of the
node's progress bit, the `dl_not_*` flag, and the incoming value. -/
def markVal (p : Bool) (dlNot : Bool) (v : ℕ) : ℕ :=
  let v1 := if dlNot = true ∧ v = 0 then 1 else v
  if v1 ≠ 0 ∧ p = true then 0 else v1

/-- The progress marking for one node (lines 783-796 resp. 799-813): with
`dl_not_may` / `dl_not_must` in effect, a node without obligations (a
terminal) first receives obligation 1; then a node with a pending
obligation whose state satisfies the round's progress predicate is reset
to 0. -/
def mark0 (g : PGraph) (dlNot : Bool) (f : ℕ → ℕ) (ni : ℕ) : ℕ → ℕ :=
  let f1 := if dlNot = true ∧ f ni = 0 then Function.update f ni 1 else f
  if f1 ni ≠ 0 ∧ g.prog ni = true then Function.update f1 ni 0 else f1

/-- The marking pass over all nodes `1 ≤ ni < nodes.size()`. -/
def markPass (g : PGraph) (dlNot : Bool) (f : ℕ → ℕ) : ℕ → ℕ :=
  (List.range' 1 (g.nsize - 1)).foldl (mark0 g dlNot) f

/-- One decrement step of the backward wave (lines 826-833): the source
`ni` of an incoming edge of the node being processed loses one open
obligation; on reaching zero it is inserted directly after the current
worklist node, so newly zeroed nodes run next, most recent first — here
they are collected most-recent-first in the second component. -/
def waveEdge (st : (ℕ → ℕ) × List ℕ) (ni : ℕ) : (ℕ → ℕ) × List ℕ :=
  if st.1 ni = 0 then st
  else
    let f := Function.update st.1 ni (st.1 ni - 1)
    if st.1 ni - 1 = 0 then (f, ni :: st.2) else (f, st.2)

/-- Process one worklist node: decrement along its incoming-edge slice. -/
def waveNode (g : PGraph) (f : ℕ → ℕ) (cur : ℕ) : (ℕ → ℕ) × List ℕ :=
  (sliceEdges g cur).foldl waveEdge (f, [])

/-- The backward-propagation loop (lines 822-835), fuelled; the fuel
passed by `verify_progress` dominates the loop's true iteration count
because every node enters the worklist at most once. -/
def waveRun (g : PGraph) : ℕ → (ℕ → ℕ) → List ℕ → (ℕ → ℕ)
  | 0, f, _ => f
  | _ + 1, f, [] => f
  | fuel + 1, f, cur :: rest =>
    let r := waveNode g f cur
    waveRun g fuel r.1 (r.2 ++ rest)

/-- The initial worklist (lines 818-821): every node whose `e_cnt` is
already zero, linked by prepending while scanning upwards — so the list
runs highest index first. -/
def initPList (g : PGraph) (f : ℕ → ℕ) : List ℕ :=
  (List.range' 1 (g.nsize - 1)).foldl
    (fun acc ni => if f ni = 0 then ni :: acc else acc) []

/-- `verify_progress( round )` (lines 767-864): initialise the obligation
counters for the round, run the marking pass (rounds 0 and 1; `dlNot` is
`dl_not_may` for round 0 and `dl_not_must` for round 1, and `prog` the
round's progress predicate), build the worklist, and run the backward
wave.  Returns the final `e_cnt` labelling, from which the error scan
(lines 838-862) reports any node left with `e_cnt > 0`. -/
def verify_progress (g : PGraph) (dlNot : Bool) (round : ℕ) : ℕ → ℕ :=
  let f0 := initEcnt g round
  let f1 := if round = 0 ∨ round = 1 then markPass g dlNot f0 else f0
  waveRun g (g.iedges.length + 2 * g.nsize + 1) f1 (initPList g f1)

/-- Forward edge of the reconstructed graph: `s → t` iff `s` occurs in
node `t`'s incoming slice. -/
def edgeFwd (g : PGraph) (s t : ℕ) : Prop :=
  1 ≤ t ∧ t < g.nsize ∧ s ∈ sliceEdges g t

/-- A node with no outgoing edges (it occurs nowhere as a source). -/
def terminal (g : PGraph) (x : ℕ) : Prop := x ∉ g.iedges

/-- Reachability along forward edges. -/
inductive Reach (g : PGraph) : ℕ → ℕ → Prop
  | refl (a : ℕ) : Reach g a a
  | head (a b c : ℕ) : edgeFwd g a b → Reach g b c → Reach g a c

/-- The least set of nodes from which `sat` is unavoidable: `sat` nodes,
and nodes with at least one outgoing edge all of whose forward successors
are already in the set. -/
inductive Inev (g : PGraph) (sat : ℕ → Prop) : ℕ → Prop
  | base (x : ℕ) : sat x → Inev g sat x
  | step (x : ℕ) : 0 < g.iedges.count x →
      (∀ t, edgeFwd g x t → Inev g sat t) → Inev g sat x

/-- One step of a maximal forward walk: follow an edge, or stutter in a
node that has no forward successor. -/
def pathStep (g : PGraph) (a b : ℕ) : Prop :=
  edgeFwd g a b ∨ ((¬ ∃ t, edgeFwd g a t) ∧ b = a)

/-- Well-formedness of the back-edge structure, as established by
`construct_input_edges` (claim C3): sources are valid node indices, the
cursors start at 0, grow monotonically, and end at `nr_edges`. -/
structure PWF (g : PGraph) : Prop where
  val : ∀ e ∈ g.iedges, 1 ≤ e ∧ e < g.nsize
  end0 : g.ieEnd 0 = 0
  mono : ∀ i < g.nsize, 1 ≤ i → g.ieEnd (i - 1) ≤ g.ieEnd i
  last : g.ieEnd (g.nsize - 1) = g.iedges.length

/-- The number of decrements node `x` has received from the processed
worklist nodes `done` (one per occurrence of `x` in a processed node's
incoming slice). -/
def cntTo (g : PGraph) (x : ℕ) (done : List ℕ) : ℕ :=
  (done.map (fun cur => (sliceEdges g cur).count x)).sum

/-- The number of valid nodes with a pending obligation; together with the
worklist length this bounds the remaining wave iterations. -/
def nzCard (g : PGraph) (f : ℕ → ℕ) : ℕ :=
  ((Finset.Ico 1 g.nsize).filter (fun x => f x ≠ 0)).card

/-! ## The trial engine and the breadth-first explorer
(`try_transition`, lines 555-599, and `build_state_space`, lines 602-742)

The model is consumed through its documented interface: `fire_transition`
acts on the current state's words (the scratch slot during exploration),
returns `none` and leaves the state unchanged when disabled, and may set
the error slot; `check_state` (compiled under `chk_state`) inspects the
current state.  `symmetry` and `stubborn` are not defined, and the sanity
checks and progress bookkeeping are compiled in (the defaults). -/

/-- The model interface. -/
structure Model where
  nrTrans : ℕ
  fire : ℕ → List ℕ → Option (List ℕ)
  fireErr : ℕ → List ℕ → Option String
  checkState : Option (List ℕ → Option String)

/-- The result of one `try_transition`: the new globals, the C return
value, and whether a node-table subscript was out of range (an undefined
`std::vector` access in the source; the total embedding records it and
leaves the table unchanged there). -/
structure TTResult where
  sys : Sys
  fired : Bool
  oob : Bool

/-- `try_transition( n1, tr )` (lines 555-599) in forward mode
(`bss_second = false`): fire from the scratch slot, bail out on a firing
error or a disabled transition, then `hash_insert` the successor, count
the edge (`++nr_edges; ++nodes[n2].e_cnt`), and if the state was new
record its finding predecessor and check it for safety; finally restore
the scratch from the source and report success. -/
def try_transition (cfg : Config) (M : Model) (s : Sys) (n1 tr : ℕ) :
    TTResult :=
  let scratch := stateWords cfg.nrWords s.stData s.nodes.length
  let fr := M.fire tr scratch
  let s0 : Sys :=
    match fr with
    | none => s
    | some ws =>
      { s with stData :=
          writeWords s.stData (s.nodes.length * cfg.nrWords) ws }
  let err1 : Option String :=
    match M.fireErr tr scratch with
    | some m => some m
    | none => s0.err
  let s1 : Sys := { s0 with err := err1 }
  if err1.isSome then ⟨s1, false, false⟩
  else
    match fr with
    | none => ⟨s1, false, false⟩
    | some _ =>
      let r := hash_insert cfg s1
      let n2 := r.1
      let s3 : Sys := { r.2 with nrEdges := r.2.nrEdges + 1 }
      let oob1 := decide (s3.nodes.length ≤ n2)
      let nd := s3.nodes.getD n2 node0
      let s4 : Sys :=
        { s3 with nodes := s3.nodes.set n2 { nd with e_cnt := nd.e_cnt + 1 } }
      if s4.hashWasNew then
        let nd2 := s4.nodes.getD n2 node0
        let s5 : Sys :=
          { s4 with nodes := s4.nodes.set n2 { nd2 with prev := n1 } }
        match M.checkState with
        | some chk =>
          let err2 := chk (stateWords cfg.nrWords s5.stData n2)
          let s6 : Sys := { s5 with err := err2 }
          if err2.isSome then ⟨s6, true, oob1⟩
          else ⟨fire_init cfg.nrWords s6 n1, true, oob1⟩
        | none => ⟨fire_init cfg.nrWords s5 n1, true, oob1⟩
      else ⟨fire_init cfg.nrWords s4 n1, true, oob1⟩

/-- The inner transition loop of `build_state_space` (lines 644-652,
without `stubborn`): try the transitions in the given order, returning as
soon as the error slot is set. -/
def tryAll (cfg : Config) (M : Model) (n1 : ℕ) : Sys → List ℕ → Sys
  | s, [] => s
  | s, tr :: rest =>
    let r := try_transition cfg M s n1 tr
    if r.sys.err.isSome then r.sys
    else tryAll cfg M n1 r.sys rest

/-- One iteration of the breadth-first loop (lines 622-733, forward mode):
record `old_edges`, copy the queue node into the scratch slot, try every
transition in decreasing order, and if no edge was added check the
terminal state against `check_deadlock` (when compiled in). -/
def bfsStep (cfg : Config) (M : Model)
    (cdl : Option (List ℕ → Option String)) (s : Sys) (q : ℕ) : Sys :=
  let oldEdges := s.nrEdges
  let s1 := fire_init cfg.nrWords s q
  let s2 := tryAll cfg M q s1 (List.range M.nrTrans).reverse
  if s2.err.isSome then s2
  else if oldEdges = s2.nrEdges then
    match cdl with
    | some f =>
      { use_state s2 q with err := f (stateWords cfg.nrWords s2.stData q) }
    | none => s2
  else s2

/-- The breadth-first queue loop: the cursor `q_first` scans
`[1, nodes.size())` while the node table grows; fuelled (the C loop
terminates exactly when the state space is finite, which the fuel chosen
by a caller asserts via `bfs_done`). -/
def bfsLoop (cfg : Config) (M : Model)
    (cdl : Option (List ℕ → Option String)) : ℕ → Sys → ℕ → Sys
  | 0, s, _ => s
  | fuel + 1, s, q =>
    if q < s.nodes.length then
      let s1 := bfsStep cfg M cdl s q
      if s1.err.isSome then s1
      else bfsLoop cfg M cdl fuel s1 (q + 1)
    else s

/-- Whether the fuelled queue loop actually drained the queue. -/
def bfsDone (cfg : Config) (M : Model)
    (cdl : Option (List ℕ → Option String)) : ℕ → Sys → ℕ → Bool
  | 0, _, _ => false
  | fuel + 1, s, q =>
    if q < s.nodes.length then
      let s1 := bfsStep cfg M cdl s q
      if s1.err.isSome then false
      else bfsDone cfg M cdl fuel s1 (q + 1)
    else true

/-- `build_state_space()` (lines 602-742) in forward mode with default
flags: drain the queue from node 1. -/
def build_state_space (cfg : Config) (M : Model)
    (cdl : Option (List ℕ → Option String)) (fuel : ℕ) (s : Sys) : Sys :=
  bfsLoop cfg M cdl fuel s 1

/-! ## The typical-sequence walker (`print_typical`, lines 478-513)

The walk repurposes `e_cnt` as a path marker.  Each do-while iteration
scans the transitions in ascending order from the walk's current node. -/

/-- The transition scan of one `print_typical` iteration (lines 490-504):
from the current node `nprev` (whose words fill the scratch slot), try
`count` transitions starting at `tr`; a fired successor is looked up
(`hash_find` when `no_ins`, otherwise `hash_insert`, a fresh node getting
`e_cnt = 1`) and adopted — ending the scan — iff its index is nonzero and
its `e_cnt` is nonzero; otherwise the scratch is restored from `nprev` and
the scan continues. -/
def typScan (cfg : Config) (M : Model) (no_ins : Bool) (nprev : ℕ) :
    ℕ → Sys → ℕ → Sys × Option ℕ
  | 0, s, _ => (s, none)
  | count + 1, s, tr =>
    let scratch := stateWords cfg.nrWords s.stData s.nodes.length
    match M.fire tr scratch with
    | none => typScan cfg M no_ins nprev count s (tr + 1)
    | some ws =>
      let s1 : Sys :=
        { s with stData :=
            writeWords s.stData (s.nodes.length * cfg.nrWords) ws }
      let r := hash_try cfg s1 no_ins
      let ni := r.1
      let s2 := r.2
      let s3 : Sys :=
        if no_ins = false ∧ s2.hashWasNew then
          let nd := { (s2.nodes.getD ni node0) with e_cnt := 1 }
          { s2 with nodes := s2.nodes.set ni nd }
        else s2
      if ni ≠ 0 ∧ (s3.nodes.getD ni node0).e_cnt ≠ 0 then (s3, some ni)
      else typScan cfg M no_ins nprev count (fire_init cfg.nrWords s3 nprev)
        (tr + 1)

/-- The node that the scan of `print_typical` would consider at transition
`tr` when the walk stands at node `nprev`: the looked-up index of the
fired successor, or `none` when `tr` is disabled. -/
def typTryAt (cfg : Config) (M : Model) (no_ins : Bool) (s : Sys)
    (nprev tr : ℕ) : Option ℕ :=
  match M.fire tr (stateWords cfg.nrWords s.stData nprev) with
  | none => none
  | some ws =>
    some (hash_try cfg
      { s with stData :=
          writeWords s.stData (s.nodes.length * cfg.nrWords) ws }
      no_ins).1

/-- A concrete back-edge structure for witnesses: three nodes (the unused
sentinel 0, plus nodes 1 and 2), one edge `1 -> 2` recorded in node 2's
incoming slice, and node 2 marked as the progress state. -/
def gC12 : PGraph :=
  { nsize := 3
    iedges := [1]
    ieEnd := fun i => if i ≤ 1 then 0 else 1
    prog := fun x => x == 2 }

/-- A tiny concrete configuration: one word per state, a 1-bit (2-bucket)
hash table, capacity 100 states. -/
def cfgC6 : Config := ⟨1, 1, 100⟩

/-- A concrete store holding the single state `[5]` (node 1), with `[7]` in
the scratch slot and a stale `hash_was_new = true` left over from the
insertion that created node 1. -/
def sC6 : Sys :=
  { stData := [0, 5, 7]
    nodes := [node0, node0]
    hashTbl := fun b => if b = hashOf 1 [5] then 1 else 0
    hashWasNew := true
    nrEdges := 0
    stateNr := 2
    err := none }

/-- `report_error( ni, msg )` (lines 467-475): the function-static flag
`reported` suppresses every call after the first.  The embedding takes the
flag and returns its new value paired with whether this call printed a
report. -/
def report_error (reported : Bool) (_ni : ℕ) (_msg : String) : Bool × Bool :=
  if reported then (reported, false) else (true, true)

/-- A configuration whose capacity is already exhausted by the two stored
nodes of `sC6`: `stop_count = 1`. -/
def cfgCap : Config := ⟨1, 1, 1⟩

/-- A model for the capacity scenario: from the scratch contents `[7]`
transition 0 fires into the fresh state `[9]`, firing never errs, and the
compiled-in `check_state` rejects `[9]`. -/
def MCap : Model :=
  { nrTrans := 1
    fire := fun tr ws => if tr = 0 ∧ ws = [7] then some [9] else none
    fireErr := fun _ _ => none
    checkState := some fun ws =>
      if ws = [9] then some "Safety check failed" else none }

/-- `sC6` after transition 0 has fired: the scratch slot holds `[9]`. -/
def sCapPost : Sys :=
  { sC6 with stData :=
      writeWords sC6.stData (sC6.nodes.length * cfgCap.nrWords) [9] }

/-- The capacity store with the stale `hash_was_new` cleared. -/
def sCapB : Sys := { sC6 with hashWasNew := false }

/-- `sCapB` after transition 0 has fired. -/
def sCapBPost : Sys :=
  { sCapB with stData :=
      writeWords sCapB.stData (sCapB.nodes.length * cfgCap.nrWords) [9] }

/-- A configuration for the typical-sequence scenario: one word per state,
a 2-bit hash table, ample capacity. -/
def cfgC4 : Config := ⟨1, 2, 100⟩

/-- A model for the typical-sequence scenario: from the state `[1]`,
transition 0 fires into `[2]` and transition 1 fires into `[3]`. -/
def MC4 : Model :=
  { nrTrans := 2
    fire := fun tr ws =>
      if ws = [1] then (if tr = 0 then some [2] else some [3]) else none
    fireErr := fun _ _ => none
    checkState := none }

/-- A store for the typical-sequence scenario: nodes 1, 2, 3 hold the
states `[1]`, `[2]`, `[3]` on one hash chain `1 → 2 → 3`; node 2 has
`e_cnt = 0` (an avoided old state) while node 3 has `e_cnt = 5`; the walk
stands at node 1, whose words fill the scratch slot. -/
def sC4 : Sys :=
  { stData := [0, 1, 2, 3, 1]
    nodes := [node0, ⟨2, 0, 0, 0, 0⟩, ⟨3, 0, 0, 0, 0⟩, ⟨0, 0, 5, 0, 0⟩]
    hashTbl := fun _ => 1
    hashWasNew := false
    nrEdges := 2
    stateNr := 4
    err := none }

/-! ## The breadth-first tree and its depths (claim C5) -/

/-- The length of the `prev` chain from node `ni` back to node 1 (the
walk `print_history` performs); fuelled, with any fuel of at least `ni`
adequate because every `prev` pointer of the breadth-first tree points to
a strictly earlier node. -/
def prevChainLen (nodes : List node_type) : ℕ → ℕ → ℕ
  | 0, _ => 0
  | fuel + 1, ni =>
    if ni ≤ 1 then 0
    else prevChainLen nodes fuel (nodes.getD ni node0).prev + 1

/-- The depth of node `ni` in the breadth-first tree: the length of its
`prev` chain back to node 1. -/
def depth (nodes : List node_type) (ni : ℕ) : ℕ := prevChainLen nodes ni ni

/-- The discovered transition relation: some enabled transition leads from
the stored words of node `a` to the stored words of node `b` (a valid
node). -/
def fires (cfg : Config) (M : Model) (s : Sys) (a b : ℕ) : Prop :=
  1 ≤ b ∧ b < s.nodes.length ∧
  ∃ tr, tr < M.nrTrans ∧
    M.fire tr (stateWords cfg.nrWords s.stData a) =
      some (stateWords cfg.nrWords s.stData b)

/-- Paths of a given length in a relation. -/
inductive PathN (R : ℕ → ℕ → Prop) : ℕ → ℕ → ℕ → Prop
  | refl (x : ℕ) : PathN R x x 0
  | step {x y z : ℕ} {n : ℕ} : R x y → PathN R y z n → PathN R x z (n + 1)

/-- The breadth-first loop invariant at queue cursor `q`: the store is
well-formed; node 1 is the root of the `prev` tree; every later node's
`prev` points to a strictly earlier valid node whose state fires into it;
depths are non-decreasing in creation order and stay within one step of
the cursor's depth; and every already-expanded node has each of its fired
successor states stored at depth at most one more than its own. -/
structure BfsInv (cfg : Config) (M : Model) (s : Sys) (q : ℕ) : Prop where
  wf : HashWF cfg s
  two_le : 2 ≤ s.nodes.length
  q_one : 1 ≤ q
  prev1 : (s.nodes.getD 1 node0).prev = 0
  prev_ok : ∀ ni, 2 ≤ ni → ni < s.nodes.length →
    1 ≤ (s.nodes.getD ni node0).prev ∧
    (s.nodes.getD ni node0).prev < ni ∧
    fires cfg M s (s.nodes.getD ni node0).prev ni
  mono : ∀ i j, 1 ≤ i → i ≤ j → j < s.nodes.length →
    depth s.nodes i ≤ depth s.nodes j
  tight : q < s.nodes.length → ∀ i, 1 ≤ i → i < s.nodes.length →
    depth s.nodes i ≤ depth s.nodes q + 1
  expanded : ∀ a, 1 ≤ a → a < q → ∀ t, t < M.nrTrans → ∀ ws,
    M.fire t (stateWords cfg.nrWords s.stData a) = some ws →
    ∃ b, 1 ≤ b ∧ b < s.nodes.length ∧
      stateWords cfg.nrWords s.stData b = ws ∧
      depth s.nodes b ≤ depth s.nodes a + 1

/-- The insertion branch of `hash_try` (lines 434-443): append a fresh
node chained in front of its hash bucket, extend `st_data` by one slot,
point the bucket at the new node and raise `hash_was_new`. -/
def promote (cfg : Config) (s : Sys) : Sys :=
  { s with
    nodes := s.nodes ++
      [{ node0 with
          h_next := s.hashTbl (hashOf cfg.hashBits
            (stateWords cfg.nrWords s.stData s.nodes.length)) }],
    stData := resizeTo s.stData ((s.nodes.length + 2) * cfg.nrWords),
    hashTbl := Function.update s.hashTbl
      (hashOf cfg.hashBits
        (stateWords cfg.nrWords s.stData s.nodes.length))
      s.nodes.length,
    hashWasNew := true }

/-- A configuration for the minimality witness: one word per state, a
2-bit hash table, ample capacity. -/
def cfgC5 : Config := ⟨1, 2, 100⟩

/-- A three-state chain model: `[1] → [2] → [3]` under the single
transition 0. -/
def MC5 : Model :=
  { nrTrans := 1
    fire := fun _ ws =>
      if ws = [1] then some [2] else if ws = [2] then some [3] else none
    fireErr := fun _ _ => none
    checkState := none }

/-- The initial store for the minimality witness: node 1 holds the
initial state `[1]`, the scratch slot is empty. -/
def sC5 : Sys :=
  { stData := [0, 1, 0]
    nodes := [node0, node0]
    hashTbl := fun b => if b = hashOf 2 [1] then 1 else 0
    hashWasNew := false
    nrEdges := 0
    stateNr := 1
    err := none }

/-! ## Theorems -/

/-! ### Bit-level facts about the field layout -/

theorem mask_eq (b s : ℕ) : ((1 <<< b) - 1) <<< s = (2 ^ b - 1) * 2 ^ s := by
  simp [Nat.shiftLeft_eq]

theorem testBit_field_mask (b s i : ℕ) :
    (((1 <<< b) - 1) <<< s).testBit i =
      (decide (s ≤ i) && decide (i - s < b)) := by
  rw [Nat.testBit_shiftLeft, Nat.one_shiftLeft, Nat.testBit_two_pow_sub_one]

theorem testBit_compl32 (x i : ℕ) (hx : x < wordSize) :
    (compl32 x).testBit i = (decide (i < wordBits) && !(x.testBit i)) := by
  have hones : (wordSize - 1 : ℕ) = 2 ^ wordBits - 1 := rfl
  rw [compl32, Nat.testBit_xor, hones, Nat.testBit_two_pow_sub_one]
  rcases Nat.lt_or_ge i wordBits with h | h
  · simp [h, Bool.xor_comm]
  · have : x.testBit i = false := by
      refine Nat.testBit_lt_two_pow (Nat.lt_of_lt_of_le hx ?_)
      exact Nat.pow_le_pow_right (by norm_num) h
    simp [this, Nat.not_lt_of_ge h]

theorem testBit_ge_false {x n i : ℕ} (hx : x < 2 ^ n) (hi : n ≤ i) :
    x.testBit i = false :=
  Nat.testBit_lt_two_pow
    (Nat.lt_of_lt_of_le hx (Nat.pow_le_pow_right (by norm_num) hi))

/-- The wrapped shifted value `( val << shift ) % 2^32` keeps exactly the
low `32 - s` bits of `val`. -/
theorem shifted_eq (s val : ℕ) (hs : s ≤ wordBits) :
    (val <<< s) % wordSize = (val % 2 ^ (wordBits - s)) * 2 ^ s := by
  have h : wordSize = 2 ^ (wordBits - s) * 2 ^ s := by
    rw [← pow_add, Nat.sub_add_cancel hs]; rfl
  rw [Nat.shiftLeft_eq, h, Nat.mul_mod_mul_right]

/-- A field mask of `b` bits at shift `s` fits in the machine word. -/
theorem field_mask_lt (b s : ℕ) (hsb : s + b ≤ wordBits) :
    ((1 <<< b) - 1) <<< s < wordSize := by
  rw [mask_eq]
  have h1 : 2 ^ b * 2 ^ s ≤ 2 ^ wordBits := by
    rw [← pow_add]; exact Nat.pow_le_pow_right (by norm_num) (by omega)
  have hb : (0:ℕ) < 2 ^ b := Nat.pos_pow_of_pos b (by norm_num)
  have hsp : (0:ℕ) < 2 ^ s := Nat.pos_pow_of_pos s (by norm_num)
  have h3 : (2 ^ b - 1) * 2 ^ s < 2 ^ b * 2 ^ s :=
    mul_lt_mul_of_pos_right (by omega) hsp
  exact lt_of_lt_of_le h3 h1

/-- The sanity check of `state_var::operator=` fires exactly when the bits
of `val` that survive the 32-bit shift exceed the field width: i.e. iff
`val % 2^(32-s) ≥ 2^b`. -/
theorem sv_overflow_check (b s val : ℕ) (hsb : s + b ≤ wordBits) :
    ((val <<< s) % wordSize &&& compl32 (((1 <<< b) - 1) <<< s) ≠ 0) ↔
      2 ^ b ≤ val % 2 ^ (wordBits - s) := by
  have hs : s ≤ wordBits := le_trans (Nat.le_add_right s b) hsb
  have hmask : ((1 <<< b) - 1) <<< s < wordSize := field_mask_lt b s hsb
  set u := val % 2 ^ (wordBits - s) with hu_def
  have hu : u < 2 ^ (wordBits - s) := Nat.mod_lt _ (Nat.pos_pow_of_pos _ (by norm_num))
  rw [shifted_eq s val hs, ← Nat.shiftLeft_eq, ← hu_def]
  constructor
  · intro hne
    by_contra hlt
    push_neg at hlt
    apply hne
    apply Nat.eq_of_testBit_eq
    intro i
    rw [Nat.testBit_and, Nat.zero_testBit, Nat.testBit_shiftLeft,
      testBit_compl32 _ _ hmask, testBit_field_mask]
    rcases Nat.lt_or_ge i s with h | h
    · simp [Nat.not_le_of_lt h]
    · rcases Nat.lt_or_ge (i - s) b with h2 | h2
      · simp [h, h2]
      · have : u.testBit (i - s) = false := testBit_ge_false hlt h2
        simp [this]
  · intro hge hzero
    obtain ⟨j, hj, hbit⟩ := Nat.ge_two_pow_implies_high_bit_true hge
    have hjlt : j < wordBits - s := by
      by_contra hc
      push_neg at hc
      rw [testBit_ge_false hu hc] at hbit
      exact Bool.noConfusion hbit
    have : ((u <<< s) &&& compl32 (((1 <<< b) - 1) <<< s)).testBit (j + s) = true := by
      rw [Nat.testBit_and, Nat.testBit_shiftLeft,
        testBit_compl32 _ _ hmask, testBit_field_mask]
      have h2 : j + s - s = j := by omega
      rw [h2]
      have h1 : s ≤ j + s := Nat.le_add_left s j
      have h3 : j + s < wordBits := by omega
      have h4 : ¬ (j < b) := by omega
      simp [h1, h3, h4, hbit]
    rw [hzero, Nat.zero_testBit] at this
    exact Bool.noConfusion this

/-- After any assignment, the field reads back as `val % 2^b`. -/
theorem sv_readback (b s dataWord val : ℕ) (hsb : s + b ≤ wordBits) :
    sv_read ⟨0, s, ((1 <<< b) - 1) <<< s⟩
      (sv_assign ⟨0, s, ((1 <<< b) - 1) <<< s⟩ none dataWord val).2 =
      val % 2 ^ b := by
  have hs : s ≤ wordBits := le_trans (Nat.le_add_right s b) hsb
  have hmask : ((1 <<< b) - 1) <<< s < wordSize := field_mask_lt b s hsb
  set u := val % 2 ^ (wordBits - s) with hu_def
  have hu : u < 2 ^ (wordBits - s) :=
    Nat.mod_lt _ (Nat.pos_pow_of_pos _ (by norm_num))
  have humod : u % 2 ^ b = val % 2 ^ b := by
    rw [hu_def, Nat.mod_mod_of_dvd]
    exact pow_dvd_pow 2 (by omega)
  have key : ((dataWord &&& compl32 (((1 <<< b) - 1) <<< s) |||
      (val <<< s) % wordSize) &&& ((1 <<< b) - 1) <<< s) = (val % 2 ^ b) <<< s := by
    rw [shifted_eq s val hs, ← Nat.shiftLeft_eq, ← hu_def]
    apply Nat.eq_of_testBit_eq
    intro i
    rw [Nat.testBit_and, Nat.testBit_or, Nat.testBit_and,
      testBit_compl32 _ _ hmask, testBit_field_mask,
      Nat.testBit_shiftLeft, Nat.testBit_shiftLeft]
    rcases Nat.lt_or_ge i s with h | h
    · simp [Nat.not_le_of_lt h]
    · rcases Nat.lt_or_ge (i - s) b with h2 | h2
      · have h3 : i < wordBits := by omega
        have h5 : i - s < wordBits - s := by omega
        have h6 : u.testBit (i - s) = val.testBit (i - s) := by
          rw [hu_def, Nat.testBit_mod_two_pow]; simp [h5]
        have h7 : (val % 2 ^ b).testBit (i - s) = val.testBit (i - s) := by
          rw [Nat.testBit_mod_two_pow]; simp [h2]
        simp [h, h2, h3, h6, h7]
      · have h4 : (u % 2 ^ b).testBit (i - s) = false :=
          testBit_ge_false (Nat.mod_lt _ (Nat.pos_pow_of_pos _ (by norm_num))) h2
        have h5 : (val % 2 ^ b).testBit (i - s) = false :=
          testBit_ge_false (Nat.mod_lt _ (Nat.pos_pow_of_pos _ (by norm_num))) h2
        simp [h2, h4, h5]
  simp only [sv_assign, sv_read]
  rw [key, Nat.shiftLeft_eq, Nat.shiftRight_eq_div_pow,
    Nat.mul_div_cancel _ (Nat.pos_pow_of_pos s (by norm_num))]

/-- An in-range write leaves the bits outside the variable's field
unchanged. -/
theorem sv_assign_frame (b s dataWord val : ℕ) (hsb : s + b ≤ wordBits)
    (hval : val < 2 ^ b) :
    (sv_assign ⟨0, s, ((1 <<< b) - 1) <<< s⟩ none dataWord val).2 &&&
        compl32 (((1 <<< b) - 1) <<< s) =
      dataWord &&& compl32 (((1 <<< b) - 1) <<< s) := by
  have hs : s ≤ wordBits := le_trans (Nat.le_add_right s b) hsb
  have hmask : ((1 <<< b) - 1) <<< s < wordSize := field_mask_lt b s hsb
  have hvu : val < 2 ^ (wordBits - s) :=
    lt_of_lt_of_le hval (Nat.pow_le_pow_right (by norm_num) (by omega))
  apply Nat.eq_of_testBit_eq
  intro i
  simp only [sv_assign]
  rw [shifted_eq s val hs, Nat.mod_eq_of_lt hvu, ← Nat.shiftLeft_eq]
  rw [Nat.testBit_and, Nat.testBit_or, Nat.testBit_and,
    testBit_compl32 _ _ hmask, testBit_field_mask, Nat.testBit_shiftLeft]
  rcases Nat.lt_or_ge i s with h | h
  · have h1 : ¬ (s ≤ i) := Nat.not_le_of_lt h
    simp [h1, Bool.and_assoc]
  · rcases Nat.lt_or_ge (i - s) b with h2 | h2
    · simp [h, h2]
    · have h3 : val.testBit (i - s) = false := testBit_ge_false hval h2
      simp [h, h2, h3, Bool.and_assoc]

/-- **C8, counterexample.**  A state variable declared with `b = 2` bits at
in-word shift 30 (a legal declaration, since 30 + 2 ≤ 32) that is assigned
the out-of-range value `4 = 2^2` does NOT set the error message: in
`val << shift & ~mask` the offending bit is shifted out of the 32-bit word,
so the sanity check sees zero.  This refutes the claim that, with sanity
checks compiled in, every assignment of `v ≥ 2^b` is signalled regardless
of the variable's in-word shift. -/
theorem C8_counterexample :
    (2 : ℕ) ^ 2 ≤ 4 ∧
      (sv_assign ⟨0, 30, ((1 <<< 2) - 1) <<< 30⟩ none 0 4).1 = none := by
  constructor
  · decide
  · decide

/-- **C8 (amended).**  With sanity checks compiled in, for a variable of
`b` bits at in-word shift `s` (with the declaration invariant
`s + b ≤ 32`): (1) assignment of `v` sets the error message exactly when
the bits of `v` that survive the 32-bit shift exceed the field, i.e. iff
`v % 2^(32-s) ≥ 2^b` — in particular every write of `v < 2^b` is silent
and every out-of-range write with `v < 2^(32-s)` is signalled, but excess
bits at positions ≥ `32 - s` are shifted out of the word undetected;
(2) after any assignment the variable reads back as `v % 2^b`, a value in
`[0, 2^b)`; and (3) an assignment of `v < 2^b` stores `v` into exactly
that variable's bit field: it reads back as `v` and the bits of the word
outside the field are unchanged. -/
theorem C8_assign_range (w b s dataWord val : ℕ) (hsb : s + b ≤ wordBits) :
    ((sv_assign ⟨w, s, ((1 <<< b) - 1) <<< s⟩ none dataWord val).1 =
        if 2 ^ b ≤ val % 2 ^ (wordBits - s) then
          some "Assigned an out of range value to a variable" else none) ∧
      (sv_read ⟨w, s, ((1 <<< b) - 1) <<< s⟩
          (sv_assign ⟨w, s, ((1 <<< b) - 1) <<< s⟩ none dataWord val).2 =
        val % 2 ^ b ∧ val % 2 ^ b < 2 ^ b) ∧
      (val < 2 ^ b →
        (sv_assign ⟨w, s, ((1 <<< b) - 1) <<< s⟩ none dataWord val).1 = none ∧
          sv_read ⟨w, s, ((1 <<< b) - 1) <<< s⟩
            (sv_assign ⟨w, s, ((1 <<< b) - 1) <<< s⟩ none dataWord val).2 = val ∧
          (sv_assign ⟨w, s, ((1 <<< b) - 1) <<< s⟩ none dataWord val).2 &&&
              compl32 (((1 <<< b) - 1) <<< s) =
            dataWord &&& compl32 (((1 <<< b) - 1) <<< s)) := by
  have hw0 : (sv_assign ⟨w, s, ((1 <<< b) - 1) <<< s⟩ none dataWord val) =
      (sv_assign ⟨0, s, ((1 <<< b) - 1) <<< s⟩ none dataWord val) := rfl
  have hr0 : ∀ d, sv_read ⟨w, s, ((1 <<< b) - 1) <<< s⟩ d =
      sv_read ⟨0, s, ((1 <<< b) - 1) <<< s⟩ d := fun _ => rfl
  rw [hw0, hr0]
  refine ⟨?_, ⟨sv_readback b s dataWord val hsb,
      Nat.mod_lt _ (Nat.pos_pow_of_pos _ (by norm_num))⟩, ?_⟩
  · simp only [sv_assign]
    rcases Nat.lt_or_ge (val % 2 ^ (wordBits - s)) (2 ^ b) with h | h
    · have hnot : ¬ ((val <<< s) % wordSize &&&
          compl32 (((1 <<< b) - 1) <<< s) ≠ 0) := by
        rw [sv_overflow_check b s val hsb]
        omega
      simp [hnot, Nat.not_le_of_lt h]
    · have hyes : (val <<< s) % wordSize &&&
          compl32 (((1 <<< b) - 1) <<< s) ≠ 0 :=
        (sv_overflow_check b s val hsb).mpr h
      simp [hyes, h]
  · intro hval
    have hvu : val % 2 ^ (wordBits - s) = val := by
      refine Nat.mod_eq_of_lt (lt_of_lt_of_le hval ?_)
      exact Nat.pow_le_pow_right (by norm_num) (by omega)
    refine ⟨?_, ?_, sv_assign_frame b s dataWord val hsb hval⟩
    · simp only [sv_assign]
      have hnot : ¬ ((val <<< s) % wordSize &&&
          compl32 (((1 <<< b) - 1) <<< s) ≠ 0) := by
        rw [sv_overflow_check b s val hsb]
        omega
      simp [hnot]
    · rw [sv_readback b s dataWord val hsb, Nat.mod_eq_of_lt hval]

/-- `chainFind` returns the first content match on the unfolded chain
(or 0 when there is none within the fuel). -/
theorem chainFind_eq_find (nw : ℕ) (s : Sys) (target : List ℕ) :
    ∀ fuel ni, chainFind nw s target fuel ni =
      ((chainList s fuel ni).find?
        (fun x => decide (stateWords nw s.stData x = target))).getD 0 := by
  intro fuel
  induction fuel with
  | zero => intro ni; rfl
  | succ fuel ih =>
    intro ni
    by_cases h0 : ni = 0
    · simp [chainFind, chainList, h0]
    · by_cases hm : stateWords nw s.stData ni = target
      · simp [chainFind, chainList, h0, hm]
      · simp [chainFind, chainList, h0, hm, ih]

/-- Witness for C8 (amended) at `b = 2`, `s = 30`, word `5`, value `3`. -/
theorem C8_assign_range_witness :
    30 + 2 ≤ wordBits ∧
      ((sv_assign ⟨0, 30, ((1 <<< 2) - 1) <<< 30⟩ none 5 3).1 =
          if 2 ^ 2 ≤ 3 % 2 ^ (wordBits - 30) then
            some "Assigned an out of range value to a variable" else none) ∧
        (sv_read ⟨0, 30, ((1 <<< 2) - 1) <<< 30⟩
            (sv_assign ⟨0, 30, ((1 <<< 2) - 1) <<< 30⟩ none 5 3).2 =
          3 % 2 ^ 2 ∧ 3 % 2 ^ 2 < 2 ^ 2) ∧
        (3 < 2 ^ 2 →
          (sv_assign ⟨0, 30, ((1 <<< 2) - 1) <<< 30⟩ none 5 3).1 = none ∧
            sv_read ⟨0, 30, ((1 <<< 2) - 1) <<< 30⟩
              (sv_assign ⟨0, 30, ((1 <<< 2) - 1) <<< 30⟩ none 5 3).2 = 3 ∧
            (sv_assign ⟨0, 30, ((1 <<< 2) - 1) <<< 30⟩ none 5 3).2 &&&
                compl32 (((1 <<< 2) - 1) <<< 30) =
              5 &&& compl32 (((1 <<< 2) - 1) <<< 30)) :=
  ⟨by decide, C8_assign_range 0 2 30 5 3 (by decide)⟩

/-! ### Behaviour of `hash_try` (claim C6) -/

/-- The hash value is always a valid bucket index. -/
theorem hashOf_lt (hb : ℕ) (ws : List ℕ) : hashOf hb ws < 2 ^ hb := by
  unfold hashOf
  rw [Nat.one_shiftLeft, Nat.and_pow_two_sub_one_eq_mod]
  exact Nat.mod_lt _ (Nat.pos_pow_of_pos _ (by norm_num))

/-- Under the store invariant, the bucket search on the scratch words
returns the stored node with identical words when one exists. -/
theorem chainFind_hit (cfg : Config) (s : Sys) (hwf : HashWF cfg s)
    (ni : ℕ) (hni : ni < s.nodes.length) (hni1 : 1 ≤ ni)
    (heq : stateWords cfg.nrWords s.stData ni =
      stateWords cfg.nrWords s.stData s.nodes.length) :
    chainFind cfg.nrWords s (stateWords cfg.nrWords s.stData s.nodes.length)
      (s.nodes.length + 1)
      (s.hashTbl (hashOf cfg.hashBits
        (stateWords cfg.nrWords s.stData s.nodes.length))) = ni := by
  have hidx : hashOf cfg.hashBits
      (stateWords cfg.nrWords s.stData s.nodes.length) < 2 ^ cfg.hashBits :=
    hashOf_lt _ _
  have hmem : ni ∈ chainList s (s.nodes.length + 1)
      (s.hashTbl (hashOf cfg.hashBits
        (stateWords cfg.nrWords s.stData s.nodes.length))) := by
    have h := hwf.member ni hni hni1
    rwa [heq] at h
  rw [chainFind_eq_find]
  cases hfind : (chainList s (s.nodes.length + 1)
      (s.hashTbl (hashOf cfg.hashBits
        (stateWords cfg.nrWords s.stData s.nodes.length)))).find?
      (fun x => decide (stateWords cfg.nrWords s.stData x =
        stateWords cfg.nrWords s.stData s.nodes.length)) with
  | none =>
    exfalso
    rw [List.find?_eq_none] at hfind
    exact hfind ni hmem (by simpa using heq)
  | some x =>
    have hx_mem := List.mem_of_find?_eq_some hfind
    have hx_p : stateWords cfg.nrWords s.stData x =
        stateWords cfg.nrWords s.stData s.nodes.length := by
      have := List.find?_some hfind
      simpa using this
    have hx_valid := hwf.chain_valid _ hidx x hx_mem
    have hxni : x = ni :=
      hwf.distinct x hx_valid.2 ni hni hx_valid.1 hni1 (by rw [hx_p, heq])
    simp [hxni]

/-- Under the store invariant, the bucket search on the scratch words
returns the 0 end mark when no stored node has identical words. -/
theorem chainFind_miss (cfg : Config) (s : Sys) (hwf : HashWF cfg s)
    (hmiss : ∀ ni < s.nodes.length, 1 ≤ ni →
      stateWords cfg.nrWords s.stData ni ≠
        stateWords cfg.nrWords s.stData s.nodes.length) :
    chainFind cfg.nrWords s (stateWords cfg.nrWords s.stData s.nodes.length)
      (s.nodes.length + 1)
      (s.hashTbl (hashOf cfg.hashBits
        (stateWords cfg.nrWords s.stData s.nodes.length))) = 0 := by
  have hidx : hashOf cfg.hashBits
      (stateWords cfg.nrWords s.stData s.nodes.length) < 2 ^ cfg.hashBits :=
    hashOf_lt _ _
  rw [chainFind_eq_find]
  have hnone : (chainList s (s.nodes.length + 1)
      (s.hashTbl (hashOf cfg.hashBits
        (stateWords cfg.nrWords s.stData s.nodes.length)))).find?
      (fun x => decide (stateWords cfg.nrWords s.stData x =
        stateWords cfg.nrWords s.stData s.nodes.length)) = none := by
    rw [List.find?_eq_none]
    intro x hx_mem
    have hx_valid := hwf.chain_valid _ hidx x hx_mem
    simpa using hmiss x hx_valid.2 hx_valid.1
  rw [hnone]
  rfl

/-- **C6 (amended).**  For every state placed in the scratch slot:
if some stored node has identical word contents, `hash_try` returns its
index together with `hash_was_new = false` (for either value of `no_ins`,
so the same bits always yield the same index); when no such node exists
and `no_ins = true`, it returns index 0 with all globals — including
`hash_was_new`, which therefore keeps its possibly stale previous
value — unchanged. -/
theorem C6_hash_try_lookup (cfg : Config) (s : Sys) (no_ins : Bool)
    (hwf : HashWF cfg s) :
    (∀ ni < s.nodes.length, 1 ≤ ni →
      stateWords cfg.nrWords s.stData ni =
        stateWords cfg.nrWords s.stData s.nodes.length →
      hash_try cfg s no_ins = (ni, { s with hashWasNew := false })) ∧
    ((∀ ni < s.nodes.length, 1 ≤ ni →
      stateWords cfg.nrWords s.stData ni ≠
        stateWords cfg.nrWords s.stData s.nodes.length) →
      hash_try cfg s true = (0, s)) := by
  constructor
  · intro ni hni hni1 heq
    have hcf := chainFind_hit cfg s hwf ni hni hni1 heq
    have hne : ni ≠ 0 := by omega
    simp only [hash_try, hcf]
    simp [hne]
  · intro hmiss
    have hcf := chainFind_miss cfg s hwf hmiss
    simp only [hash_try, hcf]
    simp

/-- **C6, counterexample.**  In the concrete store `sC6` the scratch state
`[7]` is stored nowhere, `no_ins = true`, and the previous `hash_try`
insertion left `hash_was_new = true`; the lookup misses and returns index
0, but `hash_was_new` — the `was_new` half of the operation's result pair —
is left `true`, not `false` as claimed. -/
theorem C6_counterexample :
    (∀ ni < sC6.nodes.length, 1 ≤ ni →
      stateWords cfgC6.nrWords sC6.stData ni ≠
        stateWords cfgC6.nrWords sC6.stData sC6.nodes.length) ∧
      (hash_try cfgC6 sC6 true).1 = 0 ∧
      (hash_try cfgC6 sC6 true).2.hashWasNew = true := by
  refine ⟨by decide, by decide, by decide⟩

/-- Witness for C6 (amended) on the concrete store `sC6`. -/
theorem C6_hash_try_lookup_witness :
    (∀ ni < sC6.nodes.length, 1 ≤ ni →
      stateWords cfgC6.nrWords sC6.stData ni =
        stateWords cfgC6.nrWords sC6.stData sC6.nodes.length →
      hash_try cfgC6 sC6 true = (ni, { sC6 with hashWasNew := false })) ∧
    ((∀ ni < sC6.nodes.length, 1 ≤ ni →
      stateWords cfgC6.nrWords sC6.stData ni ≠
        stateWords cfgC6.nrWords sC6.stData sC6.nodes.length) →
      hash_try cfgC6 sC6 true = (0, sC6)) :=
  C6_hash_try_lookup cfgC6 sC6 true
    ⟨by decide, by decide, by decide, by decide, by decide⟩

/-! ### The back-edge layout (claim C3) -/

theorem preIeEnd_succ (ecnt : ℕ → ℕ) (a : ℕ) (ha : 1 ≤ a) :
    preIeEnd ecnt (a + 1) = preIeEnd ecnt a + ecnt a := by
  obtain ⟨m, rfl⟩ : ∃ m, a = m + 1 := ⟨a - 1, by omega⟩
  rfl

/-- Prefix sums leave a full `e_cnt` gap between successive nodes. -/
theorem preIeEnd_gap (ecnt : ℕ → ℕ) (a b : ℕ) (ha : 1 ≤ a) (hab : a < b) :
    preIeEnd ecnt a + ecnt a ≤ preIeEnd ecnt b := by
  induction b with
  | zero => omega
  | succ b ih =>
    rcases Nat.lt_or_ge a b with h | h
    · have hb : 1 ≤ b := by omega
      calc preIeEnd ecnt a + ecnt a ≤ preIeEnd ecnt b := ih h
        _ ≤ preIeEnd ecnt (b + 1) := by
            rw [preIeEnd_succ ecnt b hb]; omega
    · have : a = b := by omega
      subst this
      rw [preIeEnd_succ ecnt a ha]

theorem predsOf_append (P Q : List (ℕ × ℕ)) (t : ℕ) :
    predsOf (P ++ Q) t = predsOf P t ++ predsOf Q t := by
  simp [predsOf]

theorem indegOf_append (P Q : List (ℕ × ℕ)) (t : ℕ) :
    indegOf (P ++ Q) t = indegOf P t + indegOf Q t := by
  simp [indegOf, predsOf_append]

theorem predsOf_single_eq (src t : ℕ) : predsOf [(src, t)] t = [src] := by
  simp [predsOf]

theorem predsOf_single_ne (src tgt t : ℕ) (h : ¬ tgt = t) :
    predsOf [(src, tgt)] t = [] := by
  simp [predsOf, h]

theorem indegOf_single (src tgt t : ℕ) :
    indegOf [(src, tgt)] t = if t = tgt then 1 else 0 := by
  by_cases h : t = tgt
  · subst h; simp [indegOf, predsOf_single_eq]
  · simp [indegOf, predsOf_single_ne src tgt t (fun hh => h hh.symm), h]

theorem indegOf_nil (t : ℕ) : indegOf [] t = 0 := rfl

theorem getD_snoc_length (l : List ℕ) (x : ℕ) : (l ++ [x]).getD l.length 0 = x := by
  induction l with
  | nil => rfl
  | cons a l ih => simp [ih]

/-- Correctness of the recording pass: if the slices for the already
processed prefix `P` are correctly filled and every cursor sits at the end
of its recorded entries, then after processing the rest `R` the slices
hold all of `E = P ++ R` and every cursor has advanced to its slice
end. -/
theorem recordEdges_inv (ecnt : ℕ → ℕ) (E : List (ℕ × ℕ))
    (hcnt : ∀ t, ecnt t = indegOf E t)
    (hval : ∀ e ∈ E, 1 ≤ e.2) :
    ∀ R P ied, P ++ R = E →
      (∀ t, 1 ≤ t → ∀ j < indegOf P t,
        ied (preIeEnd ecnt t + j) = (predsOf P t).getD j 0) →
      (∀ t, 1 ≤ t → ∀ j < indegOf E t,
        (recordEdges ied (fun u => preIeEnd ecnt u + indegOf P u) R).1
          (preIeEnd ecnt t + j) = (predsOf E t).getD j 0) ∧
      (∀ t, (recordEdges ied (fun u => preIeEnd ecnt u + indegOf P u) R).2 t =
        preIeEnd ecnt t + indegOf E t) := by
  intro R
  induction R with
  | nil =>
    intro P ied hPR hinv
    rw [List.append_nil] at hPR
    subst hPR
    exact ⟨fun t ht j hj => hinv t ht j hj, fun t => rfl⟩
  | cons e R ih =>
    intro P ied hPR hinv
    obtain ⟨src, tgt⟩ := e
    have htgt1 : 1 ≤ tgt := by
      have : (src, tgt) ∈ E := by rw [← hPR]; simp
      exact hval _ this
    have hsplit : (P ++ [(src, tgt)]) ++ R = E := by rw [← hPR]; simp
    have hPcount : indegOf P tgt + 1 ≤ indegOf E tgt := by
      rw [← hsplit, indegOf_append, indegOf_append, indegOf_single]
      simp
    have hPle : ∀ t, indegOf P t ≤ indegOf E t := by
      intro t
      rw [← hsplit, indegOf_append, indegOf_append]
      omega
    have hcount' : ∀ u, indegOf (P ++ [(src, tgt)]) u =
        indegOf P u + if u = tgt then 1 else 0 := by
      intro u
      rw [indegOf_append, indegOf_single]
    have hstep : recordEdge (ied, fun u => preIeEnd ecnt u + indegOf P u)
        (src, tgt) =
        (Function.update ied (preIeEnd ecnt tgt + indegOf P tgt) src,
         fun u => preIeEnd ecnt u + indegOf (P ++ [(src, tgt)]) u) := by
      unfold recordEdge
      refine congrArg₂ Prod.mk rfl ?_
      funext u
      by_cases h : u = tgt
      · subst h
        rw [Function.update_same, hcount']
        simp
        omega
      · rw [Function.update_noteq h, hcount']
        simp [h]
    have hinv' : ∀ t, 1 ≤ t → ∀ j < indegOf (P ++ [(src, tgt)]) t,
        Function.update ied (preIeEnd ecnt tgt + indegOf P tgt) src
          (preIeEnd ecnt t + j) =
          (predsOf (P ++ [(src, tgt)]) t).getD j 0 := by
      intro t ht j hj
      rw [hcount'] at hj
      by_cases h : t = tgt
      · subst h
        rw [predsOf_append, predsOf_single_eq]
        simp at hj
        rcases Nat.lt_or_ge j (indegOf P t) with hlt | hge
        · have hne : preIeEnd ecnt t + j ≠ preIeEnd ecnt t + indegOf P t := by
            omega
          rw [Function.update_noteq hne, hinv t ht j hlt]
          rw [List.getD_append]
          exact hlt
        · have hj_eq : j = indegOf P t := by omega
          subst hj_eq
          rw [Function.update_same]
          exact (getD_snoc_length (predsOf P t) src).symm
      · simp only [if_neg h, Nat.add_zero] at hj
        have hjE : j < ecnt t := by
          rw [hcnt]
          exact lt_of_lt_of_le hj (hPle t)
        have hcE : indegOf P tgt < ecnt tgt := by
          rw [hcnt]; omega
        have hne : preIeEnd ecnt t + j ≠ preIeEnd ecnt tgt + indegOf P tgt := by
          rcases Nat.lt_or_ge t tgt with ho | ho
          · have := preIeEnd_gap ecnt t tgt ht ho
            omega
          · have hot : tgt < t := by omega
            have := preIeEnd_gap ecnt tgt t htgt1 hot
            omega
        rw [Function.update_noteq hne]
        rw [predsOf_append, predsOf_single_ne src tgt t (fun hh => h hh.symm),
          List.append_nil]
        exact hinv t ht j hj
    have hfold : recordEdges ied (fun u => preIeEnd ecnt u + indegOf P u)
        ((src, tgt) :: R) =
        recordEdges (Function.update ied (preIeEnd ecnt tgt + indegOf P tgt) src)
          (fun u => preIeEnd ecnt u + indegOf (P ++ [(src, tgt)]) u) R := by
      unfold recordEdges
      rw [List.foldl_cons, hstep]
    rw [hfold]
    exact ih (P ++ [(src, tgt)]) _ hsplit hinv'

/-- **C3.**  After `construct_input_edges` (prefix sums of `e_cnt` into
`ie_end`, then the second `build_state_space` pass in back-edge recording
mode post-incrementing `nodes[target].ie_end`), for every node `i ≥ 1`:
the slice `iedges[ie_end[i-1] .. ie_end[i])` (post-pass cursors) is
exactly the list of predecessors of `i`, each with its edge multiplicity;
its length is the in-degree of `i`; and the post-pass `ie_end[i]` equals
the pre-pass `ie_end` value of node `i + 1`. -/
theorem C3_back_edge_layout (ecnt : ℕ → ℕ) (E : List (ℕ × ℕ))
    (hcnt : ∀ t, ecnt t = indegOf E t)
    (hval : ∀ e ∈ E, 1 ≤ e.2) (i : ℕ) (hi : 1 ≤ i) :
    sliceOf (construct_input_edges ecnt E).1
        ((construct_input_edges ecnt E).2 (i - 1))
        ((construct_input_edges ecnt E).2 i -
          (construct_input_edges ecnt E).2 (i - 1)) = predsOf E i ∧
      (construct_input_edges ecnt E).2 i -
          (construct_input_edges ecnt E).2 (i - 1) = indegOf E i ∧
      (construct_input_edges ecnt E).2 i = preIeEnd ecnt (i + 1) := by
  have hzero : (fun u => preIeEnd ecnt u + indegOf [] u) = preIeEnd ecnt := by
    funext u
    simp [indegOf_nil]
  have main := recordEdges_inv ecnt E hcnt hval E [] (fun _ => 0)
    (by simp)
    (by intro t ht j hj; rw [indegOf_nil] at hj; omega)
  rw [hzero] at main
  have hconstr : construct_input_edges ecnt E =
      recordEdges (fun _ => 0) (preIeEnd ecnt) E := rfl
  obtain ⟨hslices, hcursor⟩ := main
  have hindeg0 : indegOf E 0 = 0 := by
    have : predsOf E 0 = [] := by
      rw [predsOf]
      have : E.filter (fun e => decide (e.2 = 0)) = [] := by
        rw [List.filter_eq_nil_iff]
        intro e he
        have := hval e he
        simp
        omega
      rw [this]
      rfl
    rw [indegOf, this]
    rfl
  have hpost : ∀ t, (construct_input_edges ecnt E).2 t =
      preIeEnd ecnt t + indegOf E t := by
    intro t
    rw [hconstr]
    exact hcursor t
  have hlo : (construct_input_edges ecnt E).2 (i - 1) = preIeEnd ecnt i := by
    rw [hpost]
    rcases Nat.lt_or_ge i 2 with h2 | h2
    · have : i = 1 := by omega
      subst this
      simp [hindeg0, preIeEnd]
    · have hi1 : 1 ≤ i - 1 := by omega
      have hs := preIeEnd_succ ecnt (i - 1) hi1
      have : i - 1 + 1 = i := by omega
      rw [this] at hs
      rw [hs, hcnt]
  have hhi : (construct_input_edges ecnt E).2 i =
      preIeEnd ecnt i + indegOf E i := hpost i
  have hlen : (construct_input_edges ecnt E).2 i -
      (construct_input_edges ecnt E).2 (i - 1) = indegOf E i := by
    rw [hlo, hhi]
    omega
  refine ⟨?_, hlen, ?_⟩
  · rw [hlen, hlo]
    apply List.ext_getElem
    · simp [sliceOf, indegOf]
    · intro j hj1 hj2
      have hjlen : j < indegOf E i := by
        simpa [sliceOf] using hj1
      have hval_j := hslices i hi j hjlen
      simp only [sliceOf, List.getElem_map, List.getElem_range', one_mul]
      rw [hconstr, hval_j]
      exact List.getD_eq_getElem _ _ hj2
  · rw [hhi, preIeEnd_succ ecnt i hi, hcnt]

/-- Witness for C3 on the concrete edge list `[(1,2), (2,1), (1,1)]` at
node `i = 1`. -/
theorem C3_back_edge_layout_witness :
    sliceOf (construct_input_edges (indegOf [(1,2), (2,1), (1,1)])
          [(1,2), (2,1), (1,1)]).1
        ((construct_input_edges (indegOf [(1,2), (2,1), (1,1)])
          [(1,2), (2,1), (1,1)]).2 (1 - 1))
        ((construct_input_edges (indegOf [(1,2), (2,1), (1,1)])
          [(1,2), (2,1), (1,1)]).2 1 -
          (construct_input_edges (indegOf [(1,2), (2,1), (1,1)])
          [(1,2), (2,1), (1,1)]).2 (1 - 1)) =
        predsOf [(1,2), (2,1), (1,1)] 1 ∧
      (construct_input_edges (indegOf [(1,2), (2,1), (1,1)])
          [(1,2), (2,1), (1,1)]).2 1 -
          (construct_input_edges (indegOf [(1,2), (2,1), (1,1)])
          [(1,2), (2,1), (1,1)]).2 (1 - 1) =
        indegOf [(1,2), (2,1), (1,1)] 1 ∧
      (construct_input_edges (indegOf [(1,2), (2,1), (1,1)])
          [(1,2), (2,1), (1,1)]).2 1 =
        preIeEnd (indegOf [(1,2), (2,1), (1,1)]) (1 + 1) :=
  C3_back_edge_layout (indegOf [(1,2), (2,1), (1,1)]) [(1,2), (2,1), (1,1)]
    (fun _ => rfl) (by decide) 1 (by decide)

/-! ### Progress verifier: initialisation and marking (claims C1, C2) -/

theorem foldl_mark_one (L : List ℕ) : ∀ (f : ℕ → ℕ) (x : ℕ),
    (L.foldl (fun f src => Function.update f src 1) f) x =
      if x ∈ L then 1 else f x := by
  induction L with
  | nil => intro f x; simp
  | cons a L ih =>
    intro f x
    rw [List.foldl_cons, ih]
    by_cases hx : x ∈ L
    · simp [hx, List.mem_cons]
    · by_cases hax : x = a
      · subst hax
        simp [hx, Function.update_same]
      · simp [hx, hax, Function.update_noteq hax]

theorem foldl_count_up (L : List ℕ) : ∀ (f : ℕ → ℕ) (x : ℕ),
    (L.foldl (fun f src => Function.update f src (f src + 1)) f) x =
      f x + L.count x := by
  induction L with
  | nil => intro f x; simp
  | cons a L ih =>
    intro f x
    rw [List.foldl_cons, ih]
    by_cases hax : x = a
    · subst hax
      simp [Function.update_same, List.count_cons]
      omega
    · simp [Function.update_noteq hax, List.count_cons, hax]

theorem initEcnt_zero_char (g : PGraph) (x : ℕ) :
    initEcnt g 0 x = if x ∈ g.iedges then 1 else 0 := by
  unfold initEcnt
  rw [if_neg (by norm_num), foldl_mark_one]

theorem initEcnt_one_char (g : PGraph) (x : ℕ) :
    initEcnt g 1 x = g.iedges.count x := by
  unfold initEcnt
  rw [if_pos rfl, foldl_count_up]
  simp

theorem mark0_apply_ne (g : PGraph) (dlNot : Bool) (f : ℕ → ℕ) (ni x : ℕ)
    (h : x ≠ ni) : mark0 g dlNot f ni x = f x := by
  unfold mark0
  split <;> split <;> simp [Function.update_noteq h]

theorem mark0_apply_self (g : PGraph) (dlNot : Bool) (f : ℕ → ℕ) (ni : ℕ) :
    mark0 g dlNot f ni ni = markVal (g.prog ni) dlNot (f ni) := by
  unfold mark0 markVal
  by_cases h1 : dlNot = true ∧ f ni = 0
  · simp only [if_pos h1, Function.update_same]
    by_cases h2 : g.prog ni = true <;> simp [h2, Function.update_same]
  · simp only [if_neg h1]
    by_cases h2 : f ni ≠ 0 ∧ g.prog ni = true
    · simp [h2, Function.update_same]
    · simp [h2]

theorem foldl_mark0 (g : PGraph) (dlNot : Bool) (L : List ℕ) :
    ∀ (f : ℕ → ℕ), L.Nodup → ∀ x,
    (L.foldl (mark0 g dlNot) f) x =
      if x ∈ L then markVal (g.prog x) dlNot (f x) else f x := by
  induction L with
  | nil => intro f _ x; simp
  | cons a L ih =>
    intro f hnd x
    have hnd' : L.Nodup := (List.nodup_cons.mp hnd).2
    have ha : a ∉ L := (List.nodup_cons.mp hnd).1
    rw [List.foldl_cons, ih (mark0 g dlNot f a) hnd' x]
    by_cases hx : x ∈ L
    · have hxa : x ≠ a := fun h => ha (h ▸ hx)
      simp [hx, List.mem_cons, mark0_apply_ne g dlNot f a x hxa]
    · by_cases hxa : x = a
      · subst hxa
        simp [hx, mark0_apply_self]
      · simp [hx, hxa, mark0_apply_ne g dlNot f a x hxa]

theorem markPass_char (g : PGraph) (dlNot : Bool) (f : ℕ → ℕ) (x : ℕ) :
    markPass g dlNot f x =
      if 1 ≤ x ∧ x < 1 + (g.nsize - 1) then markVal (g.prog x) dlNot (f x)
      else f x := by
  unfold markPass
  rw [foldl_mark0 g dlNot _ f (List.nodup_range' 1 (g.nsize - 1)) x]
  by_cases hx : x ∈ List.range' 1 (g.nsize - 1)
  · rw [List.mem_range'_1] at hx
    simp [hx]
  · rw [List.mem_range'_1] at hx
    simp [hx]

/-- The marking leaves 0 exactly on progress nodes and on obligation-free
nodes when the `dl_not_*` flag is off. -/
theorem markVal_zero_iff (p dlNot : Bool) (v : ℕ) :
    markVal p dlNot v = 0 ↔ (p = true ∨ (v = 0 ∧ dlNot = false)) := by
  simp only [markVal]
  by_cases hv : v = 0 <;> by_cases hp : p = true <;>
    by_cases hd : dlNot = true <;> simp [hv, hp, hd]

theorem markVal_le (p dlNot : Bool) (v : ℕ) (hv : v ≤ 1) :
    markVal p dlNot v ≤ 1 := by
  simp only [markVal]
  split <;> split <;> omega

/-- On an unsatisfied node the marking keeps the incoming value, except
that an obligation-free node receives 1. -/
theorem markVal_val (p dlNot : Bool) (v : ℕ)
    (h : ¬(p = true ∨ (v = 0 ∧ dlNot = false))) :
    markVal p dlNot v = if v = 0 then 1 else v := by
  push_neg at h
  obtain ⟨hp, hv⟩ := h
  simp only [markVal]
  by_cases h0 : v = 0
  · have hd : dlNot = true := by
      by_contra hdd
      exact absurd (hv h0) (by simpa using hdd)
    simp [h0, hd, hp]
  · simp [h0, hp]

/-- Round-0 labelling after the marking pass: 0 exactly on the satisfied
nodes — may-progress nodes, and terminals unless `dl_not_may`. -/
theorem round0_char (g : PGraph) (dlNot : Bool) (x : ℕ) (h1 : 1 ≤ x)
    (h2 : x < g.nsize) :
    (markPass g dlNot (initEcnt g 0) x = 0 ↔
      (g.prog x = true ∨ (terminal g x ∧ dlNot = false))) := by
  rw [markPass_char, if_pos (by omega), initEcnt_zero_char,
    markVal_zero_iff]
  unfold terminal
  by_cases hm : x ∈ g.iedges <;> simp [hm]

/-- Round-0 labels never exceed 1. -/
theorem round0_le_one (g : PGraph) (dlNot : Bool) (x : ℕ) :
    markPass g dlNot (initEcnt g 0) x ≤ 1 := by
  rw [markPass_char, initEcnt_zero_char]
  have hv : (if x ∈ g.iedges then 1 else 0) ≤ 1 := by split <;> omega
  split
  · exact markVal_le _ _ _ hv
  · exact hv

/-- Outside the node range the round-0 labelling is zero. -/
theorem round0_invalid (g : PGraph) (dlNot : Bool)
    (hval : ∀ e ∈ g.iedges, 1 ≤ e ∧ e < g.nsize)
    (x : ℕ) (hx : x < 1 ∨ g.nsize ≤ x) :
    markPass g dlNot (initEcnt g 0) x = 0 := by
  rw [markPass_char, if_neg (by omega), initEcnt_zero_char, if_neg]
  intro hm
  have := hval x hm
  omega

/-- Round-1 labelling after the marking pass: 0 exactly on the satisfied
nodes — must-progress nodes, and terminals unless `dl_not_must`. -/
theorem round1_char (g : PGraph) (dlNot : Bool) (x : ℕ) (h1 : 1 ≤ x)
    (h2 : x < g.nsize) :
    (markPass g dlNot (initEcnt g 1) x = 0 ↔
      (g.prog x = true ∨ (terminal g x ∧ dlNot = false))) := by
  rw [markPass_char, if_pos (by omega), initEcnt_one_char,
    markVal_zero_iff]
  unfold terminal
  rw [List.count_eq_zero]

/-- On an unsatisfied node, the round-1 label is the out-degree, or 1 for
a terminal held back by `dl_not_must`. -/
theorem round1_val (g : PGraph) (dlNot : Bool) (x : ℕ) (h1 : 1 ≤ x)
    (h2 : x < g.nsize)
    (hns : ¬(g.prog x = true ∨ (terminal g x ∧ dlNot = false))) :
    markPass g dlNot (initEcnt g 1) x =
      if g.iedges.count x = 0 then 1 else g.iedges.count x := by
  rw [markPass_char, if_pos (by omega), initEcnt_one_char, markVal_val]
  rw [List.count_eq_zero]
  exact hns

/-- Outside the node range the round-1 labelling is zero. -/
theorem round1_invalid (g : PGraph) (dlNot : Bool)
    (hval : ∀ e ∈ g.iedges, 1 ≤ e ∧ e < g.nsize)
    (x : ℕ) (hx : x < 1 ∨ g.nsize ≤ x) :
    markPass g dlNot (initEcnt g 1) x = 0 := by
  rw [markPass_char, if_neg (by omega), initEcnt_one_char,
    List.count_eq_zero]
  intro hm
  have := hval x hm
  omega

/-! ### The backward wave -/

theorem waveEdge_fst (st : (ℕ → ℕ) × List ℕ) (a : ℕ) :
    (waveEdge st a).1 = Function.update st.1 a (st.1 a - 1) := by
  unfold waveEdge
  by_cases h0 : st.1 a = 0
  · rw [if_pos h0]
    have hh : st.1 a - 1 = st.1 a := by omega
    rw [hh, Function.update_eq_self]
  · rw [if_neg h0]
    by_cases h1 : st.1 a - 1 = 0 <;> simp [h1]

theorem waveEdge_snd (st : (ℕ → ℕ) × List ℕ) (a : ℕ) :
    (waveEdge st a).2 = if st.1 a = 1 then a :: st.2 else st.2 := by
  unfold waveEdge
  by_cases h0 : st.1 a = 0
  · rw [if_pos h0, if_neg (by omega)]
  · rw [if_neg h0]
    by_cases h1 : st.1 a - 1 = 0
    · have hh : st.1 a = 1 := by omega
      simp [h1, hh]
    · have hh : st.1 a ≠ 1 := by omega
      simp [h1, hh]

theorem waveEdge_pair (f : ℕ → ℕ) (acc : List ℕ) (a : ℕ) :
    waveEdge (f, acc) a =
      (Function.update f a (f a - 1), if f a = 1 then a :: acc else acc) := by
  have h1 := waveEdge_fst (f, acc) a
  have h2 := waveEdge_snd (f, acc) a
  exact Prod.ext h1 h2

/-- The wave fold saturatingly subtracts the occurrence count. -/
theorem waveFold_fst (L : List ℕ) : ∀ (f : ℕ → ℕ) (acc : List ℕ) (x : ℕ),
    (L.foldl waveEdge (f, acc)).1 x = f x - L.count x := by
  induction L with
  | nil => intro f acc x; simp
  | cons a L ih =>
    intro f acc x
    rw [List.foldl_cons, waveEdge_pair, ih]
    by_cases hxa : x = a
    · subst hxa
      rw [Function.update_same, List.count_cons]
      simp
      omega
    · rw [Function.update_noteq hxa, List.count_cons]
      have hax : ¬ a = x := fun h => hxa h.symm
      simp [hax]

/-- Membership in the newly-zeroed accumulator of the wave fold. -/
theorem waveFold_snd_mem (L : List ℕ) : ∀ (f : ℕ → ℕ) (acc : List ℕ) (x : ℕ),
    (x ∈ (L.foldl waveEdge (f, acc)).2 ↔
      x ∈ acc ∨ (f x ≠ 0 ∧ f x ≤ L.count x)) := by
  induction L with
  | nil => intro f acc x; simp
  | cons a L ih =>
    intro f acc x
    rw [List.foldl_cons, waveEdge_pair, ih]
    by_cases hxa : x = a
    · subst hxa
      rw [Function.update_same, List.count_cons]
      by_cases h1 : f x = 1
      · simp [h1]
      · by_cases h0 : f x = 0
        · simp [h0, h1]
        · simp [h0, h1]
          constructor
          · intro h
            rcases h with h | h
            · exact Or.inl h
            · exact Or.inr (by omega)
          · intro h
            rcases h with h | h
            · exact Or.inl h
            · exact Or.inr (by omega)
    · rw [Function.update_noteq hxa, List.count_cons]
      have hax : ¬ a = x := fun h => hxa h.symm
      by_cases h1 : f a = 1 <;> simp [h1, hxa, hax, List.mem_cons]

/-- The wave fold keeps the accumulator duplicate-free and zeroed. -/
theorem waveFold_snd_good (L : List ℕ) : ∀ (f : ℕ → ℕ) (acc : List ℕ),
    acc.Nodup → (∀ x ∈ acc, f x = 0) →
    ((L.foldl waveEdge (f, acc)).2.Nodup ∧
      ∀ x ∈ (L.foldl waveEdge (f, acc)).2,
        (L.foldl waveEdge (f, acc)).1 x = 0) := by
  induction L with
  | nil =>
    intro f acc hnd hz
    simpa using ⟨hnd, hz⟩
  | cons a L ih =>
    intro f acc hnd hz
    rw [List.foldl_cons, waveEdge_pair]
    apply ih
    · by_cases h1 : f a = 1
      · rw [if_pos h1]
        refine List.nodup_cons.mpr ⟨?_, hnd⟩
        intro hmem
        have := hz a hmem
        omega
      · rwa [if_neg h1]
    · intro x hx
      by_cases hxa : x = a
      · subst hxa
        rw [Function.update_same]
        by_cases h1 : f x = 1
        · omega
        · rw [if_neg h1] at hx
          have := hz x hx
          omega
      · rw [Function.update_noteq hxa]
        by_cases h1 : f a = 1
        · rw [if_pos h1] at hx
          rcases List.mem_cons.mp hx with h | h
          · exact absurd h hxa
          · exact hz x h
        · rw [if_neg h1] at hx
          exact hz x hx

theorem cntTo_append_single (g : PGraph) (x cur : ℕ) (done : List ℕ) :
    cntTo g x (done ++ [cur]) =
      cntTo g x done + (sliceEdges g cur).count x := by
  simp [cntTo]

theorem waveNode_fst (g : PGraph) (f : ℕ → ℕ) (cur x : ℕ) :
    (waveNode g f cur).1 x = f x - (sliceEdges g cur).count x :=
  waveFold_fst _ f [] x

theorem waveNode_snd_mem (g : PGraph) (f : ℕ → ℕ) (cur x : ℕ) :
    x ∈ (waveNode g f cur).2 ↔
      f x ≠ 0 ∧ f x ≤ (sliceEdges g cur).count x := by
  rw [waveNode, waveFold_snd_mem]
  simp

theorem waveNode_snd_good (g : PGraph) (f : ℕ → ℕ) (cur : ℕ) :
    (waveNode g f cur).2.Nodup ∧
      ∀ x ∈ (waveNode g f cur).2, (waveNode g f cur).1 x = 0 :=
  waveFold_snd_good _ f [] List.nodup_nil (by simp)

/-- Processing one worklist node strictly shrinks `nzCard` by at least the
number of newly zeroed nodes. -/
theorem waveNode_measure (g : PGraph) (f : ℕ → ℕ) (cur : ℕ)
    (hvalid : ∀ x ∈ (waveNode g f cur).2, 1 ≤ x ∧ x < g.nsize) :
    nzCard g (waveNode g f cur).1 + (waveNode g f cur).2.length ≤
      nzCard g f := by
  have hnd := (waveNode_snd_good g f cur).1
  have hz := (waveNode_snd_good g f cur).2
  have hsub : (Finset.Ico 1 g.nsize).filter
      (fun x => (waveNode g f cur).1 x ≠ 0) ⊆
      (Finset.Ico 1 g.nsize).filter (fun x => f x ≠ 0) := by
    intro x hx
    rw [Finset.mem_filter] at hx ⊢
    refine ⟨hx.1, ?_⟩
    intro h0
    have hw := waveNode_fst g f cur x
    have := hx.2
    omega
  have hnewsub : (waveNode g f cur).2.toFinset ⊆
      (Finset.Ico 1 g.nsize).filter (fun x => f x ≠ 0) := by
    intro x hx
    rw [List.mem_toFinset] at hx
    rw [Finset.mem_filter, Finset.mem_Ico]
    have h2 := (waveNode_snd_mem g f cur x).mp hx
    have h3 := hvalid x hx
    exact ⟨⟨h3.1, h3.2⟩, h2.1⟩
  have hdisj : Disjoint ((Finset.Ico 1 g.nsize).filter
      (fun x => (waveNode g f cur).1 x ≠ 0)) (waveNode g f cur).2.toFinset := by
    rw [Finset.disjoint_left]
    intro x hx hx2
    rw [Finset.mem_filter] at hx
    rw [List.mem_toFinset] at hx2
    exact hx.2 (hz x hx2)
  calc nzCard g (waveNode g f cur).1 + (waveNode g f cur).2.length
      = ((Finset.Ico 1 g.nsize).filter
          (fun x => (waveNode g f cur).1 x ≠ 0)).card +
          (waveNode g f cur).2.toFinset.card := by
        rw [List.toFinset_card_of_nodup hnd]
        rfl
    _ = (((Finset.Ico 1 g.nsize).filter
          (fun x => (waveNode g f cur).1 x ≠ 0)) ∪
          (waveNode g f cur).2.toFinset).card :=
        (Finset.card_union_of_disjoint hdisj).symm
    _ ≤ ((Finset.Ico 1 g.nsize).filter (fun x => f x ≠ 0)).card :=
        Finset.card_le_card (Finset.union_subset hsub hnewsub)

/-- The master run lemma for the backward wave: starting from a state
described by an already-processed prefix `done` (every counter equals its
initial value minus the decrements received from `done`; the worklist
together with `done` is exactly the set of zero-labelled valid nodes; each
processed node was zero when popped, w.r.t. the prefix processed before
it), sufficient fuel drives the worklist to exhaustion and the final state
is described in the same way by an extension of `done`. -/
theorem waveRun_master (g : PGraph)
    (f1 : ℕ → ℕ) (hf1inv : ∀ x, x < 1 ∨ g.nsize ≤ x → f1 x = 0) :
    ∀ fuel (f : ℕ → ℕ) (pending done : List ℕ),
      nzCard g f + pending.length < fuel →
      (∀ x, f x = f1 x - cntTo g x done) →
      pending.Nodup → done.Nodup →
      (∀ x ∈ pending, x ∉ done) →
      (∀ x, (x ∈ pending ∨ x ∈ done) ↔ (f x = 0 ∧ 1 ≤ x ∧ x < g.nsize)) →
      (∀ k (hk : k < done.length),
        f1 (done.get ⟨k, hk⟩) - cntTo g (done.get ⟨k, hk⟩) (done.take k) = 0) →
      ∃ doneF : List ℕ,
        (∃ ext, doneF = done ++ ext) ∧
        doneF.Nodup ∧
        (∀ x, waveRun g fuel f pending x = f1 x - cntTo g x doneF) ∧
        (∀ x, x ∈ doneF ↔
          (waveRun g fuel f pending x = 0 ∧ 1 ≤ x ∧ x < g.nsize)) ∧
        (∀ k (hk : k < doneF.length),
          f1 (doneF.get ⟨k, hk⟩) -
            cntTo g (doneF.get ⟨k, hk⟩) (doneF.take k) = 0) := by
  intro fuel
  induction fuel with
  | zero =>
    intro f pending done hfuel
    omega
  | succ fuel ih =>
    intro f pending done hfuel hA hnp hnd hdisj hB4 hC
    cases pending with
    | nil =>
      refine ⟨done, ⟨[], (List.append_nil done).symm⟩, hnd, ?_, ?_, hC⟩
      · intro x
        exact hA x
      · intro x
        have := hB4 x
        simpa using this
    | cons cur rest =>
      have hcur := (hB4 cur).mp (Or.inl (List.mem_cons_self cur rest))
      have hW1 : ∀ x, (waveNode g f cur).1 x =
          f x - (sliceEdges g cur).count x := waveNode_fst g f cur
      have hW2 : ∀ x, x ∈ (waveNode g f cur).2 ↔
          f x ≠ 0 ∧ f x ≤ (sliceEdges g cur).count x :=
        fun x => waveNode_snd_mem g f cur x
      have hnewly_z : ∀ x ∈ (waveNode g f cur).2, (waveNode g f cur).1 x = 0 :=
        (waveNode_snd_good g f cur).2
      have hnewly_nd : (waveNode g f cur).2.Nodup :=
        (waveNode_snd_good g f cur).1
      have hnewly_valid : ∀ x ∈ (waveNode g f cur).2, 1 ≤ x ∧ x < g.nsize := by
        intro x hx
        by_contra hc
        have h0 : f1 x = 0 := hf1inv x (by omega)
        have h1 := hA x
        have hx2 := (hW2 x).mp hx
        omega
      have hrun : waveRun g (fuel + 1) f (cur :: rest) =
          waveRun g fuel (waveNode g f cur).1 ((waveNode g f cur).2 ++ rest) :=
        rfl
      have hA' : ∀ x, (waveNode g f cur).1 x =
          f1 x - cntTo g x (done ++ [cur]) := by
        intro x
        rw [hW1, hA, cntTo_append_single]
        omega
      have hrest_sub : ∀ x ∈ rest, f x = 0 ∧ 1 ≤ x ∧ x < g.nsize :=
        fun x hx => (hB4 x).mp (Or.inl (List.mem_cons_of_mem cur hx))
      have hnp' : ((waveNode g f cur).2 ++ rest).Nodup := by
        rw [List.nodup_append]
        refine ⟨hnewly_nd, (List.nodup_cons.mp hnp).2, ?_⟩
        intro x hx1 hx2
        have h1 := (hW2 x).mp hx1
        have h2 := hrest_sub x hx2
        exact h1.1 h2.1
      have hnd' : (done ++ [cur]).Nodup := by
        rw [List.nodup_append]
        refine ⟨hnd, List.nodup_singleton cur, ?_⟩
        intro x hx hx2
        rw [List.mem_singleton] at hx2
        subst hx2
        exact hdisj x (List.mem_cons_self x rest) hx
      have hdisj' : ∀ x ∈ (waveNode g f cur).2 ++ rest, x ∉ done ++ [cur] := by
        intro x hx hx2
        rw [List.mem_append] at hx hx2
        rcases hx2 with hd | hc
        · rcases hx with hn | hr
          · have h1 := (hW2 x).mp hn
            have h2 := (hB4 x).mp (Or.inr hd)
            exact h1.1 h2.1
          · exact hdisj x (List.mem_cons_of_mem cur hr) hd
        · rw [List.mem_singleton] at hc
          subst hc
          rcases hx with hn | hr
          · exact ((hW2 x).mp hn).1 hcur.1
          · exact (List.nodup_cons.mp hnp).1 hr
      have hB4' : ∀ x, (x ∈ (waveNode g f cur).2 ++ rest ∨ x ∈ done ++ [cur]) ↔
          ((waveNode g f cur).1 x = 0 ∧ 1 ≤ x ∧ x < g.nsize) := by
        intro x
        constructor
        · intro hx
          rcases hx with hx | hx
          · rw [List.mem_append] at hx
            rcases hx with hn | hr
            · exact ⟨hnewly_z x hn, hnewly_valid x hn⟩
            · have h := hrest_sub x hr
              refine ⟨?_, h.2⟩
              rw [hW1]
              omega
          · rw [List.mem_append] at hx
            rcases hx with hd | hc
            · have h := (hB4 x).mp (Or.inr hd)
              refine ⟨?_, h.2⟩
              rw [hW1]
              omega
            · rw [List.mem_singleton] at hc
              subst hc
              refine ⟨?_, hcur.2⟩
              rw [hW1]
              have := hcur.1
              omega
        · intro hx
          obtain ⟨hz, hv⟩ := hx
          by_cases h0 : f x = 0
          · have hm := (hB4 x).mpr ⟨h0, hv⟩
            rcases hm with hp | hd
            · rcases List.mem_cons.mp hp with he | hr
              · subst he
                exact Or.inr (by simp)
              · exact Or.inl (by rw [List.mem_append]; exact Or.inr hr)
            · exact Or.inr (by rw [List.mem_append]; exact Or.inl hd)
          · left
            rw [List.mem_append]
            left
            rw [hW2]
            have hw := hW1 x
            exact ⟨h0, by omega⟩
      have hC' : ∀ k (hk : k < (done ++ [cur]).length),
          f1 ((done ++ [cur]).get ⟨k, hk⟩) -
            cntTo g ((done ++ [cur]).get ⟨k, hk⟩) ((done ++ [cur]).take k) = 0 := by
        intro k hk
        rcases Nat.lt_or_ge k done.length with hlt | hge
        · have hget : (done ++ [cur]).get ⟨k, hk⟩ = done.get ⟨k, hlt⟩ := by
            rw [List.get_eq_getElem, List.get_eq_getElem,
              List.getElem_append_left hlt]
          have htake : (done ++ [cur]).take k = done.take k :=
            List.take_append_of_le_length (le_of_lt hlt)
          rw [hget, htake]
          exact hC k hlt
        · have hkeq : k = done.length := by
            have := List.length_append done [cur]
            simp at hk
            omega
          subst hkeq
          have hget : (done ++ [cur]).get ⟨done.length, hk⟩ = cur := by
            rw [List.get_eq_getElem, List.getElem_concat_length]
            rfl
          have htake : (done ++ [cur]).take done.length = done :=
            List.take_left done [cur]
          rw [hget, htake]
          have h1 := hA cur
          have h2 := hcur.1
          omega
      have hmeas : nzCard g (waveNode g f cur).1 +
          ((waveNode g f cur).2 ++ rest).length < fuel := by
        have hm := waveNode_measure g f cur hnewly_valid
        rw [List.length_append]
        have hlen : (cur :: rest).length = rest.length + 1 := by simp
        omega
      obtain ⟨doneF, ⟨ext, hext⟩, hndF, hAF, hBF, hCF⟩ :=
        ih (waveNode g f cur).1 ((waveNode g f cur).2 ++ rest) (done ++ [cur])
          hmeas hA' hnp' hnd' hdisj' hB4' hC'
      rw [hrun]
      refine ⟨doneF, ⟨[cur] ++ ext, ?_⟩, hndF, hAF, hBF, hCF⟩
      rw [hext, List.append_assoc]

theorem foldl_filter_cons (f : ℕ → ℕ) (L : List ℕ) : ∀ acc : List ℕ,
    L.foldl (fun acc ni => if f ni = 0 then ni :: acc else acc) acc =
      (L.filter (fun x => decide (f x = 0))).reverse ++ acc := by
  induction L with
  | nil => intro acc; simp
  | cons a L ih =>
    intro acc
    rw [List.foldl_cons]
    by_cases ha : f a = 0
    · rw [if_pos ha, ih, List.filter_cons_of_pos (by simpa using ha)]
      simp
    · rw [if_neg ha, ih, List.filter_cons_of_neg (by simpa using ha)]

theorem initPList_eq (g : PGraph) (f : ℕ → ℕ) :
    initPList g f = ((List.range' 1 (g.nsize - 1)).filter
      (fun x => decide (f x = 0))).reverse := by
  unfold initPList
  rw [foldl_filter_cons, List.append_nil]

theorem initPList_nodup (g : PGraph) (f : ℕ → ℕ) : (initPList g f).Nodup := by
  rw [initPList_eq]
  exact List.nodup_reverse.mpr ((List.nodup_range' 1 (g.nsize - 1)).filter _)

theorem initPList_mem (g : PGraph) (f : ℕ → ℕ) (x : ℕ) :
    x ∈ initPList g f ↔ (f x = 0 ∧ 1 ≤ x ∧ x < g.nsize) := by
  rw [initPList_eq, List.mem_reverse, List.mem_filter, List.mem_range'_1]
  constructor
  · intro h
    have := of_decide_eq_true h.2
    omega
  · intro h
    refine ⟨?_, by simpa using h.1⟩
    omega

/-- The wave of `verify_progress` (rounds 0 and 1) runs to completion and
the final counters are described by a processed list `doneF`:
exactly the zero-labelled valid nodes, each of which had discharged all
its obligations at the moment it was processed. -/
theorem verify_progress_master (g : PGraph)
    (dlNot : Bool) (round : ℕ) (hr : round = 0 ∨ round = 1)
    (hinv : ∀ x, x < 1 ∨ g.nsize ≤ x →
      markPass g dlNot (initEcnt g round) x = 0) :
    ∃ doneF : List ℕ,
      doneF.Nodup ∧
      (∀ x, verify_progress g dlNot round x =
        markPass g dlNot (initEcnt g round) x - cntTo g x doneF) ∧
      (∀ x, x ∈ doneF ↔
        (verify_progress g dlNot round x = 0 ∧ 1 ≤ x ∧ x < g.nsize)) ∧
      (∀ k (hk : k < doneF.length),
        markPass g dlNot (initEcnt g round) (doneF.get ⟨k, hk⟩) -
          cntTo g (doneF.get ⟨k, hk⟩) (doneF.take k) = 0) := by
  have hrun : verify_progress g dlNot round =
      waveRun g (g.iedges.length + 2 * g.nsize + 1)
        (markPass g dlNot (initEcnt g round))
        (initPList g (markPass g dlNot (initEcnt g round))) := by
    simp only [verify_progress]
    rw [if_pos hr]
  have hcard : nzCard g (markPass g dlNot (initEcnt g round)) ≤ g.nsize := by
    calc nzCard g (markPass g dlNot (initEcnt g round)) ≤
        (Finset.Ico 1 g.nsize).card := Finset.card_filter_le _ _
      _ ≤ g.nsize := by rw [Nat.card_Ico]; omega
  have hplen : (initPList g (markPass g dlNot (initEcnt g round))).length ≤
      g.nsize := by
    rw [initPList_eq, List.length_reverse]
    calc (List.filter _ (List.range' 1 (g.nsize - 1))).length ≤
        (List.range' 1 (g.nsize - 1)).length := List.length_filter_le _ _
      _ ≤ g.nsize := by rw [List.length_range']; omega
  obtain ⟨doneF, _, hnd, hA, hB, hC⟩ :=
    waveRun_master g (markPass g dlNot (initEcnt g round)) hinv
      (g.iedges.length + 2 * g.nsize + 1)
      (markPass g dlNot (initEcnt g round))
      (initPList g (markPass g dlNot (initEcnt g round))) []
      (by omega)
      (by intro x; simp [cntTo])
      (initPList_nodup g _) List.nodup_nil
      (by simp)
      (by
        intro x
        rw [initPList_mem]
        simp)
      (by intro k hk; simp at hk)
  exact ⟨doneF, hnd, by rw [hrun]; exact hA, by rw [hrun]; exact hB, hC⟩

/-- **C1.**  After `verify_progress` round 0 (may-progress) on the
back-edge structure built by `construct_input_edges`, a node
`1 ≤ ni < nodes.size()` ends with `e_cnt = 0` iff a node satisfying the
may-progress predicate — a node whose state satisfies `is_may_progress`,
or a terminal node unless `dl_not_may` — is reachable from `ni` along the
discovered edge relation. -/
theorem C1_round0_may (g : PGraph) (hwf : PWF g) (dlNotMay : Bool) (ni : ℕ)
    (h1 : 1 ≤ ni) (h2 : ni < g.nsize) :
    verify_progress g dlNotMay 0 ni = 0 ↔
      ∃ m, Reach g ni m ∧
        (g.prog m = true ∨ (terminal g m ∧ dlNotMay = false)) := by
  obtain ⟨doneF, hnd, hA, hB, hC⟩ :=
    verify_progress_master g dlNotMay 0 (Or.inl rfl)
      (round0_invalid g dlNotMay hwf.val)
  constructor
  · intro hz
    have hmem : ni ∈ doneF := (hB ni).mpr ⟨hz, h1, h2⟩
    have haux : ∀ k, ∀ (hk : k < doneF.length),
        ∃ m, Reach g (doneF.get ⟨k, hk⟩) m ∧
          (g.prog m = true ∨ (terminal g m ∧ dlNotMay = false)) := by
      intro k
      induction k using Nat.strong_induction_on with
      | _ k ihk =>
        intro hk
        have hxvalid : 1 ≤ doneF.get ⟨k, hk⟩ ∧ doneF.get ⟨k, hk⟩ < g.nsize :=
          ((hB _).mp (List.get_mem doneF k hk)).2
        have hchron := hC k hk
        by_cases hz1 : markPass g dlNotMay (initEcnt g 0) (doneF.get ⟨k, hk⟩) = 0
        · exact ⟨doneF.get ⟨k, hk⟩, Reach.refl _,
            (round0_char g dlNotMay _ hxvalid.1 hxvalid.2).mp hz1⟩
        · have hle1 := round0_le_one g dlNotMay (doneF.get ⟨k, hk⟩)
          have hcnt : 1 ≤ cntTo g (doneF.get ⟨k, hk⟩) (doneF.take k) := by
            omega
          obtain ⟨cur, hcur_mem, hcur_cnt⟩ : ∃ cur ∈ doneF.take k,
              1 ≤ (sliceEdges g cur).count (doneF.get ⟨k, hk⟩) := by
            by_contra hc
            push_neg at hc
            have hcz : cntTo g (doneF.get ⟨k, hk⟩) (doneF.take k) = 0 := by
              unfold cntTo
              apply List.sum_eq_zero
              intro v hv
              rw [List.mem_map] at hv
              obtain ⟨cur, hcur, hveq⟩ := hv
              have := hc cur hcur
              omega
            omega
          obtain ⟨j, hjlen, hjeq⟩ := List.getElem_of_mem hcur_mem
          have hjk : j < k := by
            have := hjlen
            rw [List.length_take] at this
            omega
          have hjF : j < doneF.length := by
            rw [List.length_take] at hjlen
            omega
          have hjget : doneF.get ⟨j, hjF⟩ = cur := by
            rw [List.get_eq_getElem, ← hjeq, List.getElem_take]
          obtain ⟨m, hrm, hsm⟩ := ihk j hjk hjF
          rw [hjget] at hrm
          have hcur_valid : 1 ≤ cur ∧ cur < g.nsize :=
            ((hB cur).mp (List.mem_of_mem_take hcur_mem)).2
          have hedge : edgeFwd g (doneF.get ⟨k, hk⟩) cur :=
            ⟨hcur_valid.1, hcur_valid.2, List.count_pos_iff.mp hcur_cnt⟩
          exact ⟨m, Reach.head _ cur m hedge hrm, hsm⟩
    obtain ⟨⟨k, hk⟩, hkeq⟩ := List.mem_iff_get.mp hmem
    obtain ⟨m, hrm, hsm⟩ := haux k hk
    rw [hkeq] at hrm
    exact ⟨m, hrm, hsm⟩
  · intro hex
    obtain ⟨m, hreach, hsat⟩ := hex
    have haux : ∀ a mm, Reach g a mm →
        (g.prog mm = true ∨ (terminal g mm ∧ dlNotMay = false)) →
        1 ≤ a → a < g.nsize → verify_progress g dlNotMay 0 a = 0 := by
      intro a mm hr
      induction hr with
      | refl a =>
        intro hsat2 ha1 ha2
        rw [hA a]
        have hz1 : markPass g dlNotMay (initEcnt g 0) a = 0 :=
          (round0_char g dlNotMay a ha1 ha2).mpr hsat2
        omega
      | head a b c hedge hr ih =>
        intro hsat2 ha1 ha2
        have hbz := ih hsat2 hedge.1 hedge.2.1
        have hbm : b ∈ doneF := (hB b).mpr ⟨hbz, hedge.1, hedge.2.1⟩
        have hterm : 1 ≤ (sliceEdges g b).count a :=
          List.count_pos_iff.mpr hedge.2.2
        have hmm : (sliceEdges g b).count a ∈
            doneF.map (fun cur => (sliceEdges g cur).count a) :=
          List.mem_map_of_mem _ hbm
        have hcnt : 1 ≤ cntTo g a doneF := by
          unfold cntTo
          calc 1 ≤ (sliceEdges g b).count a := hterm
            _ ≤ (doneF.map (fun cur => (sliceEdges g cur).count a)).sum :=
              List.single_le_sum (by intro v hv; omega) _ hmm
        rw [hA a]
        have := round0_le_one g dlNotMay a
        omega
    exact haux ni m hreach hsat h1 h2

/-! ### The slices partition `iedges` (claim C2 support) -/

theorem ieEnd_chain (g : PGraph) (hwf : PWF g) :
    ∀ j, j < g.nsize → ∀ i, i ≤ j → g.ieEnd i ≤ g.ieEnd j := by
  intro j
  induction j with
  | zero =>
    intro _ i hi
    have : i = 0 := by omega
    subst this
    exact le_refl _
  | succ j ihj =>
    intro hj i hi
    rcases Nat.lt_or_ge i (j + 1) with h | h
    · have h1 := ihj (by omega) i (by omega)
      have h2 := hwf.mono (j + 1) hj (by omega)
      have h3 : j + 1 - 1 = j := by omega
      rw [h3] at h2
      omega
    · have : i = j + 1 := by omega
      subst this
      exact le_refl _

theorem range'_map_getD (l : List ℕ) : ∀ (m a : ℕ), a + m ≤ l.length →
    (List.range' a m).map (fun i => l.getD i 0) = (l.drop a).take m := by
  intro m
  induction m with
  | zero => intro a _; simp
  | succ m ihm =>
    intro a ha
    rw [List.range'_succ, List.map_cons, ihm (a + 1) (by omega)]
    have hlt : a < l.length := by omega
    rw [List.getD_eq_getElem l 0 hlt, List.drop_eq_getElem_cons hlt]
    rfl

/-- The incoming-edge slices of nodes `1 .. k` cover the first
`ie_end k` entries of `iedges`. -/
theorem slices_concat (g : PGraph) (hwf : PWF g) :
    ∀ k, k < g.nsize →
      (List.range' 1 k).flatMap (sliceEdges g) = g.iedges.take (g.ieEnd k) := by
  intro k
  induction k with
  | zero =>
    intro _
    simp [hwf.end0]
  | succ k ihk =>
    intro hk
    have hconcat : List.range' 1 (k + 1) = List.range' 1 k ++ [1 + k] := by
      have h9 : List.range' 1 (k + 1) 1 = List.range' 1 k 1 ++ [1 + 1 * k] :=
        List.range'_concat 1 k
      simpa using h9
    rw [hconcat, List.flatMap_append, ihk (by omega)]
    have h1k : 1 + k = k + 1 := by omega
    have hsingle : ([1 + k] : List ℕ).flatMap (sliceEdges g) =
        sliceEdges g (k + 1) := by
      rw [h1k]
      simp
    rw [hsingle]
    have hmono := hwf.mono (k + 1) hk (by omega)
    rw [show k + 1 - 1 = k from by omega] at hmono
    have hslice : sliceEdges g (k + 1) =
        (g.iedges.drop (g.ieEnd k)).take (g.ieEnd (k + 1) - g.ieEnd k) := by
      unfold sliceEdges
      rw [show k + 1 - 1 = k from by omega]
      apply range'_map_getD
      have hch := ieEnd_chain g hwf (g.nsize - 1) (by omega) (k + 1) (by omega)
      rw [hwf.last] at hch
      omega
    rw [hslice, ← List.take_add,
      show g.ieEnd k + (g.ieEnd (k + 1) - g.ieEnd k) = g.ieEnd (k + 1) from
        by omega]

theorem count_flatMap (c : ℕ → List ℕ) (x : ℕ) : ∀ L : List ℕ,
    ((L.flatMap c).count x) = (L.map (fun t => (c t).count x)).sum := by
  intro L
  induction L with
  | nil => simp
  | cons a L ih =>
    rw [List.flatMap_cons, List.count_append, ih]
    simp

/-- Out-degree as the sum of slice occurrence counts. -/
theorem count_partition (g : PGraph) (hwf : PWF g) (hns : 1 ≤ g.nsize) (x : ℕ) :
    g.iedges.count x =
      ((List.range' 1 (g.nsize - 1)).map
        (fun t => (sliceEdges g t).count x)).sum := by
  have h := slices_concat g hwf (g.nsize - 1) (by omega)
  rw [hwf.last, List.take_length] at h
  rw [← h, count_flatMap]

/-- Any single slice accounts for at most the whole out-degree. -/
theorem slice_count_le (g : PGraph) (hwf : PWF g) (x cur : ℕ)
    (h1 : 1 ≤ cur) (h2 : cur < g.nsize) :
    (sliceEdges g cur).count x ≤ g.iedges.count x := by
  have hns : 1 ≤ g.nsize := by omega
  rw [count_partition g hwf hns x]
  have hmem : (sliceEdges g cur).count x ∈
      (List.range' 1 (g.nsize - 1)).map (fun t => (sliceEdges g t).count x) :=
    List.mem_map_of_mem _ (by rw [List.mem_range'_1]; omega)
  exact List.single_le_sum (fun v _ => Nat.zero_le v) _ hmem

/-- A node with an outgoing edge has a forward successor. -/
theorem exists_succ_of_out (g : PGraph) (hwf : PWF g) (x : ℕ)
    (h : 0 < g.iedges.count x) : ∃ t, edgeFwd g x t := by
  have hxv : 1 ≤ x ∧ x < g.nsize := hwf.val x (List.count_pos_iff.mp h)
  have hns : 1 ≤ g.nsize := by omega
  rw [count_partition g hwf hns x] at h
  by_contra hc
  push_neg at hc
  have hzero : ((List.range' 1 (g.nsize - 1)).map
      (fun t => (sliceEdges g t).count x)).sum = 0 := by
    apply List.sum_eq_zero
    intro v hv
    rw [List.mem_map] at hv
    obtain ⟨t, htR, hveq⟩ := hv
    rw [List.mem_range'_1] at htR
    by_contra hv0
    have hmemslice : x ∈ sliceEdges g t :=
      List.count_pos_iff.mp (by omega)
    exact hc t ⟨by omega, by omega, hmemslice⟩
  omega

theorem sublist_sum_le (l₁ l₂ : List ℕ) (h : List.Sublist l₁ l₂) :
    l₁.sum ≤ l₂.sum := by
  induction h with
  | slnil => simp
  | cons a h ih => simp; omega
  | cons₂ a h ih => simp; omega

theorem subperm_map_sum_le (c : ℕ → ℕ) (L R : List ℕ)
    (h : List.Subperm L R) : (L.map c).sum ≤ (R.map c).sum := by
  obtain ⟨L2, hperm, hsub⟩ := h
  calc (L.map c).sum = (L2.map c).sum := ((hperm.map c).sum_eq).symm
    _ ≤ (R.map c).sum := sublist_sum_le _ _ (hsub.map c)

/-- If a duplicate-free list of valid nodes has absorbed at least the whole
out-degree of `x`, it contains every forward successor of `x`. -/
theorem cnt_saturated (g : PGraph) (hwf : PWF g)
    (x : ℕ) (L : List ℕ) (hnd : L.Nodup)
    (hsubset : ∀ t ∈ L, 1 ≤ t ∧ t < g.nsize)
    (hge : g.iedges.count x ≤ cntTo g x L) :
    ∀ t, edgeFwd g x t → t ∈ L := by
  intro t ht
  have hns : 1 ≤ g.nsize := by
    have := ht.2.1
    omega
  by_contra htL
  have hLR : L ⊆ List.range' 1 (g.nsize - 1) := by
    intro u hu
    have := hsubset u hu
    rw [List.mem_range'_1]
    omega
  have htR : t ∈ List.range' 1 (g.nsize - 1) := by
    rw [List.mem_range'_1]
    have := ht.1
    have := ht.2.1
    omega
  have hct : 1 ≤ (sliceEdges g t).count x := List.count_pos_iff.mpr ht.2.2
  have hRnd : (List.range' 1 (g.nsize - 1)).Nodup :=
    List.nodup_range' 1 (g.nsize - 1)
  have hLE : L ⊆ (List.range' 1 (g.nsize - 1)).erase t := by
    intro u hu
    rw [List.Nodup.mem_erase_iff hRnd]
    exact ⟨fun he => htL (he ▸ hu), hLR hu⟩
  have hsp : List.Subperm L ((List.range' 1 (g.nsize - 1)).erase t) :=
    List.subperm_of_subset hnd hLE
  have h1 : cntTo g x L ≤
      (((List.range' 1 (g.nsize - 1)).erase t).map
        (fun u => (sliceEdges g u).count x)).sum :=
    subperm_map_sum_le _ _ _ hsp
  have hperm : List.Perm (List.range' 1 (g.nsize - 1))
      (t :: (List.range' 1 (g.nsize - 1)).erase t) :=
    List.perm_cons_erase htR
  have h2 : ((List.range' 1 (g.nsize - 1)).map
      (fun u => (sliceEdges g u).count x)).sum =
      (sliceEdges g t).count x +
        (((List.range' 1 (g.nsize - 1)).erase t).map
          (fun u => (sliceEdges g u).count x)).sum := by
    have := (hperm.map (fun u => (sliceEdges g u).count x)).sum_eq
    simpa using this
  have h3 := count_partition g hwf hns x
  omega

theorem sum_map_filter_ne_zero (c : ℕ → ℕ) : ∀ R : List ℕ,
    ((R.filter (fun t => decide (c t ≠ 0))).map c).sum = (R.map c).sum := by
  intro R
  induction R with
  | nil => simp
  | cons a R ih =>
    by_cases ha : c a = 0
    · rw [List.filter_cons_of_neg (by simpa using ha), ih, List.map_cons,
        List.sum_cons, ha, Nat.zero_add]
    · rw [List.filter_cons_of_pos (by simpa using ha), List.map_cons,
        List.sum_cons, ih, List.map_cons, List.sum_cons]

/-- Conversely, a duplicate-free list containing every forward successor of
`x` absorbs the whole out-degree of `x`. -/
theorem cnt_complete (g : PGraph) (hwf : PWF g) (hns : 1 ≤ g.nsize)
    (x : ℕ) (L : List ℕ)
    (hcover : ∀ t, edgeFwd g x t → t ∈ L) :
    g.iedges.count x ≤ cntTo g x L := by
  have hfil : ((List.range' 1 (g.nsize - 1)).filter
      (fun t => decide ((sliceEdges g t).count x ≠ 0))) ⊆ L := by
    intro t htm
    rw [List.mem_filter] at htm
    have htR := htm.1
    rw [List.mem_range'_1] at htR
    have htc : (sliceEdges g t).count x ≠ 0 := by simpa using htm.2
    have hmem : x ∈ sliceEdges g t := List.count_pos_iff.mp (by omega)
    exact hcover t ⟨by omega, by omega, hmem⟩
  have hfnd : ((List.range' 1 (g.nsize - 1)).filter
      (fun t => decide ((sliceEdges g t).count x ≠ 0))).Nodup :=
    (List.nodup_range' 1 (g.nsize - 1)).filter _
  have hsp := List.subperm_of_subset hfnd hfil
  have h1 := subperm_map_sum_le (fun u => (sliceEdges g u).count x) _ _ hsp
  have h2 := sum_map_filter_ne_zero (fun u => (sliceEdges g u).count x)
    (List.range' 1 (g.nsize - 1))
  have h3 := count_partition g hwf hns x
  unfold cntTo
  omega

/-- **Round-1 fixpoint.**  The wave of `verify_progress` round 1 zeroes a
valid node exactly when it lies in the inevitability set of the
must-progress predicate. -/
theorem C2_inev_iff (g : PGraph) (hwf : PWF g) (dlNot : Bool) (ni : ℕ)
    (h1 : 1 ≤ ni) (h2 : ni < g.nsize) :
    verify_progress g dlNot 1 ni = 0 ↔
      Inev g (fun v => g.prog v = true ∨ (terminal g v ∧ dlNot = false)) ni := by
  obtain ⟨doneF, hnd, hA, hB, hC⟩ :=
    verify_progress_master g dlNot 1 (Or.inr rfl)
      (round1_invalid g dlNot hwf.val)
  constructor
  · intro hz
    have hmem : ni ∈ doneF := (hB ni).mpr ⟨hz, h1, h2⟩
    have haux : ∀ k, ∀ (hk : k < doneF.length),
        Inev g (fun v => g.prog v = true ∨ (terminal g v ∧ dlNot = false))
          (doneF.get ⟨k, hk⟩) := by
      intro k
      induction k using Nat.strong_induction_on with
      | _ k ihk =>
        intro hk
        have hxvalid := ((hB _).mp (List.get_mem doneF k hk)).2
        have hchron := hC k hk
        by_cases hz1 : markPass g dlNot (initEcnt g 1) (doneF.get ⟨k, hk⟩) = 0
        · exact Inev.base _
            ((round1_char g dlNot _ hxvalid.1 hxvalid.2).mp hz1)
        · have hns2 : ¬ (g.prog (doneF.get ⟨k, hk⟩) = true ∨
              (terminal g (doneF.get ⟨k, hk⟩) ∧ dlNot = false)) := by
            intro hcon
            exact hz1 ((round1_char g dlNot _ hxvalid.1 hxvalid.2).mpr hcon)
          have hval1 := round1_val g dlNot _ hxvalid.1 hxvalid.2 hns2
          have htake_val : ∀ t ∈ doneF.take k, 1 ≤ t ∧ t < g.nsize :=
            fun t ht => ((hB t).mp (List.mem_of_mem_take ht)).2
          by_cases hc0 : g.iedges.count (doneF.get ⟨k, hk⟩) = 0
          · exfalso
            have hcnt0 : cntTo g (doneF.get ⟨k, hk⟩) (doneF.take k) = 0 := by
              unfold cntTo
              apply List.sum_eq_zero
              intro v hv
              rw [List.mem_map] at hv
              obtain ⟨cur, hcur, hveq⟩ := hv
              have hcv := htake_val cur hcur
              have := slice_count_le g hwf (doneF.get ⟨k, hk⟩) cur hcv.1 hcv.2
              omega
            rw [hval1, if_pos hc0] at hchron
            omega
          · rw [hval1, if_neg hc0] at hchron
            have hsat2 : g.iedges.count (doneF.get ⟨k, hk⟩) ≤
                cntTo g (doneF.get ⟨k, hk⟩) (doneF.take k) := by omega
            have htake_nd : (doneF.take k).Nodup :=
              hnd.sublist (List.take_sublist k doneF)
            have hall := cnt_saturated g hwf _ (doneF.take k) htake_nd
              htake_val hsat2
            refine Inev.step _ (by omega) ?_
            intro t ht
            have htmem := hall t ht
            obtain ⟨j, hjlen, hjeq⟩ := List.getElem_of_mem htmem
            have hjk : j < k := by
              rw [List.length_take] at hjlen
              omega
            have hjF : j < doneF.length := by
              rw [List.length_take] at hjlen
              omega
            have hjget : doneF.get ⟨j, hjF⟩ = t := by
              rw [List.get_eq_getElem, ← hjeq, List.getElem_take]
            have := ihk j hjk hjF
            rwa [hjget] at this
    obtain ⟨⟨k, hk⟩, hkeq⟩ := List.mem_iff_get.mp hmem
    have := haux k hk
    rwa [hkeq] at this
  · intro hinev
    have haux : ∀ x,
        Inev g (fun v => g.prog v = true ∨ (terminal g v ∧ dlNot = false)) x →
        verify_progress g dlNot 1 x = 0 := by
      intro x hx
      induction hx with
      | base y hsy =>
        rw [hA y]
        by_cases hv : 1 ≤ y ∧ y < g.nsize
        · have := (round1_char g dlNot y hv.1 hv.2).mpr hsy
          omega
        · have := round1_invalid g dlNot hwf.val y (by omega)
          omega
      | step y hout hsucc ih =>
        have hyv : 1 ≤ y ∧ y < g.nsize :=
          hwf.val y (List.count_pos_iff.mp hout)
        rw [hA y]
        by_cases hsy : g.prog y = true ∨ (terminal g y ∧ dlNot = false)
        · have := (round1_char g dlNot y hyv.1 hyv.2).mpr hsy
          omega
        · have hval1 := round1_val g dlNot y hyv.1 hyv.2 hsy
          rw [if_neg (by omega)] at hval1
          have hcover : ∀ t, edgeFwd g y t → t ∈ doneF := by
            intro t ht
            have htz := ih t ht
            exact (hB t).mpr ⟨htz, ht.1, ht.2.1⟩
          have hge := cnt_complete g hwf (by omega) y doneF hcover
          omega
    exact haux ni hinev

/-- From a node in the inevitability set, every maximal forward walk hits
`sat`. -/
theorem inev_path (g : PGraph) (hwf : PWF g) (sat : ℕ → Prop) (x : ℕ)
    (hx : Inev g sat x) :
    ∀ p : ℕ → ℕ, p 0 = x → (∀ k, pathStep g (p k) (p (k + 1))) →
      ∃ k, sat (p k) := by
  induction hx with
  | base y hy =>
    intro p hp0 hstep
    exact ⟨0, hp0 ▸ hy⟩
  | step y hout hsucc ih =>
    intro p hp0 hstep
    have h0 := hstep 0
    rw [hp0] at h0
    rcases h0 with hedge | hstut
    · obtain ⟨k, hk⟩ := ih (p 1) hedge (fun k => p (k + 1)) rfl
        (fun k => hstep (k + 1))
      exact ⟨k + 1, hk⟩
    · exact absurd (exists_succ_of_out g hwf y hout) hstut.1

/-- A node outside the inevitability set starts a maximal forward walk
that never hits `sat`. -/
theorem not_inev_path (g : PGraph) (hwf : PWF g) (sat : ℕ → Prop) (x : ℕ)
    (hx : ¬ Inev g sat x) :
    ∃ p : ℕ → ℕ, p 0 = x ∧ (∀ k, pathStep g (p k) (p (k + 1))) ∧
      ∀ k, ¬ sat (p k) := by
  classical
  refine ⟨fun k => Nat.rec x (fun _ prev =>
    if h : ∃ t, edgeFwd g prev t ∧ ¬ Inev g sat t then h.choose else prev) k,
    rfl, ?_, ?_⟩
  all_goals
    have hninv : ∀ k, ¬ Inev g sat
        (Nat.rec x (fun _ prev =>
          if h : ∃ t, edgeFwd g prev t ∧ ¬ Inev g sat t then h.choose
          else prev) k : ℕ) := by
      intro k
      induction k with
      | zero => exact hx
      | succ k ihk =>
        show ¬ Inev g sat (if h : ∃ t, _ ∧ ¬ Inev g sat t then _ else _)
        split
        · next h => exact h.choose_spec.2
        · exact ihk
  · intro k
    set prev : ℕ := Nat.rec x (fun _ prev =>
      if h : ∃ t, edgeFwd g prev t ∧ ¬ Inev g sat t then h.choose
      else prev) k with hprev
    show pathStep g prev (if h : ∃ t, edgeFwd g prev t ∧ ¬ Inev g sat t
      then h.choose else prev)
    by_cases h : ∃ t, edgeFwd g prev t ∧ ¬ Inev g sat t
    · rw [dif_pos h]
      exact Or.inl h.choose_spec.1
    · rw [dif_neg h]
      right
      refine ⟨?_, rfl⟩
      intro hex
      obtain ⟨t, ht⟩ := hex
      push_neg at h
      have hall : ∀ t, edgeFwd g prev t → Inev g sat t := h
      have hout : 0 < g.iedges.count prev := by
        have hmem : prev ∈ sliceEdges g t := ht.2.2
        have hpos : 0 < (sliceEdges g t).count prev :=
          List.count_pos_iff.mpr hmem
        have := slice_count_le g hwf prev t ht.1 ht.2.1
        omega
      exact hninv k (Inev.step prev hout hall)
  · intro k hsat
    exact hninv k (Inev.base _ hsat)

/-- **C2.**  After `verify_progress` round 1 (must-progress) on the
back-edge structure built by `construct_input_edges`, where each node's
initial `e_cnt` is its out-degree (its occurrence count as a source in
`iedges`) and must-progress nodes are reset to 0, a node
`1 ≤ ni < nodes.size()` ends with `e_cnt = 0` iff every maximal forward
walk from `ni` eventually reaches a node satisfying the must-progress
predicate — a node whose state satisfies `is_must_progress`, or a terminal
node unless `dl_not_must`. -/
theorem C2_round1_must (g : PGraph) (hwf : PWF g) (dlNotMust : Bool) (ni : ℕ)
    (h1 : 1 ≤ ni) (h2 : ni < g.nsize) :
    verify_progress g dlNotMust 1 ni = 0 ↔
      ∀ p : ℕ → ℕ, p 0 = ni → (∀ k, pathStep g (p k) (p (k + 1))) →
        ∃ k, g.prog (p k) = true ∨
          (terminal g (p k) ∧ dlNotMust = false) := by
  rw [C2_inev_iff g hwf dlNotMust ni h1 h2]
  constructor
  · intro hinev p hp0 hstep
    exact inev_path g hwf _ ni hinev p hp0 hstep
  · intro hpath
    by_contra hni
    obtain ⟨p, hp0, hstep, hnsat⟩ := not_inev_path g hwf _ ni hni
    obtain ⟨k, hk⟩ := hpath p hp0 hstep
    exact hnsat k hk

/-- Witness for C1 on the concrete back-edge structure `gC12` at node 1. -/
theorem C1_round0_may_witness :
    verify_progress gC12 false 0 1 = 0 ↔
      ∃ m, Reach gC12 1 m ∧
        (gC12.prog m = true ∨ (terminal gC12 m ∧ false = false)) :=
  C1_round0_may gC12
    ⟨by decide, by decide, by decide, by decide⟩ false 1
    (by decide) (by decide)

/-- Witness for C2 on the concrete back-edge structure `gC12` at node 1. -/
theorem C2_round1_must_witness :
    verify_progress gC12 false 1 1 = 0 ↔
      ∀ p : ℕ → ℕ, p 0 = 1 → (∀ k, pathStep gC12 (p k) (p (k + 1))) →
        ∃ k, gC12.prog (p k) = true ∨
          (terminal gC12 (p k) ∧ false = false) :=
  C2_round1_must gC12
    ⟨by decide, by decide, by decide, by decide⟩ false 1
    (by decide) (by decide)

/-! ### Frame lemmas for the word store -/

theorem writeWords_length (ws : List ℕ) : ∀ (st : List ℕ) (pos : ℕ),
    (writeWords st pos ws).length = st.length := by
  induction ws with
  | nil => intro st pos; rfl
  | cons w rest ih =>
    intro st pos
    rw [writeWords, ih, List.length_set]

theorem getD_set_self {α : Type} (l : List α) (i : ℕ) (v d : α)
    (h : i < l.length) : (l.set i v).getD i d = v := by
  rw [List.getD_eq_getElem?_getD, List.getElem?_set_self h]
  rfl

theorem getD_set_ne {α : Type} (l : List α) (i j : ℕ) (v d : α)
    (h : i ≠ j) : (l.set i v).getD j d = l.getD j d := by
  rw [List.getD_eq_getElem?_getD, List.getElem?_set_ne h,
    List.getD_eq_getElem?_getD]

theorem writeWords_getD (ws : List ℕ) : ∀ (st : List ℕ) (pos j : ℕ),
    (writeWords st pos ws).getD j 0 =
      if pos ≤ j ∧ j < pos + ws.length ∧ j < st.length then
        ws.getD (j - pos) 0
      else st.getD j 0 := by
  induction ws with
  | nil =>
    intro st pos j
    rw [if_neg (by simp only [List.length_nil]; omega)]
    rfl
  | cons w rest ih =>
    intro st pos j
    rw [writeWords, ih, List.length_set]
    by_cases h1 : pos + 1 ≤ j ∧ j < pos + 1 + rest.length ∧ j < st.length
    · rw [if_pos h1, if_pos (by simp only [List.length_cons]; omega)]
      have hj : j - pos = (j - (pos + 1)) + 1 := by omega
      rw [hj, List.getD_cons_succ]
    · rw [if_neg h1]
      by_cases h2 : j = pos
      · subst h2
        by_cases h3 : j < st.length
        · rw [getD_set_self st j w 0 h3,
            if_pos (by simp only [List.length_cons]; omega)]
          simp
        · rw [List.set_eq_of_length_le (by omega), if_neg (by omega)]
      · rw [getD_set_ne st pos j w 0 (fun hc => h2 hc.symm)]
        rw [if_neg (by simp only [List.length_cons]; omega)]

theorem stateWords_length (nw : ℕ) (st : List ℕ) (ni : ℕ)
    (h : ni * nw + nw ≤ st.length) :
    (stateWords nw st ni).length = nw := by
  simp only [stateWords, List.length_take, List.length_drop]
  omega

theorem stateWords_eq_map (nw : ℕ) (st : List ℕ) (ni : ℕ)
    (h : ni * nw + nw ≤ st.length) :
    stateWords nw st ni =
      (List.range' (ni * nw) nw).map (fun j => st.getD j 0) := by
  apply List.ext_getElem
  · rw [stateWords_length nw st ni h]
    simp
  · intro k h1 h2
    simp only [stateWords, List.getElem_take, List.getElem_drop,
      List.getElem_map, List.getElem_range', one_mul]
    rw [List.getD_eq_getElem]

theorem stateWords_congr (nw : ℕ) (st1 st2 : List ℕ) (ni : ℕ)
    (h1 : ni * nw + nw ≤ st1.length) (h2 : ni * nw + nw ≤ st2.length)
    (h : ∀ j, ni * nw ≤ j → j < ni * nw + nw → st1.getD j 0 = st2.getD j 0) :
    stateWords nw st1 ni = stateWords nw st2 ni := by
  rw [stateWords_eq_map nw st1 ni h1, stateWords_eq_map nw st2 ni h2]
  apply List.map_congr_left
  intro j hj
  rw [List.mem_range'_1] at hj
  exact h j hj.1 (by omega)

theorem stateWords_write_frame (nw : ℕ) (st ws : List ℕ) (pos ni : ℕ)
    (hpos : ni * nw + nw ≤ pos) (hlen : ni * nw + nw ≤ st.length) :
    stateWords nw (writeWords st pos ws) ni = stateWords nw st ni := by
  apply stateWords_congr
  · rw [writeWords_length]; exact hlen
  · exact hlen
  · intro j hj1 hj2
    rw [writeWords_getD, if_neg (by omega)]

theorem stateWords_write_self (nw : ℕ) (st ws : List ℕ) (ni : ℕ)
    (hws : ws.length = nw) (hlen : ni * nw + nw ≤ st.length) :
    stateWords nw (writeWords st (ni * nw) ws) ni = ws := by
  have hlen' : ni * nw + nw ≤ (writeWords st (ni * nw) ws).length := by
    rw [writeWords_length]; exact hlen
  rw [stateWords_eq_map nw _ ni hlen']
  apply List.ext_getElem
  · simp [hws]
  · intro k h1 h2
    simp only [List.getElem_map, List.getElem_range', one_mul]
    rw [writeWords_getD, if_pos (by omega)]
    have hk : ni * nw + k - ni * nw = k := by omega
    rw [hk, List.getD_eq_getElem]

theorem resizeTo_length (st : List ℕ) (len : ℕ) :
    (resizeTo st len).length = len := by
  simp only [resizeTo, List.length_append, List.length_take,
    List.length_replicate]
  omega

theorem resizeTo_getD (st : List ℕ) (len j : ℕ) :
    (resizeTo st len).getD j 0 = if j < len then st.getD j 0 else 0 := by
  by_cases h : j < len
  · rw [if_pos h]
    by_cases h2 : j < st.length
    · have hjt : j < (st.take len).length := by
        simp only [List.length_take]; omega
      rw [List.getD_eq_getElem?_getD]
      simp only [resizeTo]
      rw [List.getElem?_append_left hjt, List.getElem?_take_of_lt h,
        List.getD_eq_getElem?_getD]
    · have hge : (st.take len).length ≤ j := by
        simp only [List.length_take]; omega
      rw [List.getD_eq_getElem?_getD]
      simp only [resizeTo]
      rw [List.getElem?_append_right hge]
      have : st.getD j 0 = 0 := by
        rw [List.getD_eq_getElem?_getD, List.getElem?_eq_none (by omega)]
        rfl
      rw [this]
      by_cases h3 : j - (st.take len).length < len - st.length
      · rw [List.getElem?_replicate, if_pos h3]
        rfl
      · rw [List.getElem?_eq_none (by simp only [List.length_replicate]; omega)]
        rfl
  · rw [if_neg h, List.getD_eq_getElem?_getD,
      List.getElem?_eq_none (by rw [resizeTo_length]; omega)]
    rfl

theorem stateWords_resize_frame (nw : ℕ) (st : List ℕ) (len ni : ℕ)
    (hni : ni * nw + nw ≤ st.length) (hlen : st.length ≤ len) :
    stateWords nw (resizeTo st len) ni = stateWords nw st ni := by
  apply stateWords_congr
  · rw [resizeTo_length]; omega
  · exact hni
  · intro j hj1 hj2
    rw [resizeTo_getD, if_pos (by omega)]

/-! ### The capacity-error path (claim C9) -/

theorem hash_try_capacity (cfg : Config) (s : Sys) (hwf : HashWF cfg s)
    (hmiss : ∀ ni < s.nodes.length, 1 ≤ ni →
      stateWords cfg.nrWords s.stData ni ≠
        stateWords cfg.nrWords s.stData s.nodes.length)
    (hcap : cfg.stopCount < s.nodes.length) :
    hash_try cfg s false =
      (s.nodes.length,
        { s with err := some "Maximum number of states exceeded" }) := by
  have hcf := chainFind_miss cfg s hwf hmiss
  simp only [hash_try, hcf]
  simp [hcap]

/-- **C9.**  When a new state would make the node index exceed
`stop_count`, `hash_try` sets the error message and returns `nodes.size()`
without creating a node; the forward-mode caller `try_transition` then
increments `nr_edges` and performs its `e_cnt` increment at that returned
index — one past the last valid node-table entry, an out-of-range
subscript under the total embedding — and, when `hash_was_new` retained a
stale `true`, also targets `prev` there; the node table is left
unchanged by all of it. -/
theorem C9_capacity_oob (cfg : Config) (M : Model) (s s1 : Sys)
    (n1 tr : ℕ) (ws : List ℕ)
    (herr : s.err = none)
    (hfr : M.fire tr (stateWords cfg.nrWords s.stData s.nodes.length) =
      some ws)
    (hfe : M.fireErr tr (stateWords cfg.nrWords s.stData s.nodes.length) =
      none)
    (hs1 : s1 =
      { s with stData :=
          writeWords s.stData (s.nodes.length * cfg.nrWords) ws })
    (hwf : HashWF cfg s1)
    (hmiss : ∀ ni < s1.nodes.length, 1 ≤ ni →
      stateWords cfg.nrWords s1.stData ni ≠
        stateWords cfg.nrWords s1.stData s1.nodes.length)
    (hcap : cfg.stopCount < s.nodes.length) :
    hash_insert cfg s1 =
      (s.nodes.length,
        { s1 with err := some "Maximum number of states exceeded" }) ∧
    (try_transition cfg M s n1 tr).oob = true ∧
    (try_transition cfg M s n1 tr).sys.nodes = s.nodes ∧
    (try_transition cfg M s n1 tr).sys.nrEdges = s.nrEdges + 1 := by
  subst hs1
  have h1 : hash_insert cfg
      ({ s with stData :=
        writeWords s.stData (s.nodes.length * cfg.nrWords) ws } : Sys) =
      (s.nodes.length,
        { s with
          stData := writeWords s.stData (s.nodes.length * cfg.nrWords) ws,
          err := some "Maximum number of states exceeded" }) := by
    rw [hash_insert]
    exact hash_try_capacity cfg _ hwf hmiss hcap
  refine ⟨h1, ?_⟩
  rw [herr] at h1
  have hset : ∀ v : node_type, s.nodes.set s.nodes.length v = s.nodes :=
    fun v => List.set_eq_of_length_le (Nat.le_refl _)
  simp only [try_transition, hfr, hfe, herr, h1, hset, Option.isSome_none,
    Bool.false_eq_true, if_false]
  cases hw : s.hashWasNew with
  | false => simp [fire_init, use_state]
  | true =>
    cases hchk : M.checkState with
    | none => simp [fire_init, use_state]
    | some chk =>
      cases hc2 : (chk (stateWords cfg.nrWords
          (writeWords s.stData (s.nodes.length * cfg.nrWords) ws)
          s.nodes.length)).isSome with
      | false => simp [hc2, fire_init, use_state]
      | true => simp [hc2]

/-- Witness for C9 on the concrete capacity scenario: `sC6` holds two
stored nodes against `stop_count = 1`, and transition 0 fires the fresh
state `[9]` from the scratch slot. -/
theorem C9_capacity_oob_witness :
    cfgCap.stopCount < sC6.nodes.length ∧
    (hash_insert cfgCap sCapPost =
      (sC6.nodes.length,
        { sCapPost with err := some "Maximum number of states exceeded" }) ∧
    (try_transition cfgCap MCap sC6 1 0).oob = true ∧
    (try_transition cfgCap MCap sC6 1 0).sys.nodes = sC6.nodes ∧
    (try_transition cfgCap MCap sC6 1 0).sys.nrEdges = sC6.nrEdges + 1) :=
  ⟨by decide,
    C9_capacity_oob cfgCap MCap sC6 sCapPost 1 0 [9] (by decide) (by decide)
      (by decide) rfl
      ⟨by decide, by decide, by decide, by decide, by decide⟩
      (by decide) (by decide)⟩

/-! ### The first-error discipline (claim C7) -/

/-- **C7, counterexample.**  A single `try_transition` call on the
concrete capacity scenario: `hash_insert` sets the process-wide error
slot to the capacity message, but the stale `hash_was_new = true` routes
the call into the new-state branch, whose `err_msg = model::check_state()`
assignment replaces the already-set error with a different message before
the run ends — the first error set does not win. -/
theorem C7_counterexample :
    sC6.err = none ∧
    (hash_insert cfgCap sCapPost).2.err =
      some "Maximum number of states exceeded" ∧
    (try_transition cfgCap MCap sC6 1 0).sys.err =
      some "Safety check failed" := by
  refine ⟨by decide, by decide, by decide⟩

/-- **C7 (amended).**  The reporter prints at most one counterexample
trace: once `report_error`'s static flag is set every later call is a
no-op, and the first call prints and sets the flag.  Within a forward
`try_transition`, a transition-firing error is returned immediately and
is final, and the capacity error is final whenever `hash_was_new` does
not hold a stale `true`; with a stale `true` and `chk_state` compiled in,
the `err_msg = model::check_state()` assignment of the new-state branch
overwrites the capacity error (see the counterexample), so the
first-error-wins discipline holds only outside that path. -/
theorem C7_first_error (cfg : Config) (M : Model) (s s1 : Sys)
    (n1 tr : ℕ) (ws : List ℕ)
    (herr : s.err = none)
    (hfr : M.fire tr (stateWords cfg.nrWords s.stData s.nodes.length) =
      some ws)
    (hs1 : s1 =
      { s with stData :=
          writeWords s.stData (s.nodes.length * cfg.nrWords) ws })
    (hwf : HashWF cfg s1)
    (hmiss : ∀ ni < s1.nodes.length, 1 ≤ ni →
      stateWords cfg.nrWords s1.stData ni ≠
        stateWords cfg.nrWords s1.stData s1.nodes.length)
    (hcap : cfg.stopCount < s.nodes.length) :
    (∀ (ni : ℕ) (msg : String), (report_error true ni msg).2 = false ∧
      report_error false ni msg = (true, true)) ∧
    (∀ m, M.fireErr tr (stateWords cfg.nrWords s.stData s.nodes.length) =
        some m →
      (try_transition cfg M s n1 tr).sys.err = some m ∧
      (try_transition cfg M s n1 tr).fired = false) ∧
    (M.fireErr tr (stateWords cfg.nrWords s.stData s.nodes.length) = none →
      s.hashWasNew = false →
      (try_transition cfg M s n1 tr).sys.err =
        some "Maximum number of states exceeded") := by
  subst hs1
  have h1 : hash_insert cfg
      ({ s with stData :=
        writeWords s.stData (s.nodes.length * cfg.nrWords) ws } : Sys) =
      (s.nodes.length,
        { s with
          stData := writeWords s.stData (s.nodes.length * cfg.nrWords) ws,
          err := some "Maximum number of states exceeded" }) := by
    rw [hash_insert]
    exact hash_try_capacity cfg _ hwf hmiss hcap
  rw [herr] at h1
  refine ⟨fun ni msg => ⟨rfl, rfl⟩, ?_, ?_⟩
  · intro m hm
    simp [try_transition, hfr, hm]
  · intro hfe hw
    rw [hw] at h1
    have hset : ∀ v : node_type, s.nodes.set s.nodes.length v = s.nodes :=
      fun v => List.set_eq_of_length_le (Nat.le_refl _)
    simp only [try_transition, hfr, hfe, herr, h1, hset, hw,
      Option.isSome_none, Bool.false_eq_true, if_false]
    simp [fire_init, use_state]

/-- Witness for C7 (amended) on the concrete capacity scenario with the
stale `hash_was_new` cleared: the capacity message is final. -/
theorem C7_first_error_witness :
    sCapB.hashWasNew = false ∧
    ((∀ (ni : ℕ) (msg : String), (report_error true ni msg).2 = false ∧
      report_error false ni msg = (true, true)) ∧
    (∀ m, MCap.fireErr 0
        (stateWords cfgCap.nrWords sCapB.stData sCapB.nodes.length) =
        some m →
      (try_transition cfgCap MCap sCapB 1 0).sys.err = some m ∧
      (try_transition cfgCap MCap sCapB 1 0).fired = false) ∧
    (MCap.fireErr 0
        (stateWords cfgCap.nrWords sCapB.stData sCapB.nodes.length) =
        none →
      sCapB.hashWasNew = false →
      (try_transition cfgCap MCap sCapB 1 0).sys.err =
        some "Maximum number of states exceeded")) :=
  ⟨by decide,
    C7_first_error cfgCap MCap sCapB sCapBPost 1 0 [9] (by decide)
      (by decide) rfl
      ⟨by decide, by decide, by decide, by decide, by decide⟩
      (by decide) (by decide)⟩

/-! ### Stored states are immutable (claim C10) -/

theorem slot_le (ni len nw : ℕ) (h : ni < len) :
    ni * nw + nw ≤ len * nw := by
  have h2 : (ni + 1) * nw ≤ len * nw :=
    Nat.mul_le_mul_right nw h
  rw [Nat.succ_mul] at h2
  exact h2

theorem hash_try_frame (cfg : Config) (s : Sys) (no_ins : Bool)
    (hsize : s.stData.length = (s.nodes.length + 1) * cfg.nrWords) :
    (∀ ni ≤ s.nodes.length,
      stateWords cfg.nrWords (hash_try cfg s no_ins).2.stData ni =
        stateWords cfg.nrWords s.stData ni) ∧
    s.nodes.length ≤ (hash_try cfg s no_ins).2.nodes.length ∧
    (hash_try cfg s no_ins).2.nodes.length ≤ s.nodes.length + 1 ∧
    (hash_try cfg s no_ins).2.stData.length =
      ((hash_try cfg s no_ins).2.nodes.length + 1) * cfg.nrWords := by
  simp only [hash_try]
  split
  · exact ⟨fun ni _ => rfl, Nat.le_refl _, Nat.le_succ _, hsize⟩
  · split
    · exact ⟨fun ni _ => rfl, Nat.le_refl _, Nat.le_succ _, hsize⟩
    · split
      · exact ⟨fun ni _ => rfl, Nat.le_refl _, Nat.le_succ _, hsize⟩
      · refine ⟨?_, ?_, ?_, ?_⟩
        · intro ni hni
          show stateWords cfg.nrWords
            (resizeTo s.stData ((s.nodes.length + 2) * cfg.nrWords)) ni = _
          apply stateWords_resize_frame
          · rw [hsize]
            exact slot_le ni (s.nodes.length + 1) cfg.nrWords (by omega)
          · rw [hsize]
            exact Nat.mul_le_mul_right cfg.nrWords (by omega)
        · simp
        · simp
        · show (resizeTo s.stData ((s.nodes.length + 2) * cfg.nrWords)).length
            = _
          rw [resizeTo_length]
          simp

theorem try_transition_frame (cfg : Config) (M : Model) (s : Sys)
    (n1 tr : ℕ)
    (hM : ∀ t ws res, M.fire t ws = some res → res.length = cfg.nrWords)
    (hsize : s.stData.length = (s.nodes.length + 1) * cfg.nrWords) :
    (∀ ni < s.nodes.length,
      stateWords cfg.nrWords (try_transition cfg M s n1 tr).sys.stData ni =
        stateWords cfg.nrWords s.stData ni) ∧
    s.nodes.length ≤ (try_transition cfg M s n1 tr).sys.nodes.length ∧
    (try_transition cfg M s n1 tr).sys.stData.length =
      ((try_transition cfg M s n1 tr).sys.nodes.length + 1) *
        cfg.nrWords := by
  cases hfr : M.fire tr (stateWords cfg.nrWords s.stData s.nodes.length) with
  | none =>
    simp only [try_transition, hfr]
    split
    · exact ⟨fun ni _ => rfl, Nat.le_refl _, hsize⟩
    · exact ⟨fun ni _ => rfl, Nat.le_refl _, hsize⟩
  | some ws =>
    have hws : ws.length = cfg.nrWords := hM tr _ ws hfr
    have hW : (writeWords s.stData (s.nodes.length * cfg.nrWords) ws).length
        = (s.nodes.length + 1) * cfg.nrWords := by
      rw [writeWords_length]; exact hsize
    have hWfr : ∀ ni < s.nodes.length,
        stateWords cfg.nrWords
          (writeWords s.stData (s.nodes.length * cfg.nrWords) ws) ni =
        stateWords cfg.nrWords s.stData ni := by
      intro ni hni
      apply stateWords_write_frame
      · exact slot_le ni s.nodes.length cfg.nrWords hni
      · rw [hsize]
        exact slot_le ni (s.nodes.length + 1) cfg.nrWords (by omega)
    cases hfe : M.fireErr tr
        (stateWords cfg.nrWords s.stData s.nodes.length) with
    | some m =>
      simp only [try_transition, hfr, hfe, Option.isSome_some, if_true]
      exact ⟨hWfr, Nat.le_refl _, hW⟩
    | none =>
      simp only [try_transition, hash_insert, hfr, hfe]
      split
      · exact ⟨hWfr, Nat.le_refl _, hW⟩
      · obtain ⟨Hst, Hle, Hle2, Hsize⟩ :=
          hash_try_frame cfg
            ({ s with stData :=
                writeWords s.stData (s.nodes.length * cfg.nrWords) ws } : Sys)
            false hW
        simp only [Sys.nodes, Sys.stData] at Hst Hle Hle2 Hsize
        split
        · split
          · split
            · refine ⟨?_, ?_, ?_⟩
              · intro ni hni
                simp only [TTResult.sys]
                rw [Hst ni (by omega), hWfr ni hni]
              · simpa using Hle
              · simpa using Hsize
            · refine ⟨?_, ?_, ?_⟩
              · intro ni hni
                simp only [TTResult.sys, fire_init, use_state,
                  List.length_set]
                rw [stateWords_write_frame _ _ _ _ _
                    (slot_le ni _ cfg.nrWords (by omega))
                    (by rw [Hsize]
                        exact slot_le ni _ cfg.nrWords (by omega)),
                  Hst ni (by omega), hWfr ni hni]
              · simpa [fire_init, use_state] using Hle
              · simp only [TTResult.sys, fire_init, use_state,
                  List.length_set, writeWords_length]
                simpa using Hsize
          · refine ⟨?_, ?_, ?_⟩
            · intro ni hni
              simp only [TTResult.sys, fire_init, use_state,
                List.length_set]
              rw [stateWords_write_frame _ _ _ _ _
                  (slot_le ni _ cfg.nrWords (by omega))
                  (by rw [Hsize]
                      exact slot_le ni _ cfg.nrWords (by omega)),
                Hst ni (by omega), hWfr ni hni]
            · simpa [fire_init, use_state] using Hle
            · simp only [TTResult.sys, fire_init, use_state,
                List.length_set, writeWords_length]
              simpa using Hsize
        · refine ⟨?_, ?_, ?_⟩
          · intro ni hni
            simp only [TTResult.sys, fire_init, use_state, List.length_set]
            rw [stateWords_write_frame _ _ _ _ _
                (slot_le ni _ cfg.nrWords (by omega))
                (by rw [Hsize]
                    exact slot_le ni _ cfg.nrWords (by omega)),
              Hst ni (by omega), hWfr ni hni]
          · simpa [fire_init, use_state] using Hle
          · simp only [TTResult.sys, fire_init, use_state,
              List.length_set, writeWords_length]
            simpa using Hsize

theorem tryAll_frame (cfg : Config) (M : Model) (n1 : ℕ)
    (hM : ∀ t ws res, M.fire t ws = some res → res.length = cfg.nrWords) :
    ∀ (trs : List ℕ) (s : Sys),
    s.stData.length = (s.nodes.length + 1) * cfg.nrWords →
    (∀ ni < s.nodes.length,
      stateWords cfg.nrWords (tryAll cfg M n1 s trs).stData ni =
        stateWords cfg.nrWords s.stData ni) ∧
    s.nodes.length ≤ (tryAll cfg M n1 s trs).nodes.length ∧
    (tryAll cfg M n1 s trs).stData.length =
      ((tryAll cfg M n1 s trs).nodes.length + 1) * cfg.nrWords := by
  intro trs
  induction trs with
  | nil =>
    intro s hsize
    exact ⟨fun ni _ => rfl, Nat.le_refl _, hsize⟩
  | cons t rest ih =>
    intro s hsize
    obtain ⟨F1, F2, F3⟩ := try_transition_frame cfg M s n1 t hM hsize
    simp only [tryAll]
    split
    · exact ⟨F1, F2, F3⟩
    · obtain ⟨G1, G2, G3⟩ := ih (try_transition cfg M s n1 t).sys F3
      refine ⟨?_, by omega, G3⟩
      intro ni hni
      rw [G1 ni (by omega), F1 ni hni]

theorem bfsStep_frame (cfg : Config) (M : Model)
    (cdl : Option (List ℕ → Option String)) (s : Sys) (q : ℕ)
    (hM : ∀ t ws res, M.fire t ws = some res → res.length = cfg.nrWords)
    (hsize : s.stData.length = (s.nodes.length + 1) * cfg.nrWords) :
    (∀ ni < s.nodes.length,
      stateWords cfg.nrWords (bfsStep cfg M cdl s q).stData ni =
        stateWords cfg.nrWords s.stData ni) ∧
    s.nodes.length ≤ (bfsStep cfg M cdl s q).nodes.length ∧
    (bfsStep cfg M cdl s q).stData.length =
      ((bfsStep cfg M cdl s q).nodes.length + 1) * cfg.nrWords := by
  have h1size : (fire_init cfg.nrWords s q).stData.length =
      ((fire_init cfg.nrWords s q).nodes.length + 1) * cfg.nrWords := by
    simp only [fire_init, use_state, Sys.stData, Sys.nodes,
      writeWords_length]
    exact hsize
  have h1fr : ∀ ni < s.nodes.length,
      stateWords cfg.nrWords (fire_init cfg.nrWords s q).stData ni =
        stateWords cfg.nrWords s.stData ni := by
    intro ni hni
    simp only [fire_init, use_state, Sys.stData]
    apply stateWords_write_frame
    · exact slot_le ni s.nodes.length cfg.nrWords hni
    · rw [hsize]
      exact slot_le ni (s.nodes.length + 1) cfg.nrWords (by omega)
  obtain ⟨T1, T2, T3⟩ := tryAll_frame cfg M q hM
    (List.range M.nrTrans).reverse (fire_init cfg.nrWords s q) h1size
  simp only [fire_init, use_state, Sys.nodes, Sys.stData] at T1 T2 T3 h1fr h1size
  have K1 : ∀ ni < s.nodes.length,
      stateWords cfg.nrWords
        (tryAll cfg M q
          (fire_init cfg.nrWords s q) (List.range M.nrTrans).reverse).stData
        ni =
      stateWords cfg.nrWords s.stData ni := by
    intro ni hni
    simp only [fire_init, use_state]
    rw [T1 ni hni, h1fr ni hni]
  have K2 : s.nodes.length ≤
      (tryAll cfg M q
        (fire_init cfg.nrWords s q)
        (List.range M.nrTrans).reverse).nodes.length := by
    simp only [fire_init, use_state]
    exact T2
  have K3 : (tryAll cfg M q
        (fire_init cfg.nrWords s q)
        (List.range M.nrTrans).reverse).stData.length =
      ((tryAll cfg M q
        (fire_init cfg.nrWords s q)
        (List.range M.nrTrans).reverse).nodes.length + 1) * cfg.nrWords := by
    simp only [fire_init, use_state]
    exact T3
  simp only [bfsStep]
  split
  · exact ⟨K1, K2, K3⟩
  · split
    · split
      · exact ⟨K1, K2, K3⟩
      · exact ⟨K1, K2, K3⟩
    · exact ⟨K1, K2, K3⟩

/-- **C10.**  Stored states are immutable after creation: every
`try_transition` (which fires the model from the scratch slot selected by
`fire_init`, lets `hash_try` extend the store, and restores the scratch)
leaves the `nr_words` state words of every already-stored node unchanged,
and so does the whole breadth-first exploration loop from any point on —
the node table only ever grows, and all word writes land in the scratch
slot at index `nodes.size()` or beyond. -/
theorem C10_stored_immutable (cfg : Config) (M : Model)
    (cdl : Option (List ℕ → Option String))
    (hM : ∀ t ws res, M.fire t ws = some res → res.length = cfg.nrWords) :
    (∀ (s : Sys) (n1 tr : ℕ),
      s.stData.length = (s.nodes.length + 1) * cfg.nrWords →
      ∀ ni < s.nodes.length,
        stateWords cfg.nrWords
          (try_transition cfg M s n1 tr).sys.stData ni =
          stateWords cfg.nrWords s.stData ni) ∧
    (∀ (fuel : ℕ) (s : Sys) (q : ℕ),
      s.stData.length = (s.nodes.length + 1) * cfg.nrWords →
      s.nodes.length ≤ (bfsLoop cfg M cdl fuel s q).nodes.length ∧
      ∀ ni < s.nodes.length,
        stateWords cfg.nrWords (bfsLoop cfg M cdl fuel s q).stData ni =
          stateWords cfg.nrWords s.stData ni) := by
  refine ⟨fun s n1 tr hsize =>
    (try_transition_frame cfg M s n1 tr hM hsize).1, ?_⟩
  intro fuel
  induction fuel with
  | zero =>
    intro s q hsize
    exact ⟨Nat.le_refl _, fun ni _ => rfl⟩
  | succ fuel ih =>
    intro s q hsize
    simp only [bfsLoop]
    split
    · obtain ⟨B1, B2, B3⟩ := bfsStep_frame cfg M cdl s q hM hsize
      split
      · exact ⟨B2, B1⟩
      · obtain ⟨C1, C2⟩ := ih (bfsStep cfg M cdl s q) (q + 1) B3
        exact ⟨by omega, fun ni hni => by rw [C2 ni (by omega), B1 ni hni]⟩
    · exact ⟨Nat.le_refl _, fun ni _ => rfl⟩

/-- Witness for C10: running the breadth-first loop on the concrete store
`sC6` leaves the words of stored node 1 untouched. -/
theorem C10_stored_immutable_witness :
    stateWords cfgC6.nrWords (bfsLoop cfgC6 MCap none 5 sC6 1).stData 1 =
      stateWords cfgC6.nrWords sC6.stData 1 :=
  ((C10_stored_immutable cfgC6 MCap none
    (fun t ws res h => by
      simp only [MCap] at h
      split at h
      · injection h with h2
        rw [← h2]
        rfl
      · exact Option.noConfusion h)).2 5 sC6 1 (by decide)).2 1 (by decide)

/-! ### The typical-sequence scan (claim C4) -/

theorem chainList_congr (sA sB : Sys) (hn : sA.nodes = sB.nodes) :
    ∀ (fuel ni : ℕ), chainList sA fuel ni = chainList sB fuel ni := by
  intro fuel
  induction fuel with
  | zero => intro ni; rfl
  | succ fuel ih =>
    intro ni
    by_cases h0 : ni = 0
    · subst h0
      simp [chainList]
    · simp only [chainList, if_neg h0, hn, ih]

theorem chainFind_congr (nw : ℕ) (sA sB : Sys) (target : List ℕ)
    (hn : sA.nodes = sB.nodes) :
    ∀ (fuel ni : ℕ),
    (∀ x ∈ chainList sA fuel ni,
      stateWords nw sA.stData x = stateWords nw sB.stData x) →
    chainFind nw sA target fuel ni = chainFind nw sB target fuel ni := by
  intro fuel
  induction fuel with
  | zero => intro ni h; rfl
  | succ fuel ih =>
    intro ni h
    by_cases h0 : ni = 0
    · subst h0
      simp [chainFind]
    · have hx : stateWords nw sA.stData ni = stateWords nw sB.stData ni := by
        apply h
        simp only [chainList, if_neg h0]
        exact List.mem_cons_self _ _
      simp only [chainFind, if_neg h0, hx, hn]
      by_cases he : stateWords nw sB.stData ni = target
      · rw [if_pos he, if_pos he]
      · rw [if_neg he, if_neg he]
        apply ih
        intro x hxm
        apply h
        simp only [chainList, if_neg h0, hn]
        exact List.mem_cons_of_mem _ hxm

theorem hash_try_noins_globals (cfg : Config) (s : Sys) :
    (hash_try cfg s true).2.nodes = s.nodes ∧
    (hash_try cfg s true).2.hashTbl = s.hashTbl ∧
    (hash_try cfg s true).2.stData = s.stData := by
  simp only [hash_try]
  split
  · exact ⟨rfl, rfl, rfl⟩
  · exact ⟨rfl, rfl, rfl⟩

theorem hash_try_fst_congr (cfg : Config) (sA sB : Sys)
    (hn : sA.nodes = sB.nodes)
    (hh : sA.hashTbl = sB.hashTbl)
    (hscr2 : stateWords cfg.nrWords sA.stData sA.nodes.length =
      stateWords cfg.nrWords sB.stData sB.nodes.length)
    (hws : ∀ x ∈ chainList sA (sA.nodes.length + 1)
        (sA.hashTbl (hashOf cfg.hashBits
          (stateWords cfg.nrWords sA.stData sA.nodes.length))),
      stateWords cfg.nrWords sA.stData x =
        stateWords cfg.nrWords sB.stData x) :
    (hash_try cfg sA true).1 = (hash_try cfg sB true).1 := by
  have hcf := chainFind_congr cfg.nrWords sA sB
    (stateWords cfg.nrWords sA.stData sA.nodes.length) hn
    (sA.nodes.length + 1)
    (sA.hashTbl (hashOf cfg.hashBits
      (stateWords cfg.nrWords sA.stData sA.nodes.length))) hws
  simp only [hash_try]
  rw [← hscr2, ← hh, ← hn, ← hcf]
  generalize chainFind cfg.nrWords sA
    (stateWords cfg.nrWords sA.stData sA.nodes.length)
    (sA.nodes.length + 1)
    (sA.hashTbl (hashOf cfg.hashBits
      (stateWords cfg.nrWords sA.stData sA.nodes.length))) = c
  by_cases hc : c ≠ 0
  · rw [if_pos hc, if_pos hc]
  · rw [if_neg hc, if_neg hc]
    simp

/-- The transition scan of `print_typical` in find-only mode, characterised
against the walk's standing store `s`: the scan returns the looked-up
successor of the first transition (in ascending order) whose fired
successor has a nonzero index and a nonzero `e_cnt`, and `none` when no
transition qualifies.  The quantification over `s'` (any store that agrees
with `s` on nodes, hash table and stored states and whose scratch slot
holds the walk node's words) is what the restore step `fire_init( nprev )`
re-establishes between trials. -/
theorem typScan_spec (cfg : Config) (M : Model) (s : Sys) (nprev : ℕ)
    (hwf : HashWF cfg s)
    (hM : ∀ t ws res, M.fire t ws = some res → res.length = cfg.nrWords)
    (hnp1 : 1 ≤ nprev) (hnp2 : nprev < s.nodes.length) :
    ∀ (count : ℕ) (s' : Sys) (tr : ℕ),
    s'.nodes = s.nodes →
    s'.hashTbl = s.hashTbl →
    s'.stData.length = s.stData.length →
    (∀ m, 1 ≤ m → m < s.nodes.length →
      stateWords cfg.nrWords s'.stData m =
        stateWords cfg.nrWords s.stData m) →
    stateWords cfg.nrWords s'.stData s.nodes.length =
      stateWords cfg.nrWords s.stData nprev →
    ((∀ k < count, ∀ ni, typTryAt cfg M true s nprev (tr + k) = some ni →
        ni = 0 ∨ (s.nodes.getD ni node0).e_cnt = 0) →
      (typScan cfg M true nprev count s' tr).2 = none) ∧
    (∀ k < count, ∀ ni, typTryAt cfg M true s nprev (tr + k) = some ni →
      ni ≠ 0 → (s.nodes.getD ni node0).e_cnt ≠ 0 →
      (∀ j < k, ∀ nj, typTryAt cfg M true s nprev (tr + j) = some nj →
        nj = 0 ∨ (s.nodes.getD nj node0).e_cnt = 0) →
      (typScan cfg M true nprev count s' tr).2 = some ni) := by
  intro count
  induction count with
  | zero =>
    intro s' tr hn hht hlen hst hscr
    exact ⟨fun _ => rfl, fun k hk => absurd hk (Nat.not_lt_zero k)⟩
  | succ count ih =>
    intro s' tr hn hht hlen hst hscr
    obtain ⟨d', n', h', w', e', t', r'⟩ := s'
    simp only [Sys.nodes, Sys.hashTbl, Sys.stData] at hn hht hlen hst hscr
    subst hn
    subst hht
    cases hfr : M.fire tr (stateWords cfg.nrWords s.stData nprev) with
    | none =>
      have htt : typTryAt cfg M true s nprev tr = none := by
        simp only [typTryAt, hfr]
      have hstep : typScan cfg M true nprev (count + 1)
          (⟨d', s.nodes, s.hashTbl, w', e', t', r'⟩ : Sys) tr =
          typScan cfg M true nprev count
            (⟨d', s.nodes, s.hashTbl, w', e', t', r'⟩ : Sys) (tr + 1) := by
        simp only [typScan, Sys.stData, Sys.nodes, hscr, hfr]
      have hIH := ih (⟨d', s.nodes, s.hashTbl, w', e', t', r'⟩ : Sys)
        (tr + 1) rfl rfl hlen hst hscr
      rw [hstep]
      constructor
      · intro hno
        apply hIH.1
        intro k hk ni hni
        apply hno (k + 1) (by omega) ni
        rw [show tr + (k + 1) = tr + 1 + k from by omega]
        exact hni
      · intro k hk ni hni hni0 hec hmin
        cases k with
        | zero =>
          rw [Nat.add_zero, htt] at hni
          exact Option.noConfusion hni
        | succ j =>
          apply hIH.2 j (by omega) ni ?_ hni0 hec ?_
          · rw [show tr + 1 + j = tr + (j + 1) from by omega]
            exact hni
          · intro i hi nj hnj
            apply hmin (i + 1) (by omega) nj
            rw [show tr + (i + 1) = tr + 1 + i from by omega]
            exact hnj
    | some ws =>
      have hws : ws.length = cfg.nrWords := hM tr _ ws hfr
      have hcap0 : s.nodes.length * cfg.nrWords + cfg.nrWords ≤
          s.stData.length := by
        rw [hwf.size, Nat.succ_mul]
      have hcap1 : s.nodes.length * cfg.nrWords + cfg.nrWords ≤
          d'.length := by
        rw [hlen]
        exact hcap0
      have ht1 : stateWords cfg.nrWords
          (writeWords d' (s.nodes.length * cfg.nrWords) ws)
          s.nodes.length = ws :=
        stateWords_write_self _ _ _ _ hws hcap1
      have ht0 : stateWords cfg.nrWords
          (writeWords s.stData (s.nodes.length * cfg.nrWords) ws)
          s.nodes.length = ws :=
        stateWords_write_self _ _ _ _ hws hcap0
      have hfrm1 : ∀ m, 1 ≤ m → m < s.nodes.length →
          stateWords cfg.nrWords
            (writeWords d' (s.nodes.length * cfg.nrWords) ws) m =
          stateWords cfg.nrWords s.stData m := by
        intro m h1 h2
        rw [stateWords_write_frame _ _ _ _ _
          (slot_le m _ _ h2)
          (by rw [hlen, hwf.size]
              exact slot_le m _ _ (by omega))]
        exact hst m h1 h2
      have hfrm0 : ∀ m, 1 ≤ m → m < s.nodes.length →
          stateWords cfg.nrWords
            (writeWords s.stData (s.nodes.length * cfg.nrWords) ws) m =
          stateWords cfg.nrWords s.stData m := by
        intro m h1 h2
        rw [stateWords_write_frame _ _ _ _ _
          (slot_le m _ _ h2)
          (by rw [hwf.size]
              exact slot_le m _ _ (by omega))]
      have hAB : (hash_try cfg
          (⟨writeWords d' (s.nodes.length * cfg.nrWords) ws, s.nodes,
            s.hashTbl, w', e', t', r'⟩ : Sys) true).1 =
          (hash_try cfg
          ({ s with stData :=
            writeWords s.stData (s.nodes.length * cfg.nrWords) ws } : Sys)
            true).1 := by
        apply hash_try_fst_congr
        · rfl
        · rfl
        · show stateWords cfg.nrWords
            (writeWords d' (s.nodes.length * cfg.nrWords) ws)
            s.nodes.length = stateWords cfg.nrWords
            (writeWords s.stData (s.nodes.length * cfg.nrWords) ws)
            s.nodes.length
          rw [ht1, ht0]
        · intro x hx
          have hx2 : x ∈ chainList
              (⟨writeWords d' (s.nodes.length * cfg.nrWords) ws, s.nodes,
                s.hashTbl, w', e', t', r'⟩ : Sys) (s.nodes.length + 1)
              (s.hashTbl (hashOf cfg.hashBits
                (stateWords cfg.nrWords
                  (writeWords d' (s.nodes.length * cfg.nrWords) ws)
                  s.nodes.length))) := hx
          rw [chainList_congr
            (⟨writeWords d' (s.nodes.length * cfg.nrWords) ws, s.nodes,
              s.hashTbl, w', e', t', r'⟩ : Sys) s rfl, ht1] at hx2
          have hv := hwf.chain_valid (hashOf cfg.hashBits ws)
            (hashOf_lt _ _) x hx2
          show stateWords cfg.nrWords
            (writeWords d' (s.nodes.length * cfg.nrWords) ws) x =
            stateWords cfg.nrWords
            (writeWords s.stData (s.nodes.length * cfg.nrWords) ws) x
          rw [hfrm1 x hv.1 hv.2, hfrm0 x hv.1 hv.2]
      have htt : typTryAt cfg M true s nprev tr =
          some ((hash_try cfg
          ({ s with stData :=
            writeWords s.stData (s.nodes.length * cfg.nrWords) ws } : Sys)
            true).1) := by
        simp only [typTryAt, hfr]
      have hglob := hash_try_noins_globals cfg
        (⟨writeWords d' (s.nodes.length * cfg.nrWords) ws, s.nodes,
          s.hashTbl, w', e', t', r'⟩ : Sys)
      have hred : typScan cfg M true nprev (count + 1)
          (⟨d', s.nodes, s.hashTbl, w', e', t', r'⟩ : Sys) tr =
          (if (hash_try cfg
              ({ s with stData :=
                writeWords s.stData (s.nodes.length * cfg.nrWords) ws } :
                Sys) true).1 ≠ 0 ∧
              (s.nodes.getD (hash_try cfg
                ({ s with stData :=
                  writeWords s.stData (s.nodes.length * cfg.nrWords) ws } :
                  Sys) true).1 node0).e_cnt ≠ 0 then
            ((hash_try cfg
              (⟨writeWords d' (s.nodes.length * cfg.nrWords) ws, s.nodes,
                s.hashTbl, w', e', t', r'⟩ : Sys) true).2,
              some (hash_try cfg
              ({ s with stData :=
                writeWords s.stData (s.nodes.length * cfg.nrWords) ws } :
                Sys) true).1)
          else typScan cfg M true nprev count
            (fire_init cfg.nrWords (hash_try cfg
              (⟨writeWords d' (s.nodes.length * cfg.nrWords) ws, s.nodes,
                s.hashTbl, w', e', t', r'⟩ : Sys) true).2 nprev)
            (tr + 1)) := by
        simp only [typScan, Sys.stData, Sys.nodes, hscr, hfr,
          Bool.true_eq_false, false_and, if_false, hglob.1, hAB]
      obtain ⟨hg1, hg2, hg3⟩ := hglob
      simp only [Sys.nodes, Sys.hashTbl, Sys.stData] at hg1 hg2 hg3
      have G1 : (fire_init cfg.nrWords (hash_try cfg
          (⟨writeWords d' (s.nodes.length * cfg.nrWords) ws, s.nodes,
            s.hashTbl, w', e', t', r'⟩ : Sys) true).2 nprev).nodes =
          s.nodes := by
        simp only [fire_init, use_state, Sys.nodes]
        exact hg1
      have G2 : (fire_init cfg.nrWords (hash_try cfg
          (⟨writeWords d' (s.nodes.length * cfg.nrWords) ws, s.nodes,
            s.hashTbl, w', e', t', r'⟩ : Sys) true).2 nprev).hashTbl =
          s.hashTbl := by
        simp only [fire_init, use_state, Sys.hashTbl]
        exact hg2
      have G3 : (fire_init cfg.nrWords (hash_try cfg
          (⟨writeWords d' (s.nodes.length * cfg.nrWords) ws, s.nodes,
            s.hashTbl, w', e', t', r'⟩ : Sys) true).2 nprev).stData.length =
          s.stData.length := by
        simp only [fire_init, use_state, Sys.stData]
        rw [writeWords_length, hg3, writeWords_length, hlen]
      have G4 : ∀ m, 1 ≤ m → m < s.nodes.length →
          stateWords cfg.nrWords (fire_init cfg.nrWords (hash_try cfg
            (⟨writeWords d' (s.nodes.length * cfg.nrWords) ws, s.nodes,
              s.hashTbl, w', e', t', r'⟩ : Sys) true).2 nprev).stData m =
          stateWords cfg.nrWords s.stData m := by
        intro m h1 h2
        simp only [fire_init, use_state, Sys.stData, Sys.nodes, hg1, hg3]
        rw [stateWords_write_frame _ _ _ _ _ (slot_le m _ _ h2)
          (by rw [writeWords_length, hlen, hwf.size]
              exact slot_le m _ _ (by omega))]
        exact hfrm1 m h1 h2
      have G5 : stateWords cfg.nrWords (fire_init cfg.nrWords (hash_try cfg
          (⟨writeWords d' (s.nodes.length * cfg.nrWords) ws, s.nodes,
            s.hashTbl, w', e', t', r'⟩ : Sys) true).2 nprev).stData
          s.nodes.length =
          stateWords cfg.nrWords s.stData nprev := by
        simp only [fire_init, use_state, Sys.stData, Sys.nodes, hg1, hg3]
        rw [stateWords_write_self cfg.nrWords
          (writeWords d' (s.nodes.length * cfg.nrWords) ws)
          (stateWords cfg.nrWords
            (writeWords d' (s.nodes.length * cfg.nrWords) ws) nprev)
          s.nodes.length
          (stateWords_length _ _ _
            (by rw [writeWords_length, hlen, hwf.size]
                exact slot_le nprev _ _ (by omega)))
          (by rw [writeWords_length, hlen, hwf.size, Nat.succ_mul])]
        exact hfrm1 nprev hnp1 hnp2
      have hIH := ih (fire_init cfg.nrWords (hash_try cfg
        (⟨writeWords d' (s.nodes.length * cfg.nrWords) ws, s.nodes,
          s.hashTbl, w', e', t', r'⟩ : Sys) true).2 nprev) (tr + 1)
        G1 G2 G3 G4 G5
      rw [hred]
      set c := (hash_try cfg
        ({ s with stData :=
          writeWords s.stData (s.nodes.length * cfg.nrWords) ws } : Sys)
        true).1 with hc
      constructor
      · intro hno
        have h0 := hno 0 (by omega) c (by rw [Nat.add_zero]; exact htt)
        have hnP : ¬(c ≠ 0 ∧ (s.nodes.getD c node0).e_cnt ≠ 0) := by
          rcases h0 with h | h
          · intro hP; exact hP.1 h
          · intro hP; exact hP.2 h
        rw [if_neg hnP]
        apply hIH.1
        intro k hk ni hni
        apply hno (k + 1) (by omega) ni
        rw [show tr + (k + 1) = tr + 1 + k from by omega]
        exact hni
      · intro k hk ni hni hni0 hec hmin
        cases k with
        | zero =>
          rw [Nat.add_zero, htt] at hni
          have hceq := Option.some.inj hni
          rw [if_pos ⟨by rw [hceq]; exact hni0, by rw [hceq]; exact hec⟩]
          show some c = some ni
          rw [hceq]
        | succ j =>
          have h0 := hmin 0 (by omega) c (by rw [Nat.add_zero]; exact htt)
          have hnP : ¬(c ≠ 0 ∧ (s.nodes.getD c node0).e_cnt ≠ 0) := by
            rcases h0 with h | h
            · intro hP; exact hP.1 h
            · intro hP; exact hP.2 h
          rw [if_neg hnP]
          apply hIH.2 j (by omega) ni ?_ hni0 hec ?_
          · rw [show tr + 1 + j = tr + (j + 1) from by omega]
            exact hni
          · intro i hi nj hnj
            apply hmin (i + 1) (by omega) nj
            rw [show tr + (i + 1) = tr + 1 + i from by omega]
            exact hnj

/-- **C4 (amended).**  In `print_typical`'s find-only scan from walk node
`nprev`, transitions are tried in ascending order and the walk adopts the
first fired successor whose looked-up index is nonzero and whose `e_cnt`
is nonzero (`if( ni && nodes[ni].e_cnt ){ tr = nr_trans; }`, line 500 —
the walk avoids old states whose `e_cnt == 0`, not the reverse); the scan
falls through to the current node — the loop-entry condition — exactly
when every transition is disabled or leads to an index-0 lookup or to a
node with `e_cnt = 0`. -/
theorem C4_scan_first_match (cfg : Config) (M : Model) (s : Sys)
    (nprev : ℕ) (hwf : HashWF cfg s)
    (hM : ∀ t ws res, M.fire t ws = some res → res.length = cfg.nrWords)
    (hnp1 : 1 ≤ nprev) (hnp2 : nprev < s.nodes.length)
    (hscr : stateWords cfg.nrWords s.stData s.nodes.length =
      stateWords cfg.nrWords s.stData nprev)
    (count tr : ℕ) :
    ((∀ k < count, ∀ ni, typTryAt cfg M true s nprev (tr + k) = some ni →
        ni = 0 ∨ (s.nodes.getD ni node0).e_cnt = 0) →
      (typScan cfg M true nprev count s tr).2 = none) ∧
    (∀ k < count, ∀ ni, typTryAt cfg M true s nprev (tr + k) = some ni →
      ni ≠ 0 → (s.nodes.getD ni node0).e_cnt ≠ 0 →
      (∀ j < k, ∀ nj, typTryAt cfg M true s nprev (tr + j) = some nj →
        nj = 0 ∨ (s.nodes.getD nj node0).e_cnt = 0) →
      (typScan cfg M true nprev count s tr).2 = some ni) :=
  typScan_spec cfg M s nprev hwf hM hnp1 hnp2 count s tr rfl rfl rfl
    (fun _ _ _ => rfl) hscr

/-- **C4, counterexample.**  From node 1 of `sC4`, transition 0 fires into
stored node 2, whose `e_cnt` is 0 — the successor the claim's
`e_cnt == 0` test would adopt — but the scan skips it and instead adopts
node 3 (`e_cnt = 5`), found by the later transition 1. -/
theorem C4_counterexample :
    (typTryAt cfgC4 MC4 true sC4 1 0 = some 2 ∧
      (sC4.nodes.getD 2 node0).e_cnt = 0) ∧
    (typTryAt cfgC4 MC4 true sC4 1 1 = some 3 ∧
      (sC4.nodes.getD 3 node0).e_cnt = 5) ∧
    (typScan cfgC4 MC4 true 1 MC4.nrTrans sC4 0).2 = some 3 := by
  refine ⟨⟨by decide, by decide⟩, ⟨by decide, by decide⟩, by decide⟩

/-- Witness for C4 (amended) on the concrete walk store `sC4`. -/
theorem C4_scan_first_match_witness :
    (stateWords cfgC4.nrWords sC4.stData sC4.nodes.length =
      stateWords cfgC4.nrWords sC4.stData 1) ∧
    (((∀ k < 2, ∀ ni, typTryAt cfgC4 MC4 true sC4 1 (0 + k) = some ni →
        ni = 0 ∨ (sC4.nodes.getD ni node0).e_cnt = 0) →
      (typScan cfgC4 MC4 true 1 2 sC4 0).2 = none) ∧
    (∀ k < 2, ∀ ni, typTryAt cfgC4 MC4 true sC4 1 (0 + k) = some ni →
      ni ≠ 0 → (sC4.nodes.getD ni node0).e_cnt ≠ 0 →
      (∀ j < k, ∀ nj, typTryAt cfgC4 MC4 true sC4 1 (0 + j) = some nj →
        nj = 0 ∨ (sC4.nodes.getD nj node0).e_cnt = 0) →
      (typScan cfgC4 MC4 true 1 2 sC4 0).2 = some ni)) :=
  ⟨by decide,
    C4_scan_first_match cfgC4 MC4 sC4 1
      ⟨by decide, by decide, by decide, by decide, by decide⟩
      (fun t ws res h => by
        simp only [MC4] at h
        split at h
        · split at h
          · injection h with h2
            rw [← h2]
            rfl
          · injection h with h2
            rw [← h2]
            rfl
        · exact Option.noConfusion h)
      (by decide) (by decide) (by decide) 2 0⟩

/-! ### Breadth-first minimality (claim C5): chain and depth tools -/

theorem getD_append_lt {α : Type} (l : List α) (x d : α) (i : ℕ)
    (h : i < l.length) : (l ++ [x]).getD i d = l.getD i d := by
  rw [List.getD_eq_getElem?_getD, List.getElem?_append_left h,
    List.getD_eq_getElem?_getD]

theorem getD_append_len {α : Type} (l : List α) (x d : α) :
    (l ++ [x]).getD l.length d = x := by
  rw [List.getD_eq_getElem?_getD, List.getElem?_append_right (Nat.le_refl _),
    Nat.sub_self]
  rfl

theorem getD_append_gt {α : Type} (l : List α) (x d : α) (i : ℕ)
    (h : l.length < i) : (l ++ [x]).getD i d = d := by
  rw [List.getD_eq_getElem?_getD, List.getElem?_eq_none]
  · rfl
  · simp only [List.length_append, List.length_cons, List.length_nil]
    omega

theorem set_snoc {α : Type} (l : List α) (x v : α) :
    (l ++ [x]).set l.length v = l ++ [v] := by
  induction l with
  | nil => rfl
  | cons a rest ih =>
    simp only [List.cons_append, List.length_cons, List.set_cons_succ, ih]

theorem hash_try_hit_eq (cfg : Config) (s : Sys) (no_ins : Bool)
    (hwf : HashWF cfg s) (b : ℕ) (hb1 : 1 ≤ b) (hbL : b < s.nodes.length)
    (heq : stateWords cfg.nrWords s.stData b =
      stateWords cfg.nrWords s.stData s.nodes.length) :
    hash_try cfg s no_ins = (b, { s with hashWasNew := false }) := by
  have hcf := chainFind_hit cfg s hwf b hbL hb1 heq
  simp only [hash_try, hcf]
  simp [show b ≠ 0 by omega]

theorem chainList_ext (sA sB : Sys)
    (hh : ∀ m, (sA.nodes.getD m node0).h_next =
      (sB.nodes.getD m node0).h_next) :
    ∀ (fuel ni : ℕ), chainList sA fuel ni = chainList sB fuel ni := by
  intro fuel
  induction fuel with
  | zero => intro ni; rfl
  | succ fuel ih =>
    intro ni
    by_cases h0 : ni = 0
    · subst h0; simp [chainList]
    · simp only [chainList, if_neg h0, hh, ih]

theorem chainTail_ext (sA sB : Sys)
    (hh : ∀ m, (sA.nodes.getD m node0).h_next =
      (sB.nodes.getD m node0).h_next) :
    ∀ (fuel ni : ℕ), chainTail sA fuel ni = chainTail sB fuel ni := by
  intro fuel
  induction fuel with
  | zero => intro ni; rfl
  | succ fuel ih =>
    intro ni
    by_cases h0 : ni = 0
    · subst h0; simp [chainTail]
    · simp only [chainTail, if_neg h0, hh, ih]

theorem chainTail_stable (s : Sys) :
    ∀ (f f' ni : ℕ), f ≤ f' → chainTail s f ni = 0 →
    chainTail s f' ni = 0 := by
  intro f
  induction f with
  | zero =>
    intro f' ni hle h0
    simp only [chainTail] at h0
    subst h0
    cases f' <;> simp [chainTail]
  | succ f ih =>
    intro f' ni hle h0
    by_cases hni : ni = 0
    · subst hni
      cases f' <;> simp [chainTail]
    · simp only [chainTail, if_neg hni] at h0
      obtain ⟨f2, rfl⟩ : ∃ f2, f' = f2 + 1 := ⟨f' - 1, by omega⟩
      simp only [chainTail, if_neg hni]
      exact ih f2 _ (by omega) h0

theorem chainList_stable (s : Sys) :
    ∀ (f f' ni : ℕ), f ≤ f' → chainTail s f ni = 0 →
    chainList s f' ni = chainList s f ni := by
  intro f
  induction f with
  | zero =>
    intro f' ni hle h0
    simp only [chainTail] at h0
    subst h0
    cases f' <;> simp [chainList]
  | succ f ih =>
    intro f' ni hle h0
    by_cases hni : ni = 0
    · subst hni
      cases f' <;> simp [chainList]
    · simp only [chainTail, if_neg hni] at h0
      obtain ⟨f2, rfl⟩ : ∃ f2, f' = f2 + 1 := ⟨f' - 1, by omega⟩
      simp only [chainList, if_neg hni]
      rw [ih f2 _ (by omega) h0]

theorem chainList_snoc (s sN : Sys) (nd : node_type)
    (hsn : sN.nodes = s.nodes ++ [nd]) :
    ∀ (fuel ni : ℕ), (∀ x ∈ chainList s fuel ni, x < s.nodes.length) →
    chainList sN fuel ni = chainList s fuel ni := by
  intro fuel
  induction fuel with
  | zero => intro ni h; rfl
  | succ fuel ih =>
    intro ni h
    by_cases h0 : ni = 0
    · subst h0; simp [chainList]
    · have hni : ni < s.nodes.length := by
        apply h
        simp only [chainList, if_neg h0]
        exact List.mem_cons_self _ _
      have hg : (sN.nodes.getD ni node0).h_next =
          (s.nodes.getD ni node0).h_next := by
        rw [hsn, getD_append_lt _ _ _ _ hni]
      simp only [chainList, if_neg h0, hg]
      rw [ih _ (fun x hx => h x (by
        simp only [chainList, if_neg h0]
        exact List.mem_cons_of_mem _ hx))]

theorem chainTail_snoc (s sN : Sys) (nd : node_type)
    (hsn : sN.nodes = s.nodes ++ [nd]) :
    ∀ (fuel ni : ℕ), (∀ x ∈ chainList s fuel ni, x < s.nodes.length) →
    chainTail sN fuel ni = chainTail s fuel ni := by
  intro fuel
  induction fuel with
  | zero => intro ni h; rfl
  | succ fuel ih =>
    intro ni h
    by_cases h0 : ni = 0
    · subst h0; simp [chainTail]
    · have hni : ni < s.nodes.length := by
        apply h
        simp only [chainList, if_neg h0]
        exact List.mem_cons_self _ _
      have hg : (sN.nodes.getD ni node0).h_next =
          (s.nodes.getD ni node0).h_next := by
        rw [hsn, getD_append_lt _ _ _ _ hni]
      simp only [chainTail, if_neg h0, hg]
      rw [ih _ (fun x hx => h x (by
        simp only [chainList, if_neg h0]
        exact List.mem_cons_of_mem _ hx))]

theorem HashWF_congr (cfg : Config) (s s' : Sys)
    (hlen2 : s'.nodes.length = s.nodes.length)
    (hh : ∀ m, (s'.nodes.getD m node0).h_next =
      (s.nodes.getD m node0).h_next)
    (ht : s'.hashTbl = s.hashTbl)
    (hdl : s'.stData.length = s.stData.length)
    (hws : ∀ m, 1 ≤ m → m < s.nodes.length →
      stateWords cfg.nrWords s'.stData m = stateWords cfg.nrWords s.stData m)
    (hwf : HashWF cfg s) : HashWF cfg s' := by
  have hcl := chainList_ext s' s hh
  have hct := chainTail_ext s' s hh
  constructor
  · rw [hdl, hlen2]
    exact hwf.size
  · intro b hb x hx
    rw [hcl, ht, hlen2] at hx
    have := hwf.chain_valid b hb x hx
    omega
  · intro b hb
    rw [hct, ht, hlen2]
    exact hwf.chain_end b hb
  · intro ni hni hni1
    rw [hlen2] at hni
    rw [hcl, ht, hlen2, hws ni hni1 hni]
    exact hwf.member ni hni hni1
  · intro ni hni nj hnj h1 h2 heq
    rw [hlen2] at hni hnj
    rw [hws ni h1 hni, hws nj h2 hnj] at heq
    exact hwf.distinct ni hni nj hnj h1 h2 heq

theorem prevChainLen_zero (nodes : List node_type) (f ni : ℕ)
    (hni : ni ≤ 1) : prevChainLen nodes f ni = 0 := by
  cases f with
  | zero => rfl
  | succ f => simp [prevChainLen, hni]

theorem prevChainLen_fuel (nodes : List node_type)
    (hdesc : ∀ m, 2 ≤ m → (nodes.getD m node0).prev < m) :
    ∀ (ni f1 f2 : ℕ), ni ≤ f1 → ni ≤ f2 →
    prevChainLen nodes f1 ni = prevChainLen nodes f2 ni := by
  intro ni
  induction ni using Nat.strong_induction_on with
  | _ ni ih =>
    intro f1 f2 h1 h2
    by_cases hni : ni ≤ 1
    · rw [prevChainLen_zero nodes f1 ni hni,
        prevChainLen_zero nodes f2 ni hni]
    · obtain ⟨g1, rfl⟩ : ∃ g, f1 = g + 1 := ⟨f1 - 1, by omega⟩
      obtain ⟨g2, rfl⟩ : ∃ g, f2 = g + 1 := ⟨f2 - 1, by omega⟩
      simp only [prevChainLen, if_neg hni]
      have hp := hdesc ni (by omega)
      rw [ih (nodes.getD ni node0).prev hp g1 g2 (by omega) (by omega)]

theorem depth_step_eq (nodes : List node_type)
    (hdesc : ∀ m, 2 ≤ m → (nodes.getD m node0).prev < m)
    (ni : ℕ) (h2 : 2 ≤ ni) :
    depth nodes ni = depth nodes (nodes.getD ni node0).prev + 1 := by
  show prevChainLen nodes ni ni = _
  obtain ⟨g, rfl⟩ : ∃ g, ni = g + 1 := ⟨ni - 1, by omega⟩
  simp only [prevChainLen, if_neg (show ¬ g + 1 ≤ 1 by omega)]
  have hp := hdesc (g + 1) h2
  rw [prevChainLen_fuel nodes hdesc (nodes.getD (g + 1) node0).prev g _
    (by omega) (Nat.le_refl _)]
  rfl

theorem prevChainLen_ext_lt (nodesA nodesB : List node_type) (L : ℕ)
    (hp : ∀ m, m < L → (nodesA.getD m node0).prev =
      (nodesB.getD m node0).prev)
    (hdesc : ∀ m, 2 ≤ m → m < L → (nodesA.getD m node0).prev < m) :
    ∀ (fuel ni : ℕ), ni < L →
    prevChainLen nodesA fuel ni = prevChainLen nodesB fuel ni := by
  intro fuel
  induction fuel with
  | zero => intro ni h; rfl
  | succ fuel ih =>
    intro ni h
    by_cases hni : ni ≤ 1
    · simp [prevChainLen, hni]
    · simp only [prevChainLen, if_neg hni, hp ni h]
      rw [← hp ni h, ih _ (by
        have := hdesc ni (by omega) h
        omega)]

theorem hash_try_promote (cfg : Config) (s : Sys) (hwf : HashWF cfg s)
    (hmiss : ∀ ni < s.nodes.length, 1 ≤ ni →
      stateWords cfg.nrWords s.stData ni ≠
        stateWords cfg.nrWords s.stData s.nodes.length)
    (hcap : ¬ cfg.stopCount < s.nodes.length) :
    hash_try cfg s false = (s.nodes.length, promote cfg s) := by
  have hcf := chainFind_miss cfg s hwf hmiss
  simp only [hash_try, hcf]
  simp [hcap, promote]

theorem HashWF_promote (cfg : Config) (s : Sys) (hwf : HashWF cfg s)
    (h1L : 1 ≤ s.nodes.length)
    (hmiss : ∀ ni < s.nodes.length, 1 ≤ ni →
      stateWords cfg.nrWords s.stData ni ≠
        stateWords cfg.nrWords s.stData s.nodes.length) :
    HashWF cfg (promote cfg s) := by
  have hidxlt : hashOf cfg.hashBits
      (stateWords cfg.nrWords s.stData s.nodes.length) < 2 ^ cfg.hashBits :=
    hashOf_lt _ _
  have hPlen : (promote cfg s).nodes.length = s.nodes.length + 1 := by
    simp [promote]
  have hPdata : (promote cfg s).stData =
      resizeTo s.stData ((s.nodes.length + 2) * cfg.nrWords) := rfl
  have hsn : (promote cfg s).nodes = s.nodes ++
      [{ node0 with
          h_next := s.hashTbl (hashOf cfg.hashBits
            (stateWords cfg.nrWords s.stData s.nodes.length)) }] := rfl
  have hwords : ∀ m, m ≤ s.nodes.length →
      stateWords cfg.nrWords (promote cfg s).stData m =
      stateWords cfg.nrWords s.stData m := by
    intro m hm
    rw [hPdata]
    apply stateWords_resize_frame
    · rw [hwf.size]
      exact slot_le m (s.nodes.length + 1) cfg.nrWords (by omega)
    · rw [hwf.size]
      exact Nat.mul_le_mul_right cfg.nrWords (by omega)
  have hchl : ∀ start, (∀ x ∈ chainList s (s.nodes.length + 1) start,
        1 ≤ x ∧ x < s.nodes.length) →
      chainTail s (s.nodes.length + 1) start = 0 →
      chainList (promote cfg s) (s.nodes.length + 1 + 1) start =
        chainList s (s.nodes.length + 1) start ∧
      chainTail (promote cfg s) (s.nodes.length + 1 + 1) start = 0 := by
    intro start hv he
    have h1 : chainList s (s.nodes.length + 1 + 1) start =
        chainList s (s.nodes.length + 1) start :=
      chainList_stable s _ _ start (by omega) he
    have hvx : ∀ x ∈ chainList s (s.nodes.length + 1 + 1) start,
        x < s.nodes.length := by
      rw [h1]
      exact fun x hx => (hv x hx).2
    constructor
    · rw [chainList_snoc s (promote cfg s) _ hsn _ start hvx, h1]
    · rw [chainTail_snoc s (promote cfg s) _ hsn _ start hvx]
      exact chainTail_stable s _ _ start (by omega) he
  have hLne : s.nodes.length ≠ 0 := by omega
  have hgdL : (promote cfg s).nodes.getD s.nodes.length node0 =
      { node0 with
        h_next := s.hashTbl (hashOf cfg.hashBits
          (stateWords cfg.nrWords s.stData s.nodes.length)) } := by
    rw [hsn]
    exact getD_append_len _ _ _
  have hupds : (promote cfg s).hashTbl
      (hashOf cfg.hashBits
        (stateWords cfg.nrWords s.stData s.nodes.length)) =
      s.nodes.length := Function.update_same _ _ _
  have hupdn : ∀ b, b ≠ hashOf cfg.hashBits
        (stateWords cfg.nrWords s.stData s.nodes.length) →
      (promote cfg s).hashTbl b = s.hashTbl b :=
    fun b hb => Function.update_noteq hb _ _
  have hheadchain : chainList (promote cfg s) (s.nodes.length + 1 + 1)
      s.nodes.length =
      s.nodes.length :: chainList s (s.nodes.length + 1)
        (s.hashTbl (hashOf cfg.hashBits
          (stateWords cfg.nrWords s.stData s.nodes.length))) := by
    conv_lhs => rw [chainList]
    rw [if_neg hLne, hgdL]
    show _ :: chainList (promote cfg s) (s.nodes.length + 1)
      (s.hashTbl (hashOf cfg.hashBits
        (stateWords cfg.nrWords s.stData s.nodes.length))) = _
    rw [chainList_snoc s (promote cfg s) _ hsn _ _
      (fun x hx => (hwf.chain_valid _ hidxlt x hx).2)]
  have hheadtail : chainTail (promote cfg s) (s.nodes.length + 1 + 1)
      s.nodes.length = 0 := by
    conv_lhs => rw [chainTail]
    rw [if_neg hLne, hgdL]
    show chainTail (promote cfg s) (s.nodes.length + 1)
      (s.hashTbl (hashOf cfg.hashBits
        (stateWords cfg.nrWords s.stData s.nodes.length))) = 0
    rw [chainTail_snoc s (promote cfg s) _ hsn _ _
      (fun x hx => (hwf.chain_valid _ hidxlt x hx).2)]
    exact hwf.chain_end _ hidxlt
  refine ⟨?_, ?_, ?_, ?_, ?_⟩
  · rw [hPdata, resizeTo_length, hPlen]
  · intro b hb x hx
    rw [hPlen] at hx ⊢
    by_cases hbi : b = hashOf cfg.hashBits
        (stateWords cfg.nrWords s.stData s.nodes.length)
    · subst hbi
      rw [hupds, hheadchain] at hx
      rcases List.mem_cons.mp hx with h | h
      · omega
      · have := hwf.chain_valid _ hidxlt x h
        omega
    · rw [hupdn b hbi,
        (hchl (s.hashTbl b) (hwf.chain_valid b hb)
          (hwf.chain_end b hb)).1] at hx
      have := hwf.chain_valid b hb x hx
      omega
  · intro b hb
    rw [hPlen]
    by_cases hbi : b = hashOf cfg.hashBits
        (stateWords cfg.nrWords s.stData s.nodes.length)
    · subst hbi
      rw [hupds]
      exact hheadtail
    · rw [hupdn b hbi]
      exact (hchl (s.hashTbl b) (hwf.chain_valid b hb)
        (hwf.chain_end b hb)).2
  · intro ni hni hni1
    rw [hPlen] at hni ⊢
    by_cases hniL : ni = s.nodes.length
    · subst hniL
      rw [hwords s.nodes.length (Nat.le_refl _), hupds, hheadchain]
      exact List.mem_cons_self _ _
    · have hnilt : ni < s.nodes.length := by omega
      rw [hwords ni (by omega)]
      have hmem := hwf.member ni hnilt hni1
      have hblt := hashOf_lt cfg.hashBits
        (stateWords cfg.nrWords s.stData ni)
      by_cases hbi : hashOf cfg.hashBits
          (stateWords cfg.nrWords s.stData ni) =
          hashOf cfg.hashBits
            (stateWords cfg.nrWords s.stData s.nodes.length)
      · rw [hbi, hupds, hheadchain]
        apply List.mem_cons_of_mem
        rw [← hbi]
        exact hmem
      · rw [hupdn _ hbi,
          (hchl _ (hwf.chain_valid _ hblt) (hwf.chain_end _ hblt)).1]
        exact hmem
  · intro ni hni nj hnj h1 h2 heq
    rw [hPlen] at hni hnj
    by_cases hniL : ni = s.nodes.length <;>
      by_cases hnjL : nj = s.nodes.length
    · rw [hniL, hnjL]
    · rw [hniL, hwords s.nodes.length (Nat.le_refl _),
        hwords nj (by omega)] at heq
      exact absurd heq.symm (hmiss nj (by omega) h2)
    · rw [hnjL, hwords s.nodes.length (Nat.le_refl _),
        hwords ni (by omega)] at heq
      exact absurd heq (hmiss ni (by omega) h1)
    · rw [hwords ni (by omega), hwords nj (by omega)] at heq
      exact hwf.distinct ni (by omega) nj (by omega) h1 h2 heq

theorem desc_of_inv (cfg : Config) (M : Model) (s : Sys) (q : ℕ)
    (inv : BfsInv cfg M s q) :
    ∀ m, 2 ≤ m → (s.nodes.getD m node0).prev < m := by
  intro m h2
  by_cases hm : m < s.nodes.length
  · exact (inv.prev_ok m h2 hm).2.1
  · rw [List.getD_eq_getElem?_getD, List.getElem?_eq_none (by omega)]
    show node0.prev < m
    simp only [node0]
    omega

/-- The invariant package for a freshly promoted node: if the store `FS`
extends `s` by one node whose `prev` is the expanding queue node `q` and
whose slot holds the fired state, all breadth-first invariants carry
over. -/
theorem promote_pack (cfg : Config) (M : Model) (s FS : Sys) (q tr : ℕ)
    (ws : List ℕ) (nd : node_type)
    (inv : BfsInv cfg M s q) (hqL : q < s.nodes.length) (hq1 : 1 ≤ q)
    (htr : tr < M.nrTrans)
    (hdesc : ∀ m, 2 ≤ m → (s.nodes.getD m node0).prev < m)
    (hfrq : M.fire tr (stateWords cfg.nrWords s.stData q) = some ws)
    (hn : FS.nodes = s.nodes ++ [nd])
    (hnd : nd.prev = q)
    (hwfF : HashWF cfg FS)
    (herrF : FS.err = none)
    (hws1 : ∀ m, 1 ≤ m → m < s.nodes.length →
      stateWords cfg.nrWords FS.stData m =
        stateWords cfg.nrWords s.stData m)
    (hwsL : stateWords cfg.nrWords FS.stData s.nodes.length = ws)
    (hscrF : stateWords cfg.nrWords FS.stData (s.nodes.length + 1) =
      stateWords cfg.nrWords s.stData q) :
    BfsInv cfg M FS q ∧ FS.err = none ∧
    s.nodes.length ≤ s.nodes.length + 1 ∧
    stateWords cfg.nrWords FS.stData (s.nodes.length + 1) =
      stateWords cfg.nrWords FS.stData q ∧
    (∀ m, m < s.nodes.length →
      (FS.nodes.getD m node0).prev = (s.nodes.getD m node0).prev) ∧
    (∀ m, 1 ≤ m → m < s.nodes.length →
      stateWords cfg.nrWords FS.stData m =
        stateWords cfg.nrWords s.stData m) ∧
    (∀ m, m < s.nodes.length → depth FS.nodes m = depth s.nodes m) ∧
    (∀ ws2, M.fire tr (stateWords cfg.nrWords s.stData q) = some ws2 →
      ∃ b, 1 ≤ b ∧ b < s.nodes.length + 1 ∧
        stateWords cfg.nrWords FS.stData b = ws2 ∧
        depth FS.nodes b ≤ depth s.nodes q + 1) := by
  have hlenF : FS.nodes.length = s.nodes.length + 1 := by
    rw [hn]
    simp
  have hpsN : ∀ m, m < s.nodes.length →
      (FS.nodes.getD m node0).prev = (s.nodes.getD m node0).prev := by
    intro m hm
    rw [hn, getD_append_lt _ _ _ _ hm]
  have hgdN : FS.nodes.getD s.nodes.length node0 = nd := by
    rw [hn]
    exact getD_append_len _ _ _
  have hdescN : ∀ m, 2 ≤ m → (FS.nodes.getD m node0).prev < m := by
    intro m h2
    rcases Nat.lt_trichotomy m s.nodes.length with h | h | h
    · rw [hpsN m h]
      exact hdesc m h2
    · subst h
      rw [hgdN, hnd]
      exact hqL
    · rw [hn, getD_append_gt _ _ _ _ h]
      show node0.prev < m
      simp only [node0]
      omega
  have hdepN : ∀ m, m < s.nodes.length →
      depth FS.nodes m = depth s.nodes m := by
    intro m hm
    exact prevChainLen_ext_lt FS.nodes s.nodes s.nodes.length hpsN
      (fun k hk2 hkL => by rw [hpsN k hkL]; exact hdesc k hk2) m m hm
  have hdepL : depth FS.nodes s.nodes.length = depth s.nodes q + 1 := by
    rw [depth_step_eq FS.nodes hdescN s.nodes.length inv.two_le, hgdN, hnd,
      hdepN q hqL]
  refine ⟨⟨hwfF, ?_, inv.q_one, ?_, ?_, ?_, ?_, ?_⟩, herrF, by omega,
    hscrF.trans (hws1 q hq1 hqL).symm, hpsN, hws1, hdepN, ?_⟩
  · rw [hlenF]
    have := inv.two_le
    omega
  · rw [hpsN 1 (by have := inv.two_le; omega)]
    exact inv.prev1
  · intro ni h2 hniL
    rw [hlenF] at hniL
    by_cases hL : ni = s.nodes.length
    · subst hL
      refine ⟨?_, ?_, ?_⟩
      · rw [hgdN, hnd]
        exact hq1
      · rw [hgdN, hnd]
        exact hqL
      · rw [hgdN, hnd]
        refine ⟨by omega, by rw [hlenF]; omega, tr, htr, ?_⟩
        rw [hws1 q hq1 hqL, hwsL]
        exact hfrq
    · have hniL2 : ni < s.nodes.length := by omega
      have hold := inv.prev_ok ni h2 hniL2
      refine ⟨?_, ?_, ?_⟩
      · rw [hpsN ni hniL2]
        exact hold.1
      · rw [hpsN ni hniL2]
        exact hold.2.1
      · rw [hpsN ni hniL2]
        obtain ⟨hb1, hbLs, t, ht2, heq⟩ := hold.2.2
        refine ⟨hb1, by omega, t, ht2, ?_⟩
        have hpv := hold.2.1
        rw [hws1 _ hold.1 (by omega), hws1 ni hb1 hbLs]
        exact heq
  · intro i j h1 hij hjL
    rw [hlenF] at hjL
    by_cases hjL2 : j = s.nodes.length
    · subst hjL2
      rw [hdepL]
      by_cases hiL2 : i = s.nodes.length
      · subst hiL2
        rw [hdepL]
      · rw [hdepN i (by omega)]
        have := inv.tight hqL i h1 (by omega)
        omega
    · rw [hdepN i (by omega), hdepN j (by omega)]
      exact inv.mono i j h1 hij (by omega)
  · intro hq2 i h1 hiL
    rw [hlenF] at hiL
    rw [hdepN q hqL]
    by_cases hiL2 : i = s.nodes.length
    · subst hiL2
      rw [hdepL]
    · rw [hdepN i (by omega)]
      exact inv.tight hqL i h1 (by omega)
  · intro a h1 haq t ht2 ws2 hf2
    rw [hws1 a h1 (by omega)] at hf2
    obtain ⟨b2, hb21, hb2L, hb2w, hb2d⟩ :=
      inv.expanded a h1 haq t ht2 ws2 hf2
    refine ⟨b2, hb21, by omega, ?_, ?_⟩
    · rw [hws1 b2 hb21 hb2L]
      exact hb2w
    · rw [hdepN b2 hb2L, hdepN a (by omega)]
      exact hb2d
  · intro ws2 hws2
    rw [hfrq] at hws2
    have hwseq : ws = ws2 := Option.some.inj hws2
    subst hwseq
    exact ⟨s.nodes.length, by have := inv.two_le; omega, by omega, hwsL,
      Nat.le_of_eq hdepL⟩

/-- One forward trial from the queue node `q` preserves the breadth-first
invariant (or stops everything with an error): the globals stay
well-formed, stored states, `prev` pointers and depths are untouched, the
scratch slot again holds `q`'s words, and whatever state the transition
fired is stored at depth at most `depth q + 1`. -/
theorem try_transition_inv (cfg : Config) (M : Model) (s : Sys)
    (q tr : ℕ)
    (hM : ∀ t ws res, M.fire t ws = some res → res.length = cfg.nrWords)
    (inv : BfsInv cfg M s q) (hqL : q < s.nodes.length)
    (herr : s.err = none)
    (hscr : stateWords cfg.nrWords s.stData s.nodes.length =
      stateWords cfg.nrWords s.stData q)
    (hcap : ¬ cfg.stopCount < s.nodes.length)
    (htr : tr < M.nrTrans) :
    (try_transition cfg M s q tr).sys.err.isSome = true ∨
    (BfsInv cfg M (try_transition cfg M s q tr).sys q ∧
      (try_transition cfg M s q tr).sys.err = none ∧
      s.nodes.length ≤ (try_transition cfg M s q tr).sys.nodes.length ∧
      stateWords cfg.nrWords (try_transition cfg M s q tr).sys.stData
        (try_transition cfg M s q tr).sys.nodes.length =
        stateWords cfg.nrWords (try_transition cfg M s q tr).sys.stData q ∧
      (∀ m, m < s.nodes.length →
        ((try_transition cfg M s q tr).sys.nodes.getD m node0).prev =
          (s.nodes.getD m node0).prev) ∧
      (∀ m, 1 ≤ m → m < s.nodes.length →
        stateWords cfg.nrWords (try_transition cfg M s q tr).sys.stData m =
          stateWords cfg.nrWords s.stData m) ∧
      (∀ m, m < s.nodes.length →
        depth (try_transition cfg M s q tr).sys.nodes m =
          depth s.nodes m) ∧
      (∀ ws, M.fire tr (stateWords cfg.nrWords s.stData q) = some ws →
        ∃ b, 1 ≤ b ∧ b < (try_transition cfg M s q tr).sys.nodes.length ∧
          stateWords cfg.nrWords
            (try_transition cfg M s q tr).sys.stData b = ws ∧
          depth (try_transition cfg M s q tr).sys.nodes b ≤
            depth s.nodes q + 1)) := by
  have hq1 : 1 ≤ q := inv.q_one
  have hdesc := desc_of_inv cfg M s q inv
  cases hfe : M.fireErr tr
      (stateWords cfg.nrWords s.stData s.nodes.length) with
  | some m =>
    left
    simp [try_transition, hfe]
  | none =>
    cases hfr : M.fire tr
        (stateWords cfg.nrWords s.stData s.nodes.length) with
    | none =>
      right
      have hfrq : M.fire tr (stateWords cfg.nrWords s.stData q) = none := by
        rw [← hscr]
        exact hfr
      have hsys : (try_transition cfg M s q tr).sys = s := by
        simp only [try_transition, hfr, hfe, herr, Option.isSome_none,
          Bool.false_eq_true, if_false, TTResult.sys]
        rw [← herr]
      rw [hsys]
      refine ⟨inv, herr, Nat.le_refl _, hscr, fun m _ => rfl,
        fun m _ _ => rfl, fun m _ => rfl, ?_⟩
      intro ws hws
      rw [hfrq] at hws
      exact Option.noConfusion hws
    | some ws =>
      have hws : ws.length = cfg.nrWords := hM tr _ ws hfr
      have hfrq : M.fire tr (stateWords cfg.nrWords s.stData q) =
          some ws := by
        rw [← hscr]
        exact hfr
      have hfrm : ∀ m, m < s.nodes.length →
          stateWords cfg.nrWords
            (writeWords s.stData (s.nodes.length * cfg.nrWords) ws) m =
          stateWords cfg.nrWords s.stData m := by
        intro m h2
        apply stateWords_write_frame
        · exact slot_le m _ _ h2
        · rw [inv.wf.size]
          exact slot_le m _ _ (by omega)
      have hwself : stateWords cfg.nrWords
          (writeWords s.stData (s.nodes.length * cfg.nrWords) ws)
          s.nodes.length = ws :=
        stateWords_write_self _ _ _ _ hws
          (by rw [inv.wf.size, Nat.succ_mul])
      have hdepth : ∀ (nodes2 : List node_type),
          (∀ m, m < s.nodes.length →
            (nodes2.getD m node0).prev = (s.nodes.getD m node0).prev) →
          ∀ m, m < s.nodes.length → depth nodes2 m = depth s.nodes m := by
        intro nodes2 hp m hm
        exact prevChainLen_ext_lt nodes2 s.nodes s.nodes.length hp
          (fun k h2 hk => by rw [hp k hk]; exact hdesc k h2) m m hm
      have hfires : ∀ (s2 : Sys),
          (∀ m, 1 ≤ m → m < s.nodes.length →
            stateWords cfg.nrWords s2.stData m =
              stateWords cfg.nrWords s.stData m) →
          s.nodes.length ≤ s2.nodes.length →
          ∀ a b2, 1 ≤ a → a < s.nodes.length → b2 < s.nodes.length →
          fires cfg M s a b2 → fires cfg M s2 a b2 := by
        intro s2 hst hle a b2 ha1 haL hbL2 hf
        obtain ⟨hb1, hbLs, t, ht2, heq⟩ := hf
        exact ⟨hb1, by omega, t, ht2,
          by rw [hst a ha1 haL, hst b2 hb1 hbL2]; exact heq⟩
      have hwf1 : HashWF cfg ({ s with
          stData := writeWords s.stData (s.nodes.length * cfg.nrWords) ws,
          err := none } : Sys) :=
        HashWF_congr cfg s _ rfl (fun _ => rfl) rfl
          (writeWords_length _ _ _) (fun m _ h2 => hfrm m h2) inv.wf
      by_cases hex : ∃ b, 1 ≤ b ∧ b < s.nodes.length ∧
          stateWords cfg.nrWords s.stData b = ws
      · obtain ⟨b, hb1, hbL, hbw⟩ := hex
        have hhit : hash_try cfg ({ s with
            stData :=
              writeWords s.stData (s.nodes.length * cfg.nrWords) ws,
            err := none } : Sys) false =
            (b, { s with
              stData :=
                writeWords s.stData (s.nodes.length * cfg.nrWords) ws,
              err := none, hashWasNew := false }) := by
          apply hash_try_hit_eq cfg _ false hwf1 b hb1 hbL
          show stateWords cfg.nrWords
            (writeWords s.stData (s.nodes.length * cfg.nrWords) ws) b =
            stateWords cfg.nrWords
            (writeWords s.stData (s.nodes.length * cfg.nrWords) ws)
            s.nodes.length
          rw [hfrm b hbL, hwself, hbw]
        right
        have hprevset : ∀ (v : node_type),
            v.prev = (s.nodes.getD b node0).prev →
            ∀ m, m < s.nodes.length →
            ((s.nodes.set b v).getD m node0).prev =
              (s.nodes.getD m node0).prev := by
          intro v hv m hm
          by_cases hmb : b = m
          · subst hmb
            rw [getD_set_self _ _ _ _ (by omega), hv]
          · rw [getD_set_ne _ _ _ _ _ hmb]
        have hnextset : ∀ (v : node_type),
            v.h_next = (s.nodes.getD b node0).h_next →
            ∀ m, ((s.nodes.set b v).getD m node0).h_next =
              (s.nodes.getD m node0).h_next := by
          intro v hv m
          by_cases hmb : b = m
          · subst hmb
            rw [getD_set_self _ _ _ _ (by omega), hv]
          · rw [getD_set_ne _ _ _ _ _ hmb]
        have hfrm2 : ∀ m, m < s.nodes.length →
            stateWords cfg.nrWords
              (writeWords
                (writeWords s.stData (s.nodes.length * cfg.nrWords) ws)
                (s.nodes.length * cfg.nrWords)
                (stateWords cfg.nrWords
                  (writeWords s.stData (s.nodes.length * cfg.nrWords) ws)
                  q)) m =
            stateWords cfg.nrWords s.stData m := by
          intro m h2
          rw [stateWords_write_frame _ _ _ _ _ (slot_le m _ _ h2)
            (by rw [writeWords_length, inv.wf.size]
                exact slot_le m _ _ (by omega))]
          exact hfrm m h2
        have hscr2 : stateWords cfg.nrWords
            (writeWords
              (writeWords s.stData (s.nodes.length * cfg.nrWords) ws)
              (s.nodes.length * cfg.nrWords)
              (stateWords cfg.nrWords
                (writeWords s.stData (s.nodes.length * cfg.nrWords) ws)
                q)) s.nodes.length =
            stateWords cfg.nrWords s.stData q := by
          rw [stateWords_write_self _ _ _ _
            (stateWords_length _ _ _
              (by rw [writeWords_length, inv.wf.size]
                  exact slot_le q _ _ (by omega)))
            (by rw [writeWords_length, inv.wf.size, Nat.succ_mul])]
          exact hfrm q hqL
        simp only [try_transition, hash_insert, hfr, hfe, herr,
          Option.isSome_none, Bool.false_eq_true, if_false, hhit,
          TTResult.sys, Sys.nodes, Sys.stData, Sys.hashWasNew, Sys.err,
          fire_init, use_state, List.length_set]
        have hps : ∀ m, m < s.nodes.length →
            ((s.nodes.set b { s.nodes.getD b node0 with
                e_cnt := (s.nodes.getD b node0).e_cnt + 1 }).getD
              m node0).prev = (s.nodes.getD m node0).prev :=
          hprevset _ rfl
        have hns : ∀ m,
            ((s.nodes.set b { s.nodes.getD b node0 with
                e_cnt := (s.nodes.getD b node0).e_cnt + 1 }).getD
              m node0).h_next = (s.nodes.getD m node0).h_next :=
          hnextset _ rfl
        have hdep2 : ∀ m, m < s.nodes.length →
            depth (s.nodes.set b { s.nodes.getD b node0 with
              e_cnt := (s.nodes.getD b node0).e_cnt + 1 }) m =
            depth s.nodes m :=
          hdepth _ hps
        refine ⟨?_, trivial, Nat.le_refl _,
          hscr2.trans (hfrm2 q hqL).symm, fun m hm => hps m hm,
          fun m _ h2 => hfrm2 m h2,
          fun m hm => hdep2 m hm, ?_⟩
        · refine ⟨?_, ?_, inv.q_one, ?_, ?_, ?_, ?_, ?_⟩
          · exact HashWF_congr cfg s _ (by rw [List.length_set])
              (hns) rfl
              (by rw [writeWords_length, writeWords_length])
              (fun m _ h2 => hfrm2 m h2) inv.wf
          · show 2 ≤ (s.nodes.set b _).length
            rw [List.length_set]
            exact inv.two_le
          · rw [hps 1 (by omega)]
            exact inv.prev1
          · intro ni h2 hniL
            rw [List.length_set] at hniL
            have hold := inv.prev_ok ni h2 hniL
            refine ⟨?_, ?_, ?_⟩
            · rw [hps ni hniL]
              exact hold.1
            · rw [hps ni hniL]
              exact hold.2.1
            · rw [hps ni hniL]
              exact hfires _ (fun m h1 hm => hfrm2 m hm)
                (by rw [List.length_set]) _ ni
                hold.1 (by omega) hniL hold.2.2
          · intro i j h1 hij hjL
            rw [List.length_set] at hjL
            rw [hdep2 i (by omega),
              hdep2 j hjL]
            exact inv.mono i j h1 hij hjL
          · intro hqL2 i h1 hiL
            rw [List.length_set] at hiL
            rw [hdep2 i hiL,
              hdep2 q hqL]
            exact inv.tight hqL i h1 hiL
          · intro a h1 haq t ht2 ws2 hfire2
            rw [hfrm2 a (by omega)] at hfire2
            obtain ⟨b2, hb21, hb2L, hb2w, hb2d⟩ :=
              inv.expanded a h1 haq t ht2 ws2 hfire2
            refine ⟨b2, hb21, by rw [List.length_set]; omega, ?_, ?_⟩
            · rw [hfrm2 b2 hb2L]
              exact hb2w
            · rw [hdep2 b2 hb2L,
                hdep2 a (by omega)]
              exact hb2d
        · intro ws2 hws2
          rw [hfrq] at hws2
          have hwseq : ws = ws2 := Option.some.inj hws2
          subst hwseq
          refine ⟨b, hb1, by omega, ?_, ?_⟩
          · rw [hfrm2 b hbL]
            exact hbw
          · rw [hdep2 b hbL]
            exact inv.tight hqL b hb1 hbL
      · have hmiss2 : ∀ ni, ni < s.nodes.length → 1 ≤ ni →
            stateWords cfg.nrWords
              (writeWords s.stData (s.nodes.length * cfg.nrWords) ws) ni ≠
            stateWords cfg.nrWords
              (writeWords s.stData (s.nodes.length * cfg.nrWords) ws)
              s.nodes.length := by
          intro ni hni h1 heq
          rw [hfrm ni hni, hwself] at heq
          exact hex ⟨ni, h1, hni, heq⟩
        have h2L : 2 ≤ s.nodes.length := inv.two_le
        have hpro : hash_try cfg ({ s with
            stData :=
              writeWords s.stData (s.nodes.length * cfg.nrWords) ws,
            err := none } : Sys) false =
            (s.nodes.length, promote cfg ({ s with
              stData :=
                writeWords s.stData (s.nodes.length * cfg.nrWords) ws,
              err := none } : Sys)) :=
          hash_try_promote cfg _ hwf1 hmiss2 hcap
        have hwfP : HashWF cfg (promote cfg ({ s with
            stData :=
              writeWords s.stData (s.nodes.length * cfg.nrWords) ws,
            err := none } : Sys)) :=
          HashWF_promote cfg _ hwf1 (show 1 ≤ s.nodes.length by omega) hmiss2
        have hws1F : ∀ m, 1 ≤ m → m < s.nodes.length →
            stateWords cfg.nrWords (writeWords (resizeTo (writeWords s.stData (s.nodes.length * cfg.nrWords) ws) ((s.nodes.length + 2) * cfg.nrWords)) ((s.nodes.length + 1) * cfg.nrWords) (stateWords cfg.nrWords (resizeTo (writeWords s.stData (s.nodes.length * cfg.nrWords) ws) ((s.nodes.length + 2) * cfg.nrWords)) q)) m =
            stateWords cfg.nrWords s.stData m := by
          intro m h1 hm
          rw [stateWords_write_frame _ _ _ _ _ (slot_le m _ _ (by omega))
            (by rw [resizeTo_length]
                exact slot_le m _ _ (by omega))]
          rw [stateWords_resize_frame _ _ _ _
            (by rw [writeWords_length, inv.wf.size]
                exact slot_le m _ _ (by omega))
            (by rw [writeWords_length, inv.wf.size]
                exact Nat.mul_le_mul_right _ (by omega))]
          exact hfrm m hm
        have hwsLF : stateWords cfg.nrWords (writeWords (resizeTo (writeWords s.stData (s.nodes.length * cfg.nrWords) ws) ((s.nodes.length + 2) * cfg.nrWords)) ((s.nodes.length + 1) * cfg.nrWords) (stateWords cfg.nrWords (resizeTo (writeWords s.stData (s.nodes.length * cfg.nrWords) ws) ((s.nodes.length + 2) * cfg.nrWords)) q)) s.nodes.length = ws := by
          rw [stateWords_write_frame _ _ _ _ _ (slot_le _ _ _ (by omega))
            (by rw [resizeTo_length]
                exact slot_le _ _ _ (by omega))]
          rw [stateWords_resize_frame _ _ _ _
            (by rw [writeWords_length, inv.wf.size, Nat.succ_mul])
            (by rw [writeWords_length, inv.wf.size]
                exact Nat.mul_le_mul_right _ (by omega))]
          exact hwself
        have hscrFF : stateWords cfg.nrWords (writeWords (resizeTo (writeWords s.stData (s.nodes.length * cfg.nrWords) ws) ((s.nodes.length + 2) * cfg.nrWords)) ((s.nodes.length + 1) * cfg.nrWords) (stateWords cfg.nrWords (resizeTo (writeWords s.stData (s.nodes.length * cfg.nrWords) ws) ((s.nodes.length + 2) * cfg.nrWords)) q)) (s.nodes.length + 1) =
            stateWords cfg.nrWords s.stData q := by
          rw [stateWords_write_self _ _ _ _
            (stateWords_length _ _ _
              (by rw [resizeTo_length]
                  exact slot_le q _ _ (by omega)))
            (by rw [resizeTo_length]
                have hpl : (s.nodes.length + 2) * cfg.nrWords =
                    (s.nodes.length + 1) * cfg.nrWords + cfg.nrWords := by
                  ring
                omega)]
          rw [stateWords_resize_frame _ _ _ _
            (by rw [writeWords_length, inv.wf.size]
                exact slot_le q _ _ (by omega))
            (by rw [writeWords_length, inv.wf.size]
                exact Nat.mul_le_mul_right _ (by omega))]
          exact hfrm q hqL
        have hpnodes : (promote cfg ({ s with stData := writeWords s.stData (s.nodes.length * cfg.nrWords) ws, err := none } : Sys)).nodes =
            s.nodes ++ [(⟨s.hashTbl (hashOf cfg.hashBits (stateWords cfg.nrWords (writeWords s.stData (s.nodes.length * cfg.nrWords) ws) s.nodes.length)), node0.prev, node0.e_cnt, node0.p_next, node0.ie_end⟩ : node_type)] := rfl
        have hwfF : HashWF cfg (⟨(writeWords (resizeTo (writeWords s.stData (s.nodes.length * cfg.nrWords) ws) ((s.nodes.length + 2) * cfg.nrWords)) ((s.nodes.length + 1) * cfg.nrWords) (stateWords cfg.nrWords (resizeTo (writeWords s.stData (s.nodes.length * cfg.nrWords) ws) ((s.nodes.length + 2) * cfg.nrWords)) q)), (s.nodes ++ [(⟨s.hashTbl (hashOf cfg.hashBits (stateWords cfg.nrWords (writeWords s.stData (s.nodes.length * cfg.nrWords) ws) s.nodes.length)), q, node0.e_cnt + 1, node0.p_next, node0.ie_end⟩ : node_type)]), (Function.update s.hashTbl (hashOf cfg.hashBits (stateWords cfg.nrWords (writeWords s.stData (s.nodes.length * cfg.nrWords) ws) s.nodes.length)) s.nodes.length), true, s.nrEdges + 1, s.nodes.length + 1, none⟩ : Sys) := by
          apply HashWF_congr cfg (promote cfg ({ s with stData := writeWords s.stData (s.nodes.length * cfg.nrWords) ws, err := none } : Sys))
            (⟨(writeWords (resizeTo (writeWords s.stData (s.nodes.length * cfg.nrWords) ws) ((s.nodes.length + 2) * cfg.nrWords)) ((s.nodes.length + 1) * cfg.nrWords) (stateWords cfg.nrWords (resizeTo (writeWords s.stData (s.nodes.length * cfg.nrWords) ws) ((s.nodes.length + 2) * cfg.nrWords)) q)), (s.nodes ++ [(⟨s.hashTbl (hashOf cfg.hashBits (stateWords cfg.nrWords (writeWords s.stData (s.nodes.length * cfg.nrWords) ws) s.nodes.length)), q, node0.e_cnt + 1, node0.p_next, node0.ie_end⟩ : node_type)]), (Function.update s.hashTbl (hashOf cfg.hashBits (stateWords cfg.nrWords (writeWords s.stData (s.nodes.length * cfg.nrWords) ws) s.nodes.length)) s.nodes.length), true, s.nrEdges + 1, s.nodes.length + 1, none⟩ : Sys)
            (by simp [promote]) ?hh rfl ?hdl ?hws hwfP
          case hh =>
            intro m
            rw [hpnodes]
            rcases Nat.lt_trichotomy m s.nodes.length with h | h | h
            · show ((s.nodes ++ [(⟨s.hashTbl (hashOf cfg.hashBits (stateWords cfg.nrWords (writeWords s.stData (s.nodes.length * cfg.nrWords) ws) s.nodes.length)), q, node0.e_cnt + 1, node0.p_next, node0.ie_end⟩ : node_type)]).getD m node0).h_next = _
              rw [getD_append_lt _ _ _ _ h, getD_append_lt _ _ _ _ h]
            · subst h
              show ((s.nodes ++ [(⟨s.hashTbl (hashOf cfg.hashBits (stateWords cfg.nrWords (writeWords s.stData (s.nodes.length * cfg.nrWords) ws) s.nodes.length)), q, node0.e_cnt + 1, node0.p_next, node0.ie_end⟩ : node_type)]).getD s.nodes.length node0).h_next = _
              rw [getD_append_len, getD_append_len]
            · show ((s.nodes ++ [(⟨s.hashTbl (hashOf cfg.hashBits (stateWords cfg.nrWords (writeWords s.stData (s.nodes.length * cfg.nrWords) ws) s.nodes.length)), q, node0.e_cnt + 1, node0.p_next, node0.ie_end⟩ : node_type)]).getD m node0).h_next = _
              rw [getD_append_gt _ _ _ _ h, getD_append_gt _ _ _ _ h]
          case hdl =>
            show (writeWords (resizeTo (writeWords s.stData (s.nodes.length * cfg.nrWords) ws) ((s.nodes.length + 2) * cfg.nrWords)) ((s.nodes.length + 1) * cfg.nrWords) (stateWords cfg.nrWords (resizeTo (writeWords s.stData (s.nodes.length * cfg.nrWords) ws) ((s.nodes.length + 2) * cfg.nrWords)) q)).length = _
            rw [writeWords_length]
            rfl
          case hws =>
            intro m h1 hm
            have hm2 : m < s.nodes.length + 1 := by
              simpa [promote] using hm
            show stateWords cfg.nrWords (writeWords (resizeTo (writeWords s.stData (s.nodes.length * cfg.nrWords) ws) ((s.nodes.length + 2) * cfg.nrWords)) ((s.nodes.length + 1) * cfg.nrWords) (stateWords cfg.nrWords (resizeTo (writeWords s.stData (s.nodes.length * cfg.nrWords) ws) ((s.nodes.length + 2) * cfg.nrWords)) q)) m = _
            rw [stateWords_write_frame _ _ _ _ _ (slot_le m _ _ hm2)
              (by rw [resizeTo_length]
                  exact slot_le m _ _ (by omega))]
            rfl
        have hp := promote_pack cfg M s (⟨(writeWords (resizeTo (writeWords s.stData (s.nodes.length * cfg.nrWords) ws) ((s.nodes.length + 2) * cfg.nrWords)) ((s.nodes.length + 1) * cfg.nrWords) (stateWords cfg.nrWords (resizeTo (writeWords s.stData (s.nodes.length * cfg.nrWords) ws) ((s.nodes.length + 2) * cfg.nrWords)) q)), (s.nodes ++ [(⟨s.hashTbl (hashOf cfg.hashBits (stateWords cfg.nrWords (writeWords s.stData (s.nodes.length * cfg.nrWords) ws) s.nodes.length)), q, node0.e_cnt + 1, node0.p_next, node0.ie_end⟩ : node_type)]), (Function.update s.hashTbl (hashOf cfg.hashBits (stateWords cfg.nrWords (writeWords s.stData (s.nodes.length * cfg.nrWords) ws) s.nodes.length)) s.nodes.length), true, s.nrEdges + 1, s.nodes.length + 1, none⟩ : Sys) q tr ws
          (⟨s.hashTbl (hashOf cfg.hashBits (stateWords cfg.nrWords (writeWords s.stData (s.nodes.length * cfg.nrWords) ws) s.nodes.length)), q, node0.e_cnt + 1, node0.p_next, node0.ie_end⟩ : node_type) inv hqL hq1 htr hdesc hfrq rfl rfl hwfF rfl hws1F hwsLF
          hscrFF
        cases hchk : M.checkState with
        | none =>
          right
          simp only [try_transition, hash_insert, hfr, hfe, herr, hpro,
            hchk, Option.isSome_none, Bool.false_eq_true, if_false,
            TTResult.sys, Sys.nodes, Sys.stData, Sys.hashWasNew, Sys.err,
            Sys.hashTbl, promote, fire_init, use_state, getD_append_len,
            set_snoc, List.length_append, List.length_set,
            List.length_cons, List.length_nil, Nat.zero_add, if_true]
          exact ⟨hp.1, trivial, hp.2.2.1, hp.2.2.2.1, hp.2.2.2.2.1,
            hp.2.2.2.2.2.1, hp.2.2.2.2.2.2.1, hp.2.2.2.2.2.2.2⟩
        | some chk =>
          by_cases hc2 : (chk (stateWords cfg.nrWords (resizeTo (writeWords s.stData (s.nodes.length * cfg.nrWords) ws) ((s.nodes.length + 2) * cfg.nrWords))
              s.nodes.length)).isSome = true
          · left
            simp only [try_transition, hash_insert, hfr, hfe, herr, hpro,
              hchk, Option.isSome_none, Bool.false_eq_true, if_false,
              TTResult.sys, Sys.nodes, Sys.stData, Sys.hashWasNew, Sys.err,
              Sys.hashTbl, promote, fire_init, use_state, getD_append_len,
              set_snoc, List.length_append, List.length_set,
              List.length_cons, List.length_nil, Nat.zero_add, if_true,
              hc2]
          · have hc2n : chk (stateWords cfg.nrWords (resizeTo (writeWords s.stData (s.nodes.length * cfg.nrWords) ws) ((s.nodes.length + 2) * cfg.nrWords))
                s.nodes.length) = none :=
              Option.not_isSome_iff_eq_none.mp hc2
            right
            simp only [try_transition, hash_insert, hfr, hfe, herr, hpro,
              hchk, Option.isSome_none, Bool.false_eq_true, if_false,
              TTResult.sys, Sys.nodes, Sys.stData, Sys.hashWasNew, Sys.err,
              Sys.hashTbl, promote, fire_init, use_state, getD_append_len,
              set_snoc, List.length_append, List.length_set,
              List.length_cons, List.length_nil, Nat.zero_add, if_true,
              hc2n]
            exact ⟨hp.1, trivial, hp.2.2.1, hp.2.2.2.1, hp.2.2.2.2.1,
              hp.2.2.2.2.2.1, hp.2.2.2.2.2.2.1, hp.2.2.2.2.2.2.2⟩

/-- The breadth-first invariant only depends on the node table, the hash
table and the stored words, so it transfers to any state agreeing on
those. -/
theorem BfsInv_congr (cfg : Config) (M : Model) (s s2 : Sys) (q : ℕ)
    (hqL : q ≤ s.nodes.length)
    (hn : s2.nodes = s.nodes)
    (ht : s2.hashTbl = s.hashTbl)
    (hdl : s2.stData.length = s.stData.length)
    (hws : ∀ m, 1 ≤ m → m < s.nodes.length →
      stateWords cfg.nrWords s2.stData m = stateWords cfg.nrWords s.stData m)
    (inv : BfsInv cfg M s q) : BfsInv cfg M s2 q := by
  have hwf : HashWF cfg s2 :=
    HashWF_congr cfg s s2 (by rw [hn]) (fun m => by rw [hn]) ht hdl hws
      inv.wf
  refine ⟨hwf, ?_, inv.q_one, ?_, ?_, ?_, ?_, ?_⟩
  · rw [hn]; exact inv.two_le
  · rw [hn]; exact inv.prev1
  · intro ni h2 hni
    rw [hn] at hni
    obtain ⟨ha, hb, hc⟩ := inv.prev_ok ni h2 hni
    rw [hn]
    refine ⟨ha, hb, ?_⟩
    obtain ⟨hb1, hbL, tr, htr, hfire⟩ := hc
    refine ⟨hb1, by rw [hn]; exact hbL, tr, htr, ?_⟩
    rw [hws _ ha (by omega), hws ni (by omega) hni]
    exact hfire
  · intro i j h1 hij hj
    rw [hn] at hj ⊢
    exact inv.mono i j h1 hij hj
  · intro hq i h1 hi
    rw [hn] at hq hi ⊢
    exact inv.tight hq i h1 hi
  · intro a h1 haq t ht2 ws hf
    rw [hws a h1 (by omega)] at hf
    obtain ⟨b, hb1, hbL, hbw, hbd⟩ := inv.expanded a h1 haq t ht2 ws hf
    refine ⟨b, hb1, by rw [hn]; exact hbL, ?_, ?_⟩
    · rw [hws b hb1 hbL]; exact hbw
    · rw [hn]; exact hbd

/-- The inner transition loop of one queue node preserves the
breadth-first invariant (or stops with an error): globals stay stable for
the already-stored prefix, the scratch slot again holds the queue node's
words, and every state fired by a listed transition from the queue node
ends up stored at depth at most `depth q + 1`. -/
theorem tryAll_inv (cfg : Config) (M : Model) (q : ℕ)
    (hM : ∀ t ws res, M.fire t ws = some res → res.length = cfg.nrWords) :
    ∀ (L : List ℕ) (s : Sys),
    (∀ tr ∈ L, tr < M.nrTrans) →
    BfsInv cfg M s q → q < s.nodes.length → s.err = none →
    stateWords cfg.nrWords s.stData s.nodes.length =
      stateWords cfg.nrWords s.stData q →
    ¬ cfg.stopCount < (tryAll cfg M q s L).nodes.length →
    (tryAll cfg M q s L).err.isSome = true ∨
    (BfsInv cfg M (tryAll cfg M q s L) q ∧
      (tryAll cfg M q s L).err = none ∧
      s.nodes.length ≤ (tryAll cfg M q s L).nodes.length ∧
      stateWords cfg.nrWords (tryAll cfg M q s L).stData
        (tryAll cfg M q s L).nodes.length =
        stateWords cfg.nrWords (tryAll cfg M q s L).stData q ∧
      (∀ m, m < s.nodes.length →
        ((tryAll cfg M q s L).nodes.getD m node0).prev =
          (s.nodes.getD m node0).prev) ∧
      (∀ m, 1 ≤ m → m < s.nodes.length →
        stateWords cfg.nrWords (tryAll cfg M q s L).stData m =
          stateWords cfg.nrWords s.stData m) ∧
      (∀ m, m < s.nodes.length →
        depth (tryAll cfg M q s L).nodes m = depth s.nodes m) ∧
      (∀ tr ∈ L, ∀ ws,
        M.fire tr (stateWords cfg.nrWords s.stData q) = some ws →
        ∃ b, 1 ≤ b ∧ b < (tryAll cfg M q s L).nodes.length ∧
          stateWords cfg.nrWords (tryAll cfg M q s L).stData b = ws ∧
          depth (tryAll cfg M q s L).nodes b ≤ depth s.nodes q + 1)) := by
  intro L
  induction L with
  | nil =>
    intro s _ inv hqL herr hscr _
    right
    refine ⟨inv, herr, Nat.le_refl _, hscr, fun m _ => rfl,
      fun m _ _ => rfl, fun m _ => rfl, ?_⟩
    intro tr htr
    exact absurd htr (List.not_mem_nil tr)
  | cons t rest ih =>
    intro s hmem inv hqL herr hscr hcapF
    have ht : t < M.nrTrans := hmem t (List.mem_cons_self t rest)
    obtain ⟨F1, F2, F3⟩ := try_transition_frame cfg M s q t hM inv.wf.size
    have hcap : ¬ cfg.stopCount < s.nodes.length := by
      by_cases he : (try_transition cfg M s q t).sys.err.isSome = true
      · have h0 : tryAll cfg M q s (t :: rest) =
            (try_transition cfg M s q t).sys := by
          simp only [tryAll]
          rw [if_pos he]
        rw [h0] at hcapF
        omega
      · have h0 : tryAll cfg M q s (t :: rest) =
            tryAll cfg M q (try_transition cfg M s q t).sys rest := by
          simp only [tryAll]
          rw [if_neg he]
        obtain ⟨_, G2, _⟩ := tryAll_frame cfg M q hM rest
          (try_transition cfg M s q t).sys F3
        rw [h0] at hcapF
        omega
    rcases try_transition_inv cfg M s q t hM inv hqL herr hscr hcap ht with
      he | ⟨inv1, herr1, hlen1, hscr1, hprev1, hws1, hdep1, hsucc1⟩
    · left
      have h0 : tryAll cfg M q s (t :: rest) =
          (try_transition cfg M s q t).sys := by
        simp only [tryAll]
        rw [if_pos he]
      rw [h0]
      exact he
    · have hne : ¬ ((try_transition cfg M s q t).sys.err.isSome = true) := by
        rw [herr1]
        simp
      have h0 : tryAll cfg M q s (t :: rest) =
          tryAll cfg M q (try_transition cfg M s q t).sys rest := by
        simp only [tryAll]
        rw [if_neg hne]
      rw [h0] at hcapF ⊢
      have hmem2 : ∀ tr ∈ rest, tr < M.nrTrans := fun tr h =>
        hmem tr (List.mem_cons_of_mem t h)
      rcases ih (try_transition cfg M s q t).sys hmem2 inv1
          (by omega) herr1 hscr1 hcapF with
        he2 | ⟨inv2, herr2, hlen2, hscr2, hprev2, hws2, hdep2, hsucc2⟩
      · left
        exact he2
      · right
        refine ⟨inv2, herr2, by omega, hscr2, ?_, ?_, ?_, ?_⟩
        · intro m hm
          rw [hprev2 m (by omega), hprev1 m hm]
        · intro m h1 hm
          rw [hws2 m h1 (by omega), hws1 m h1 hm]
        · intro m hm
          rw [hdep2 m (by omega), hdep1 m hm]
        · intro tr htr2 ws hfw
          rcases List.mem_cons.mp htr2 with htt | htt
          · subst htt
            obtain ⟨b, hb1, hbL, hbw, hbd⟩ := hsucc1 ws hfw
            refine ⟨b, hb1, by omega, ?_, ?_⟩
            · rw [hws2 b hb1 hbL]
              exact hbw
            · rw [hdep2 b hbL]
              exact hbd
          · have hfw2 : M.fire tr (stateWords cfg.nrWords
                (try_transition cfg M s q t).sys.stData q) = some ws := by
              rw [hws1 q inv.q_one hqL]
              exact hfw
            obtain ⟨b, hb1, hbL, hbw, hbd⟩ := hsucc2 tr htt ws hfw2
            refine ⟨b, hb1, hbL, hbw, ?_⟩
            rw [hdep1 q hqL] at hbd
            exact hbd

/-- One whole queue-node expansion preserves the breadth-first invariant
and advances the cursor (or stops with an error): after processing queue
node `q` every transition from `q` has its successor stored at depth at
most `depth q + 1`, so the invariant holds at cursor `q + 1`. -/
theorem bfsStep_inv (cfg : Config) (M : Model)
    (cdl : Option (List ℕ → Option String)) (s : Sys) (q : ℕ)
    (hM : ∀ t ws res, M.fire t ws = some res → res.length = cfg.nrWords)
    (inv : BfsInv cfg M s q) (hqL : q < s.nodes.length)
    (herr : s.err = none)
    (hcapF : ¬ cfg.stopCount < (bfsStep cfg M cdl s q).nodes.length) :
    (bfsStep cfg M cdl s q).err.isSome = true ∨
    (BfsInv cfg M (bfsStep cfg M cdl s q) (q + 1) ∧
      (bfsStep cfg M cdl s q).err = none ∧
      s.nodes.length ≤ (bfsStep cfg M cdl s q).nodes.length) := by
  have hlenEq : (bfsStep cfg M cdl s q).nodes.length =
      (tryAll cfg M q (fire_init cfg.nrWords s q)
        (List.range M.nrTrans).reverse).nodes.length := by
    simp only [bfsStep]
    split
    · rfl
    · split
      · split
        · rfl
        · rfl
      · rfl
  have hcap2 : ¬ cfg.stopCount <
      (tryAll cfg M q (fire_init cfg.nrWords s q)
        (List.range M.nrTrans).reverse).nodes.length := by
    rw [hlenEq] at hcapF
    exact hcapF
  have hdl1 : (fire_init cfg.nrWords s q).stData.length = s.stData.length :=
    writeWords_length _ _ _
  have hws1f : ∀ m, 1 ≤ m → m < s.nodes.length →
      stateWords cfg.nrWords (fire_init cfg.nrWords s q).stData m =
        stateWords cfg.nrWords s.stData m := by
    intro m h1 hm
    exact stateWords_write_frame _ _ _ _ _ (slot_le m _ _ hm)
      (by rw [inv.wf.size]
          exact slot_le m _ _ (by omega))
  have inv1 : BfsInv cfg M (fire_init cfg.nrWords s q) q :=
    BfsInv_congr cfg M s (fire_init cfg.nrWords s q) q (by omega) rfl rfl
      hdl1 hws1f inv
  have hscr1 : stateWords cfg.nrWords (fire_init cfg.nrWords s q).stData
      (fire_init cfg.nrWords s q).nodes.length =
      stateWords cfg.nrWords (fire_init cfg.nrWords s q).stData q := by
    simp only [fire_init, use_state, Sys.stData, Sys.nodes]
    rw [stateWords_write_self _ _ _ _
        (stateWords_length _ _ _
          (by rw [inv.wf.size]
              exact slot_le q _ _ (by omega)))
        (by rw [inv.wf.size, Nat.succ_mul]),
      stateWords_write_frame _ _ _ _ _ (slot_le q _ _ hqL)
        (by rw [inv.wf.size]
            exact slot_le q _ _ (by omega))]
  have hmemRL : ∀ tr ∈ (List.range M.nrTrans).reverse, tr < M.nrTrans := by
    intro tr h2
    rw [List.mem_reverse] at h2
    exact List.mem_range.mp h2
  rcases tryAll_inv cfg M q hM (List.range M.nrTrans).reverse
      (fire_init cfg.nrWords s q) hmemRL inv1 hqL herr hscr1 hcap2 with
    he | ⟨inv2, herr2, hlen2, hscr2, hprev2, hws2, hdep2, hsucc2⟩
  · left
    simp only [bfsStep]
    rw [if_pos he]
    exact he
  · have hlen2s : s.nodes.length ≤
        (tryAll cfg M q (fire_init cfg.nrWords s q)
        (List.range M.nrTrans).reverse).nodes.length := hlen2
    have inv3 : BfsInv cfg M
        (tryAll cfg M q (fire_init cfg.nrWords s q)
        (List.range M.nrTrans).reverse) (q + 1) := by
      refine ⟨inv2.wf, inv2.two_le, by omega, inv2.prev1, inv2.prev_ok,
        inv2.mono, ?_, ?_⟩
      · intro hq2 i h1 hi
        have t2 := inv2.mono q (q + 1) inv2.q_one (by omega) hq2
        have t1 := inv2.tight (by omega) i h1 hi
        omega
      · intro a h1 ha t ht2 ws hf
        by_cases haq : a < q
        · exact inv2.expanded a h1 haq t ht2 ws hf
        · have hae : a = q := by omega
          rw [hae] at hf ⊢
          rw [hws2 q inv.q_one hqL] at hf
          obtain ⟨b, hb1, hbL, hbw, hbd⟩ := hsucc2 t
            (by rw [List.mem_reverse]
                exact List.mem_range.mpr ht2) ws hf
          refine ⟨b, hb1, hbL, hbw, ?_⟩
          have hdq : depth
              (tryAll cfg M q (fire_init cfg.nrWords s q)
              (List.range M.nrTrans).reverse).nodes q =
              depth s.nodes q := hdep2 q hqL
          have hbd2 : depth
              (tryAll cfg M q (fire_init cfg.nrWords s q)
              (List.range M.nrTrans).reverse).nodes b ≤
              depth s.nodes q + 1 := hbd
          omega
    have hne : ¬ ((tryAll cfg M q (fire_init cfg.nrWords s q)
        (List.range M.nrTrans).reverse).err.isSome = true) := by
      rw [herr2]
      simp
    by_cases hoe : s.nrEdges = (tryAll cfg M q (fire_init cfg.nrWords s q)
        (List.range M.nrTrans).reverse).nrEdges
    · cases cdl with
      | none =>
        have hres : bfsStep cfg M none s q =
            (tryAll cfg M q (fire_init cfg.nrWords s q)
        (List.range M.nrTrans).reverse) := by
          simp only [bfsStep]
          rw [if_neg hne, if_pos hoe]
        rw [hres]
        right
        exact ⟨inv3, herr2, hlen2s⟩
      | some f =>
        cases hfE : f (stateWords cfg.nrWords
            (tryAll cfg M q (fire_init cfg.nrWords s q)
        (List.range M.nrTrans).reverse).stData q) with
        | some m =>
          left
          have hres : bfsStep cfg M (some f) s q =
              { use_state (tryAll cfg M q (fire_init cfg.nrWords s q)
        (List.range M.nrTrans).reverse) q with err := some m } := by
            simp only [bfsStep]
            rw [if_neg hne, if_pos hoe, hfE]
          rw [hres]
          rfl
        | none =>
          right
          have hres : bfsStep cfg M (some f) s q =
              { use_state (tryAll cfg M q (fire_init cfg.nrWords s q)
        (List.range M.nrTrans).reverse) q with err := none } := by
            simp only [bfsStep]
            rw [if_neg hne, if_pos hoe, hfE]
          rw [hres]
          refine ⟨?_, rfl, ?_⟩
          · exact BfsInv_congr cfg M
              (tryAll cfg M q (fire_init cfg.nrWords s q)
        (List.range M.nrTrans).reverse)
              { use_state (tryAll cfg M q (fire_init cfg.nrWords s q)
        (List.range M.nrTrans).reverse) q with err := none }
              (q + 1) (by omega) rfl rfl rfl (fun m _ _ => rfl) inv3
          · exact hlen2s
    · right
      have hres : bfsStep cfg M cdl s q =
          (tryAll cfg M q (fire_init cfg.nrWords s q)
        (List.range M.nrTrans).reverse) := by
        simp only [bfsStep]
        rw [if_neg hne, if_neg hoe]
      rw [hres]
      exact ⟨inv3, herr2, hlen2s⟩

/-- The node table only grows across the fuelled queue loop. -/
theorem bfsLoop_len_mono (cfg : Config) (M : Model)
    (cdl : Option (List ℕ → Option String))
    (hM : ∀ t ws res, M.fire t ws = some res → res.length = cfg.nrWords) :
    ∀ (fuel : ℕ) (s : Sys) (q : ℕ),
    s.stData.length = (s.nodes.length + 1) * cfg.nrWords →
    s.nodes.length ≤ (bfsLoop cfg M cdl fuel s q).nodes.length := by
  intro fuel
  induction fuel with
  | zero =>
    intro s q _
    exact Nat.le_refl _
  | succ fuel ih =>
    intro s q hsize
    simp only [bfsLoop]
    split
    · obtain ⟨B1, B2, B3⟩ := bfsStep_frame cfg M cdl s q hM hsize
      split
      · exact B2
      · have := ih (bfsStep cfg M cdl s q) (q + 1) B3
        omega
    · exact Nat.le_refl _

/-- If the queue loop drains completely (the fuel did not run out and no
error stopped it) within the capacity bound, the final state satisfies the
breadth-first invariant with the cursor at the end of the node table —
i.e. every stored node has been fully expanded. -/
theorem bfs_master (cfg : Config) (M : Model)
    (cdl : Option (List ℕ → Option String))
    (hM : ∀ t ws res, M.fire t ws = some res → res.length = cfg.nrWords) :
    ∀ (fuel : ℕ) (s : Sys) (q : ℕ),
    BfsInv cfg M s q → q ≤ s.nodes.length → s.err = none →
    bfsDone cfg M cdl fuel s q = true →
    ¬ cfg.stopCount < (bfsLoop cfg M cdl fuel s q).nodes.length →
    BfsInv cfg M (bfsLoop cfg M cdl fuel s q)
      (bfsLoop cfg M cdl fuel s q).nodes.length ∧
    s.nodes.length ≤ (bfsLoop cfg M cdl fuel s q).nodes.length := by
  intro fuel
  induction fuel with
  | zero =>
    intro s q _ _ _ hdone _
    simp [bfsDone] at hdone
  | succ fuel ih =>
    intro s q inv hqle herr hdone hroom
    simp only [bfsDone] at hdone
    simp only [bfsLoop] at hroom ⊢
    by_cases hql : q < s.nodes.length
    · rw [if_pos hql] at hdone hroom ⊢
      by_cases hse : (bfsStep cfg M cdl s q).err.isSome = true
      · rw [if_pos hse] at hdone
        simp at hdone
      · rw [if_neg hse] at hdone hroom ⊢
        obtain ⟨B1, B2, B3⟩ := bfsStep_frame cfg M cdl s q hM inv.wf.size
        have hcapStep : ¬ cfg.stopCount <
            (bfsStep cfg M cdl s q).nodes.length := by
          have := bfsLoop_len_mono cfg M cdl hM fuel
            (bfsStep cfg M cdl s q) (q + 1) B3
          omega
        rcases bfsStep_inv cfg M cdl s q hM inv hql herr hcapStep with
          he | ⟨inv1, herr1, hlen1⟩
        · exact absurd he hse
        · have hres := ih (bfsStep cfg M cdl s q) (q + 1) inv1
            (by omega) herr1 hdone hroom
          exact ⟨hres.1, by omega⟩
    · rw [if_neg hql] at hroom ⊢
      have hq : q = s.nodes.length := by omega
      subst hq
      exact ⟨inv, Nat.le_refl _⟩

theorem PathN_snoc (R : ℕ → ℕ → Prop) :
    ∀ (x y n : ℕ), PathN R x y n → ∀ z2, R y z2 → PathN R x z2 (n + 1) := by
  intro x y n hp
  induction hp with
  | refl w =>
    intro z2 h
    exact PathN.step h (PathN.refl z2)
  | step hr hp2 ih =>
    intro z2 h
    exact PathN.step hr (ih z2 h)

/-- Soundness of the `prev` chains: in a fully expanded store the chain
from any stored node back to node 1 is an actual path of the discovered
transition relation, of length `depth`. -/
theorem bfs_sound (cfg : Config) (M : Model) (F : Sys)
    (inv : BfsInv cfg M F F.nodes.length) :
    ∀ ni, 1 ≤ ni → ni < F.nodes.length →
    PathN (fires cfg M F) 1 ni (depth F.nodes ni) := by
  have hdesc := desc_of_inv cfg M F F.nodes.length inv
  intro ni
  induction ni using Nat.strong_induction_on with
  | _ ni ih =>
    intro h1 hL
    by_cases h2 : 2 ≤ ni
    · obtain ⟨hp1, hpni, hpf⟩ := inv.prev_ok ni h2 hL
      rw [depth_step_eq F.nodes hdesc ni h2]
      exact PathN_snoc _ 1 _ _ (ih _ hpni hp1 (by omega)) ni hpf
    · have h1e : ni = 1 := by omega
      subst h1e
      have hd : depth F.nodes 1 = 0 := rfl
      rw [hd]
      exact PathN.refl 1

/-- Minimality: in a fully expanded store no path of the discovered
transition relation from a stored node is shorter than the recorded
depth difference. -/
theorem bfs_min (cfg : Config) (M : Model) (F : Sys)
    (inv : BfsInv cfg M F F.nodes.length) :
    ∀ (k a b : ℕ), PathN (fires cfg M F) a b k → 1 ≤ a →
    a < F.nodes.length →
    depth F.nodes b ≤ depth F.nodes a + k := by
  intro k a b hp
  induction hp with
  | refl x =>
    intro _ _
    omega
  | step hr hp2 ih =>
    intro h1 hL
    obtain ⟨hy1, hyL, tr, htr, hf⟩ := hr
    obtain ⟨b2, hb21, hb2L, hb2w, hb2d⟩ :=
      inv.expanded _ h1 hL tr htr _ hf
    have hyb : b2 = _ := inv.wf.distinct b2 hb2L _ hyL hb21 hy1 hb2w
    rw [hyb] at hb2d
    have hrec := ih hy1 hyL
    omega

/-- **C5.**  BFS minimality: after `build_state_space` completes its
forward pass (the queue drained within the fuel and the capacity bound,
starting from the standard initial store of node 1 with `prev = 0`), for
every discovered node the length of the `prev`-pointer chain from that
node back to node 1 — each `prev` having been written exactly once, at the
node's creation, to the queue node from which the search first reached
it — equals the shortest-path distance from the initial state to that node
in the discovered transition graph: the chain itself projects to a path of
exactly that length, and no path of the discovered relation from node 1 to
the node is shorter. -/
theorem C5_bfs_minimality (cfg : Config) (M : Model)
    (cdl : Option (List ℕ → Option String)) (fuel : ℕ) (s : Sys)
    (hM : ∀ t ws res, M.fire t ws = some res → res.length = cfg.nrWords)
    (hwf : HashWF cfg s) (hlen : s.nodes.length = 2)
    (hprev : (s.nodes.getD 1 node0).prev = 0) (herr : s.err = none)
    (hdone : bfsDone cfg M cdl fuel s 1 = true)
    (hroom : ¬ cfg.stopCount <
      (build_state_space cfg M cdl fuel s).nodes.length) :
    ∀ ni, 1 ≤ ni →
      ni < (build_state_space cfg M cdl fuel s).nodes.length →
      PathN (fires cfg M (build_state_space cfg M cdl fuel s)) 1 ni
        (depth (build_state_space cfg M cdl fuel s).nodes ni) ∧
      ∀ k,
        PathN (fires cfg M (build_state_space cfg M cdl fuel s)) 1 ni k →
        depth (build_state_space cfg M cdl fuel s).nodes ni ≤ k := by
  have hinv0 : BfsInv cfg M s 1 := by
    refine ⟨hwf, by omega, Nat.le_refl 1, hprev, ?_, ?_, ?_, ?_⟩
    · intro ni h2 hni
      exact absurd h2 (by omega)
    · intro i j h1 hij hj
      have hi1 : i = 1 := by omega
      have hj1 : j = 1 := by omega
      rw [hi1, hj1]
    · intro hq i h1 hi
      have hi1 : i = 1 := by omega
      rw [hi1]
      omega
    · intro a h1 ha t ht2 ws hf
      exact absurd h1 (by omega)
  have hmaster := bfs_master cfg M cdl hM fuel s 1 hinv0 (by omega) herr
    hdone hroom
  have hinvF : BfsInv cfg M (build_state_space cfg M cdl fuel s)
      (build_state_space cfg M cdl fuel s).nodes.length := hmaster.1
  have hm2 : s.nodes.length ≤
      (build_state_space cfg M cdl fuel s).nodes.length := hmaster.2
  intro ni h1 hL
  refine ⟨bfs_sound cfg M _ hinvF ni h1 hL, ?_⟩
  intro k hp
  have hmin := bfs_min cfg M _ hinvF k 1 ni hp (Nat.le_refl 1) (by omega)
  have hd1 : depth (build_state_space cfg M cdl fuel s).nodes 1 = 0 := rfl
  omega

/-- Witness for C5: on the three-state chain model the search stores state
`[2]` as node 2; its `prev` chain has length 1, it is an actual
transition path from node 1, and it is the shortest one. -/
theorem C5_bfs_minimality_witness :
    PathN (fires cfgC5 MC5 (build_state_space cfgC5 MC5 none 10 sC5)) 1 2
      (depth (build_state_space cfgC5 MC5 none 10 sC5).nodes 2) ∧
    depth (build_state_space cfgC5 MC5 none 10 sC5).nodes 2 ≤ 1 :=
  have h := C5_bfs_minimality cfgC5 MC5 none 10 sC5
    (fun t ws res h => by
      simp only [MC5] at h
      split at h
      · injection h with h2
        rw [← h2]
        rfl
      · split at h
        · injection h with h2
          rw [← h2]
          rfl
        · exact Option.noConfusion h)
    ⟨by decide, by decide, by decide, by decide, by decide⟩
    (by decide) (by decide) rfl (by decide) (by decide) 2 (by decide)
    (by decide)
  ⟨h.1, h.2 1 (PathN.step
    ⟨by decide, by decide, 0, by decide, by decide⟩ (PathN.refl 2))⟩

end Asset

